import Mathlib

/-!
# LwMEM first-fit allocator: embedding and verification

Shallow embedding of `lwmem.c` / `lwmem.h`.

* Machine words (`size_t`, pointers) are natural numbers below `2 ^ W`; every C
  operation that can wrap is written with an explicit `% 2 ^ W`.
* Memory is a map from addresses to block headers (`lwmem_block_t`).  The head
  sentinel `object->head` is the header stored at the address of the object.
* The build is the default one of `lwmem_config_ex.h` for the operating-system
  switch (`LWMEM_CONFIG_USE_OS == 0`); the alignment, the word width, the size
  of the header structure and `LWMEM_CONFIG_USE_VERIFY_REGION` are parameters.
* The two `while` loops walk a linked list that lives in memory; they are
  embedded with a step budget of `2 ^ W` iterations and return `none` when the
  budget is exhausted.
-/

namespace LwMEM

/-! ## Configuration and machine words -/

/-- Build parameters: `W` is the width in bits of `size_t`, `A` is
`LWMEM_CONFIG_BYTE_ALIGNMENT`, `hsz` is `sizeof(lwmem_block_t)` and `verify` is
`LWMEM_CONFIG_USE_VERIFY_REGION != 0`. -/
structure Config where
  W : Nat
  A : Nat
  hsz : Nat
  verify : Bool

/-- Admissible builds: the alignment is a power of two (enforced by the
`#error` of `lwmem_config_ex.h`), the header is not empty, and header plus
alignment are small against the address space. -/
def Config.WF (c : Config) : Prop :=
  (∃ k, c.A = 2 ^ k) ∧ 0 < c.hsz ∧ 4 * (c.hsz + c.A) ≤ 2 ^ (c.W - 1) ∧ 0 < c.W

/-- Wrapping addition of `size_t`. -/
def wadd (c : Config) (x y : Nat) : Nat := (x + y) % 2 ^ c.W

/-- Wrapping subtraction of `size_t`. -/
def wsub (c : Config) (x y : Nat) : Nat := (x + (2 ^ c.W - y % 2 ^ c.W)) % 2 ^ c.W

/-- Bitwise complement of a `size_t`. -/
def wnot (c : Config) (x : Nat) : Nat := (2 ^ c.W - 1) ^^^ (x % 2 ^ c.W)

/-- Left shift of a `size_t`. -/
def wshl (c : Config) (x i : Nat) : Nat := (x <<< i) % 2 ^ c.W

/-! ## The macros of `lwmem.c` -/

/-- `LWMEM_BYTE_ALIGNMENT_LOWER(value)`. -/
def LWMEM_BYTE_ALIGNMENT_LOWER (c : Config) (value : Nat) : Nat :=
  value &&& wnot c (wsub c c.A 1)

/-- `LWMEM_BYTE_ALIGNMENT_UPPER(value)`. -/
def LWMEM_BYTE_ALIGNMENT_UPPER (c : Config) (value : Nat) : Nat :=
  LWMEM_BYTE_ALIGNMENT_LOWER c (wadd c value (wsub c c.A 1))

/-- `LWMEM_BYTE_ALIGNMENT_LOWER_DECREASE(value)`. -/
def LWMEM_BYTE_ALIGNMENT_LOWER_DECREASE (c : Config) (value : Nat) : Nat :=
  value &&& wsub c c.A 1

/-- `LWMEM_BYTE_ALIGNMENT_UPPER_INCREASE(value)`. -/
def LWMEM_BYTE_ALIGNMENT_UPPER_INCREASE (c : Config) (value : Nat) : Nat :=
  wsub c ((wadd c value (wsub c c.A 1)) &&& wnot c (wsub c c.A 1)) value

/-- `LWMEM_BLOCK_SIZE_ALLOCATED_BITMASK`. -/
def LWMEM_BLOCK_SIZE_ALLOCATED_BITMASK (c : Config) : Nat :=
  wshl c 1 (c.W - 1)

/-- `LWMEM_BYTE_ALIGNMENT_UPPER(sizeof(lwmem_block_t))`, the distance from a
header to its payload. -/
def Config.B (c : Config) : Nat := LWMEM_BYTE_ALIGNMENT_UPPER c c.hsz

/-- `LWMEM_BLOCK_MININUM_SIZE`. -/
def LWMEM_BLOCK_MININUM_SIZE (c : Config) : Nat := wshl c c.B 1

/-- `LWMEM_GET_POINTER_FROM_BLOCK(block)`. -/
def LWMEM_GET_POINTER_FROM_BLOCK (c : Config) (block : Nat) : Nat := wadd c block c.B

/-- `LWMEM_GET_BLOCK_FROM_POINTER(pointer)`. -/
def LWMEM_GET_BLOCK_FROM_POINTER (c : Config) (pointer : Nat) : Nat := wsub c pointer c.B

/-! ## Memory and the object -/

/-- The header `lwmem_block_t`. -/
structure lwmem_block_t where
  next : Nat
  size : Nat
  deriving DecidableEq, Repr

/-- Memory as seen by the allocator: the header stored at each address. -/
abbrev Mem := Nat → lwmem_block_t

/-- The store `((lwmem_block_t *)a)->next = v`. -/
def setNext (m : Mem) (a v : Nat) : Mem :=
  fun x => if x = a then { next := v, size := (m a).size } else m x

/-- The store `((lwmem_block_t *)a)->size = v`. -/
def setSize (m : Mem) (a v : Nat) : Mem :=
  fun x => if x = a then { next := (m a).next, size := v } else m x

/-- An `lwmem_object_t` together with the memory it manages.  `object` is the
address of the object, which is the address of its first member `head`; the
header `head` is `mem object`.  `tail` and `start` are the members of the same
name (`start` exists only when region verification is compiled in). -/
structure State where
  object : Nat
  tail : Nat
  start : Nat
  mem : Mem

/-! ## The functions of `lwmem.c` -/

/-- `lwmem_define_region_ex`: returns the status and the state after the call. -/
def lwmem_define_region_ex (c : Config) (s : State) (start size : Nat) : Nat × State :=
  if s.tail ≠ 0 then (1, s) else
  let address := LWMEM_BYTE_ALIGNMENT_UPPER c start
  let s : State := { s with mem := setSize (setNext s.mem s.object address) s.object 0 }
  if address > wadd c start size then (1, s) else
  let size := wsub c size (wsub c address start)
  if LWMEM_BYTE_ALIGNMENT_LOWER c size < (2 * LWMEM_BYTE_ALIGNMENT_UPPER c c.hsz) % 2 ^ c.W then
    (1, s) else
  let address := wadd c address size
  let address := wsub c address (LWMEM_BYTE_ALIGNMENT_UPPER c c.hsz)
  let address := LWMEM_BYTE_ALIGNMENT_LOWER c address
  let s : State := { s with tail := address }
  let s : State := { s with mem := setSize (setNext s.mem s.tail 0) s.tail 0 }
  let block := (s.mem s.object).next
  let s : State := { s with mem := setNext s.mem block s.tail }
  let s : State := { s with mem := setSize s.mem block (wsub c s.tail block) }
  if (s.mem block).size &&& LWMEM_BLOCK_SIZE_ALLOCATED_BITMASK c ≠ 0 then
    (1, { s with tail := 0 }) else
  let s : State := if c.verify then { s with start := block } else s
  (0, s)

/-- The position loop of `_lwmem_insert_block`:
`while ((size_t)(block_index->next) < (size_t)block) block_index = block_index->next;`. -/
def insert_loop (m : Mem) (block : Nat) : Nat → Nat → Option Nat
  | 0, _ => none
  | fuel + 1, block_index =>
    if (m block_index).next < block then insert_loop m block fuel (m block_index).next
    else some block_index

/-- The body of `_lwmem_insert_block` after its position loop, for the
`block_index` the loop stopped at: merge with the low-address neighbour, merge
with or link to the high-address neighbour, link from `block_index`. -/
def insert_link (c : Config) (m : Mem) (tail block_index block : Nat) : Mem :=
  let lower : Prop := wadd c block_index (m block_index).size = block
  let m1 : Mem :=
    if lower then
      setSize m block_index (wadd c (m block_index).size (m block).size)
    else m
  let block := if lower then block_index else block
  let m2 : Mem :=
    if wadd c block (m1 block).size = (m1 block_index).next then
      if (m1 block_index).next = tail then setNext m1 block tail
      else
        let m := setSize m1 block (wadd c (m1 block).size (m1 (m1 block_index).next).size)
        setNext m block (m (m block_index).next).next
    else setNext m1 block (m1 block_index).next
  if block_index ≠ block then setNext m2 block_index block else m2

/-- `_lwmem_insert_block`. -/
def lwmem_insert_block (c : Config) (s : State) (block : Nat) : Option State :=
  match insert_loop s.mem block (2 ^ c.W) s.object with
  | none => none
  | some block_index => some { s with mem := insert_link c s.mem s.tail block_index block }

/-- The search loop of `_lwmem_alloc`:
`while ((block_current->size < size) && (block_current != object->tail))`. -/
def alloc_loop (m : Mem) (tail size : Nat) : Nat → Nat → Nat → Option (Nat × Nat)
  | 0, _, _ => none
  | fuel + 1, block_previous, block_current =>
    if (m block_current).size < size ∧ block_current ≠ tail then
      alloc_loop m tail size fuel block_current (m block_current).next
    else some (block_previous, block_current)

/-- The body of `_lwmem_alloc` after its search loop found the free block
`block_current` behind `block_previous`: unlink, split when the excess is at
least `LWMEM_BLOCK_MININUM_SIZE`, mark allocated. -/
def alloc_commit (c : Config) (s : State) (size block_previous block_current : Nat) :
    Option (Nat × State) :=
  let pointer_return := LWMEM_GET_POINTER_FROM_BLOCK c block_current
  let s1 : State := { s with mem := setNext s.mem block_previous (s.mem block_current).next }
  let r : Option State :=
    if wsub c (s1.mem block_current).size size ≥ LWMEM_BLOCK_MININUM_SIZE c then
      let block_new := wadd c block_current size
      let m := setSize s1.mem block_new (wsub c (s1.mem block_current).size size)
      let m := setSize m block_current size
      lwmem_insert_block c { s1 with mem := m } block_new
    else some s1
  match r with
  | none => none
  | some s2 =>
    let m := setSize s2.mem block_current
      ((s2.mem block_current).size ||| LWMEM_BLOCK_SIZE_ALLOCATED_BITMASK c)
    some (pointer_return, { s2 with mem := m })

/-- `_lwmem_alloc`: returns the pointer (`0` is `NULL`) and the state after
the call. -/
def lwmem_alloc (c : Config) (s : State) (size : Nat) : Option (Nat × State) :=
  if size = 0 then some (0, s) else
  let size_increase := wadd c (LWMEM_BYTE_ALIGNMENT_UPPER c c.hsz)
    (LWMEM_BYTE_ALIGNMENT_UPPER_INCREASE c size)
  if wsub c (wnot c 0) size ≥ size_increase then
    let size := wadd c size size_increase
    if size &&& LWMEM_BLOCK_SIZE_ALLOCATED_BITMASK c ≠ 0 then some (0, s) else
    match alloc_loop s.mem s.tail size (2 ^ c.W) s.object (s.mem s.object).next with
    | none => none
    | some (block_previous, block_current) =>
      if block_current = s.tail then some (0, s)
      else alloc_commit c s size block_previous block_current
  else some (0, s)

/-- `lwmem_malloc_ex` (the object pointer is already resolved). -/
def lwmem_malloc_ex (c : Config) (s : State) (size : Nat) : Option (Nat × State) :=
  if s.tail = 0 then some (0, s) else lwmem_alloc c s size

/-- `lwmem_free_ex` (the object pointer is already resolved). -/
def lwmem_free_ex (c : Config) (s : State) (pointer : Nat) : Option State :=
  if pointer = 0 then some s else
  if s.tail = 0 then some s else
  let block := LWMEM_GET_BLOCK_FROM_POINTER c pointer
  if c.verify ∧ ¬ (block ≥ s.start ∧ block < s.tail) then some s else
  if (s.mem block).size &&& LWMEM_BLOCK_SIZE_ALLOCATED_BITMASK c ≠ 0 then
    let m := setSize s.mem block ((s.mem block).size &&& wnot c (LWMEM_BLOCK_SIZE_ALLOCATED_BITMASK c))
    lwmem_insert_block c { s with mem := m } block
  else some s

/-- The free list read off memory: the `(address, size)` pairs met when
following `next` from `cur` up to `tail`. -/
def walk (m : Mem) (tail : Nat) : Nat → Nat → Option (List (Nat × Nat))
  | 0, _ => none
  | fuel + 1, cur =>
    if cur = tail then some []
    else (walk m tail fuel (m cur).next).map (fun l => (cur, (m cur).size) :: l)

/-- The free list of an object: the walk from `head.next` to `tail`. -/
def freeList (c : Config) (s : State) : Option (List (Nat × Nat)) :=
  walk s.mem s.tail (2 ^ c.W) (s.mem s.object).next

/-- The 32-bit default build: `A = 4`, `sizeof(lwmem_block_t) = 8`. -/
def cfg32 : Config := { W := 32, A := 4, hsz := 8, verify := false }

/-- An empty memory and an inactive object placed at address `16`. -/
def s0 : State := { object := 16, tail := 0, start := 0, mem := fun _ => ⟨0, 0⟩ }

/-- Least multiple of `A` above `x`, in unbounded integers (`align_up` of the
specification). -/
def align_up (c : Config) (x : Nat) : Nat := x + (c.A - 1) - (x + (c.A - 1)) % c.A

/-- The effective block length `want = B + align_up(n)` in unbounded integers. -/
def want (c : Config) (n : Nat) : Nat := c.B + align_up c n

/-- The object does not lie inside the region `[start, start + size)`: its
offset from `start`, taken modulo `2 ^ W`, is at least `size`. -/
def ObjectOutside (c : Config) (s : State) (start size : Nat) : Prop :=
  size ≤ wsub c s.object start

/-! ## The abstract layout of a region

The region `[base, tail)` is described by the list of its blocks in address
order.  Addresses are implicit: a block starts where its predecessor ends. -/

/-- A block of the layout: its byte length and its state, `none` for a free
block and `some n` for a live block handed out for a request of `n` bytes. -/
structure Blk where
  size : Nat
  req : Option Nat
  deriving DecidableEq, Repr

/-- Sum of the byte lengths of a layout. -/
def total : List Blk → Nat
  | [] => 0
  | b :: l => b.size + total l

/-- Address of the first free block of the layout `l` laid out from `a`, or
`nx` when `l` has no free block. -/
def nextFree : Nat → List Blk → Nat → Nat
  | _, [], nx => nx
  | a, ⟨_, none⟩ :: _, _ => a
  | a, ⟨sz, some _⟩ :: l, nx => nextFree (a + sz) l nx

/-- Memory holds the free blocks of the layout `l` laid out from `a`: each
free block stores its length and the address of the free block that follows
it, `nx` standing for what follows the last one. -/
def FreeSeg (m : Mem) : Nat → List Blk → Nat → Prop
  | _, [], _ => True
  | a, ⟨sz, none⟩ :: l, nx => m a = ⟨nextFree (a + sz) l nx, sz⟩ ∧ FreeSeg m (a + sz) l nx
  | a, ⟨sz, some _⟩ :: l, nx => FreeSeg m (a + sz) l nx

/-- Memory holds the live blocks of the layout: each stores its length with
the allocated bit set. -/
def UsedSeg (c : Config) (m : Mem) : Nat → List Blk → Prop
  | _, [] => True
  | a, ⟨sz, none⟩ :: l => UsedSeg c m (a + sz) l
  | a, ⟨sz, some _⟩ :: l => (m a).size = sz + 2 ^ (c.W - 1) ∧ UsedSeg c m (a + sz) l

/-- The `(address, size)` pairs of the free blocks of a layout. -/
def frees : Nat → List Blk → List (Nat × Nat)
  | _, [] => []
  | a, ⟨sz, none⟩ :: l => (a, sz) :: frees (a + sz) l
  | a, ⟨sz, some _⟩ :: l => frees (a + sz) l

/-- The `(payload pointer, request)` pairs of the live blocks of a layout. -/
def lives (c : Config) : Nat → List Blk → List (Nat × Nat)
  | _, [] => []
  | a, ⟨sz, none⟩ :: l => lives c (a + sz) l
  | a, ⟨sz, some n⟩ :: l => (a + c.B, n) :: lives c (a + sz) l

/-- The layout starts with a free block. -/
def headFree : List Blk → Prop
  | ⟨_, none⟩ :: _ => True
  | _ => False

/-- No two neighbouring blocks of the layout are both free. -/
def NoAdj : List Blk → Prop
  | [] => True
  | ⟨_, none⟩ :: l => ¬ headFree l ∧ NoAdj l
  | ⟨_, some _⟩ :: l => NoAdj l

/-- Size constraints on one block: aligned, at least a header, and a live
block holds its padded request. -/
def GoodBlk (c : Config) (b : Blk) : Prop :=
  c.A ∣ b.size ∧ c.B ≤ b.size ∧ ∀ n, b.req = some n → 0 < n ∧ want c n ≤ b.size

/-- The representation invariant: the state `s` realises the layout `l` of
the region that starts at `base`. -/
structure Inv (c : Config) (base : Nat) (s : State) (l : List Blk) : Prop where
  good : ∀ b ∈ l, GoodBlk c b
  noadj : NoAdj l
  base_al : c.A ∣ base
  tail_eq : s.tail = base + total l
  span : total l < 2 ^ (c.W - 1)
  tail_lt : s.tail < 2 ^ c.W
  nonempty : l ≠ []
  obj : s.object < base ∨ s.tail < s.object
  obj_lt : s.object < 2 ^ c.W
  head : s.mem s.object = ⟨nextFree base l s.tail, 0⟩
  tailhdr : s.mem s.tail = ⟨0, 0⟩
  free : FreeSeg s.mem base l s.tail
  used : UsedSeg c s.mem base l
  start : c.verify = true → s.start = base

/-- States reached from a successful `lwmem_define_region_ex` by calls of
`lwmem_malloc_ex` and by `lwmem_free_ex` on live pointers.  `base` is the
address of the first block of the region and the list holds the live
allocations as `(pointer, request)` pairs. -/
inductive Reachable (c : Config) : Nat → State → List (Nat × Nat) → Prop
  | define (s : State) (start size : Nat) :
      start < 2 ^ c.W → size < 2 ^ c.W → s.object < 2 ^ c.W → s.tail = 0 →
      ObjectOutside c s start size →
      (lwmem_define_region_ex c s start size).1 = 0 →
      Reachable c (LWMEM_BYTE_ALIGNMENT_UPPER c start)
        (lwmem_define_region_ex c s start size).2 []
  | malloc {base : Nat} {s : State} {L : List (Nat × Nat)} (n p : Nat) (s' : State) :
      Reachable c base s L → n < 2 ^ c.W →
      lwmem_malloc_ex c s n = some (p, s') →
      Reachable c base s' (if p = 0 then L else (p, n) :: L)
  | free {base : Nat} {s : State} {L : List (Nat × Nat)} (p n : Nat) (s' : State) :
      Reachable c base s L → (p, n) ∈ L →
      lwmem_free_ex c s p = some s' →
      Reachable c base s' (L.erase (p, n))

/-- Address of the last free block of the layout `l` laid out from `a`, or `d`
when `l` has no free block. -/
def lastFree : Nat → Nat → List Blk → Nat
  | d, _, [] => d
  | _, a, ⟨sz, none⟩ :: l => lastFree a (a + sz) l
  | d, a, ⟨sz, some _⟩ :: l => lastFree d (a + sz) l

/-- Number of free blocks of a layout. -/
def freeCount : List Blk → Nat
  | [] => 0
  | ⟨_, none⟩ :: l => freeCount l + 1
  | ⟨_, some _⟩ :: l => freeCount l

/-- Every block of the layout has a positive length. -/
def Pos (l : List Blk) : Prop := ∀ b ∈ l, 0 < b.size

/-- A free block of `sz` bytes put in front of a layout, merged with the first
block of the layout when that one is free. -/
def consFree (sz : Nat) : List Blk → List Blk
  | ⟨us, none⟩ :: l => ⟨sz + us, none⟩ :: l
  | l => ⟨sz, none⟩ :: l

/-- The layout `pre ++ [block of xs bytes] ++ post` after the middle block is
released: it is merged with the last block of `pre` and with the first block
of `post` when these are free. -/
def release : List Blk → Nat → List Blk → List Blk
  | [], xs, post => consFree xs post
  | ⟨ps, none⟩ :: [], xs, post => consFree (ps + xs) post
  | ⟨ps, none⟩ :: b :: pre, xs, post => ⟨ps, none⟩ :: release (b :: pre) xs post
  | ⟨ps, some n⟩ :: pre, xs, post => ⟨ps, some n⟩ :: release pre xs post

/-- Merge every run of neighbouring free blocks of a layout into one block. -/
def coalesce : List Blk → List Blk
  | [] => []
  | ⟨sz, none⟩ :: l => consFree sz (coalesce l)
  | ⟨sz, some n⟩ :: l => ⟨sz, some n⟩ :: coalesce l

/-- Turn the live block whose payload pointer is `p` into a free block,
without merging. -/
def markFree (c : Config) (p : Nat) : Nat → List Blk → List Blk
  | _, [] => []
  | a, ⟨sz, none⟩ :: l => ⟨sz, none⟩ :: markFree c p (a + sz) l
  | a, ⟨sz, some n⟩ :: l =>
    if a + c.B = p then ⟨sz, none⟩ :: l else ⟨sz, some n⟩ :: markFree c p (a + sz) l

/-- The layout after `lwmem_free_ex` of the live pointer `p`. -/
def lfree (c : Config) (p : Nat) (base : Nat) (l : List Blk) : List Blk :=
  coalesce (markFree c p base l)

/-- Address of the first free block of at least `w` bytes in the layout laid
out from the given address. -/
def lfit (w : Nat) : Nat → List Blk → Option Nat
  | _, [] => none
  | a, ⟨sz, none⟩ :: l => if w ≤ sz then some a else lfit w (a + sz) l
  | a, ⟨sz, some _⟩ :: l => lfit w (a + sz) l

/-- First fit on the layout: the first free block of at least `w` bytes is
handed out for the request `n`; it is split when the remainder is at least
`mn` bytes. -/
def lalloc (w mn n : Nat) : List Blk → Option (List Blk)
  | [] => none
  | ⟨sz, none⟩ :: l =>
    if w ≤ sz then
      some (if mn ≤ sz - w then ⟨w, some n⟩ :: ⟨sz - w, none⟩ :: l else ⟨sz, some n⟩ :: l)
    else (lalloc w mn n l).map (fun l' => ⟨sz, none⟩ :: l')
  | ⟨sz, some k⟩ :: l => (lalloc w mn n l).map (fun l' => ⟨sz, some k⟩ :: l')

/-- The state after a call of `lwmem_malloc_ex` (the state itself when the
call does not return). -/
def after_malloc (c : Config) (s : State) (n : Nat) : State :=
  ((lwmem_malloc_ex c s n).getD (0, s)).2

/-- The state after a call of `lwmem_free_ex` (the state itself when the call
does not return). -/
def after_free (c : Config) (s : State) (p : Nat) : State :=
  (lwmem_free_ex c s p).getD s

/-- The state after `lwmem_define_region_ex` on the 1024-byte region at
`0x1000`, 32-bit default build. -/
def sd : State := (lwmem_define_region_ex cfg32 s0 4096 1024).2

/-- Reference model of first fit with split, on a free list given as
`(address, size)` pairs in list order: the first block of at least `w` bytes
is chosen; the result is its address, the raw size of the block handed out and
the free list afterwards (the chosen pair replaced in place by the remainder
when that has at least `mn` bytes, removed otherwise). -/
def firstFit (w mn : Nat) : List (Nat × Nat) → Option (Nat × Nat × List (Nat × Nat))
  | [] => none
  | (a, s) :: fl =>
    if w ≤ s then
      some (a, if mn ≤ s - w then w else s, if mn ≤ s - w then (a + w, s - w) :: fl else fl)
    else (firstFit w mn fl).map (fun r => (r.1, r.2.1, (a, s) :: r.2.2))

/-- Reference model of release on an address-ordered free list given as
`(address, size)` pairs: the interval `[a, a + sz)` is added; a node that ends
exactly at `a` absorbs it, together with the node that starts exactly at
`a + sz` when there is one; failing that, a node that starts exactly at
`a + sz` is absorbed by it; otherwise `(a, sz)` is inserted at its
address-sorted position.  Every other node is kept. -/
def releaseSpec (a sz : Nat) : List (Nat × Nat) → List (Nat × Nat)
  | [] => [(a, sz)]
  | (x, s) :: fl =>
    if x + s = a then
      match fl with
      | (u, us) :: fl' =>
        if u = a + sz then (x, s + sz + us) :: fl' else (x, s + sz) :: (u, us) :: fl'
      | [] => [(x, s + sz)]
    else if x = a + sz then (a, sz + s) :: fl
    else if a < x then (a, sz) :: (x, s) :: fl
    else (x, s) :: releaseSpec a sz fl

/-- Release the pointers of a list one after the other. -/
def free_all (c : Config) : State → List Nat → Option State
  | s, [] => some s
  | s, p :: ps => (lwmem_free_ex c s p).bind (fun s' => free_all c s' ps)

/-- The layout after marking free the live blocks of the pointers of a list. -/
def markAll (c : Config) (ps : List Nat) (a : Nat) (l : List Blk) : List Blk :=
  ps.foldl (fun l' p => markFree c p a l') l

/-- The scenario of the specification: allocate 100, then 200, then 300 bytes. -/
def s1 : State := after_malloc cfg32 sd 100

/-- The scenario, after the second allocation. -/
def s2 : State := after_malloc cfg32 s1 200

/-- The scenario, after the third allocation. -/
def s3 : State := after_malloc cfg32 s2 300

end LwMEM


namespace LwMEM

/-- The scenario, after releasing the second allocation. -/
def s4 : State := after_free cfg32 s3 4212

/-- The scenario, after releasing the first allocation as well. -/
def s5 : State := after_free cfg32 s4 4104

/-- The scenario, after releasing all three allocations. -/
def s6 : State := after_free cfg32 s5 4420

end LwMEM


namespace LwMEM

/-- An empty memory and an inactive object placed at address `0x2000`. -/
def sw : State := { object := 8192, tail := 0, start := 0, mem := fun _ => ⟨0, 0⟩ }

/-- The size word of the header at `a` with the allocated bit cleared
(`raw_size` of the specification). -/
def raw_size (c : Config) (m : Mem) (a : Nat) : Nat :=
  (m a).size &&& wnot c (LWMEM_BLOCK_SIZE_ALLOCATED_BITMASK c)

/-- The allocated bit of the header at `a` is set (`is_allocated` of the
specification). -/
def is_allocated (c : Config) (m : Mem) (a : Nat) : Bool :=
  decide ((m a).size &&& LWMEM_BLOCK_SIZE_ALLOCATED_BITMASK c ≠ 0)

/-- The blocks met when starting at an address and repeatedly adding the raw
size of the block found there, until `tail` is hit exactly: address, raw size
and allocated flag of each block.  The result is `none` when `tail` is not hit
within the step budget. -/
def tiling (c : Config) (m : Mem) (tail : Nat) : Nat → Nat → Option (List (Nat × Nat × Bool))
  | 0, _ => none
  | fuel + 1, a =>
    if a = tail then some []
    else (tiling c m tail fuel (a + raw_size c m a)).map
      (fun r => (a, raw_size c m a, is_allocated c m a) :: r)

/-- The blocks of a layout laid out from an address: address, byte length and
whether the block is live. -/
def blocks : Nat → List Blk → List (Nat × Nat × Bool)
  | _, [] => []
  | a, b :: l => (a, b.size, b.req.isSome) :: blocks (a + b.size) l

end LwMEM


namespace LwMEM

theorem two_pow_W (c : Config) (h : c.WF) : 2 ^ c.W = 2 * 2 ^ (c.W - 1) := by
  obtain ⟨_, _, _, hW⟩ := h
  conv_lhs => rw [show c.W = (c.W - 1) + 1 by omega]
  rw [Nat.pow_succ]; ring

theorem A_pos (c : Config) (h : c.WF) : 0 < c.A := by
  obtain ⟨⟨k, hk⟩, _⟩ := h
  rw [hk]; exact Nat.pos_pow_of_pos _ (by decide)

theorem and_not_low (x k W : Nat) (hx : x < 2 ^ W) :
    x &&& ((2 ^ W - 1) ^^^ (2 ^ k - 1)) = x - x % 2 ^ k := by
  have h1 : x &&& ((2 ^ W - 1) ^^^ (2 ^ k - 1)) = 2 ^ k * (x / 2 ^ k) := by
    apply Nat.eq_of_testBit_eq
    intro i
    rw [Nat.testBit_mul_pow_two]
    simp only [Nat.testBit_and, Nat.testBit_xor, Nat.testBit_two_pow_sub_one]
    have hW : ¬ i < W → x.testBit i = false := fun h =>
      Nat.testBit_lt_two_pow (Nat.lt_of_lt_of_le hx (Nat.pow_le_pow_right (by decide) (by omega)))
    rw [← Nat.shiftRight_eq_div_pow, Nat.testBit_shiftRight]
    by_cases hik : i < k
    · have : ¬ k ≤ i := by omega
      by_cases hiW : i < W
      · simp [hik, this, hiW]
      · simp [hW hiW, this]
    · have hki : k ≤ i := by omega
      have e : k + (i - k) = i := by omega
      by_cases hiW : i < W
      · simp [hik, hki, hiW, e]
      · simp [hW hiW, e]
  rw [h1]
  have := Nat.div_add_mod x (2 ^ k)
  omega

theorem A_lt (c : Config) (h : c.WF) : c.A < 2 ^ (c.W - 1) := by
  obtain ⟨_, h1, h2, _⟩ := h
  omega

theorem wadd_lt (c : Config) (x y : Nat) : wadd c x y < 2 ^ c.W :=
  Nat.mod_lt _ (Nat.pos_pow_of_pos _ (by decide))

theorem wsub_lt (c : Config) (x y : Nat) : wsub c x y < 2 ^ c.W :=
  Nat.mod_lt _ (Nat.pos_pow_of_pos _ (by decide))

theorem wadd_eq (c : Config) {x y : Nat} (h : x + y < 2 ^ c.W) : wadd c x y = x + y :=
  Nat.mod_eq_of_lt h

theorem wadd_wrap (c : Config) {x y : Nat} (h1 : 2 ^ c.W ≤ x + y) (h2 : x + y < 2 * 2 ^ c.W) :
    wadd c x y = x + y - 2 ^ c.W := by
  unfold wadd
  rw [Nat.mod_eq_sub_mod h1, Nat.mod_eq_of_lt (by omega)]

theorem wsub_eq (c : Config) {x y : Nat} (h1 : y ≤ x) (h2 : x < 2 ^ c.W) : wsub c x y = x - y := by
  unfold wsub
  rw [Nat.mod_eq_of_lt (show y < 2 ^ c.W by omega)]
  have e : x + (2 ^ c.W - y) = (x - y) + 2 ^ c.W := by omega
  rw [e, Nat.add_mod_right, Nat.mod_eq_of_lt (by omega)]

theorem wsub_wrap (c : Config) {x y : Nat} (h1 : x < y) (h2 : y < 2 ^ c.W) :
    wsub c x y = x + 2 ^ c.W - y := by
  unfold wsub
  rw [Nat.mod_eq_of_lt h2, Nat.mod_eq_of_lt (by omega)]
  omega

theorem wsub_A_one (c : Config) (h : c.WF) : wsub c c.A 1 = c.A - 1 := by
  have h1 := A_pos c h
  have h2 := A_lt c h
  have h3 := two_pow_W c h
  exact wsub_eq c (by omega) (by omega)

theorem wnot_A (c : Config) (h : c.WF) :
    wnot c (wsub c c.A 1) = (2 ^ c.W - 1) ^^^ (c.A - 1) := by
  have h1 := A_pos c h
  have h2 := A_lt c h
  have h3 := two_pow_W c h
  unfold wnot
  rw [wsub_A_one c h, Nat.mod_eq_of_lt (by omega)]

theorem LOWER_eq (c : Config) (h : c.WF) {x : Nat} (hx : x < 2 ^ c.W) :
    LWMEM_BYTE_ALIGNMENT_LOWER c x = x - x % c.A := by
  unfold LWMEM_BYTE_ALIGNMENT_LOWER
  rw [wnot_A c h]
  obtain ⟨⟨k, hk⟩, _⟩ := h
  rw [hk]
  exact and_not_low x k c.W hx

theorem LOWER_dvd (c : Config) (h : c.WF) {x : Nat} (hx : x < 2 ^ c.W) :
    c.A ∣ LWMEM_BYTE_ALIGNMENT_LOWER c x := by
  rw [LOWER_eq c h hx]; exact Nat.dvd_sub_mod x

theorem LOWER_le (c : Config) (h : c.WF) {x : Nat} (hx : x < 2 ^ c.W) :
    LWMEM_BYTE_ALIGNMENT_LOWER c x ≤ x := by
  rw [LOWER_eq c h hx]; omega

theorem LOWER_gt (c : Config) (h : c.WF) {x : Nat} (hx : x < 2 ^ c.W) :
    x < LWMEM_BYTE_ALIGNMENT_LOWER c x + c.A := by
  rw [LOWER_eq c h hx]
  have := Nat.mod_lt x (A_pos c h)
  omega

theorem LOWER_of_dvd (c : Config) (h : c.WF) {x : Nat} (hx : x < 2 ^ c.W) (hd : c.A ∣ x) :
    LWMEM_BYTE_ALIGNMENT_LOWER c x = x := by
  rw [LOWER_eq c h hx, Nat.mod_eq_zero_of_dvd hd]; rfl

/-- A multiple of `A` below `x` is below the aligned-down `x`. -/
theorem le_LOWER (c : Config) (h : c.WF) {x y : Nat} (hx : x < 2 ^ c.W) (hd : c.A ∣ y)
    (hy : y ≤ x) : y ≤ LWMEM_BYTE_ALIGNMENT_LOWER c x := by
  rw [LOWER_eq c h hx]
  obtain ⟨q, rfl⟩ := hd
  have hA := A_pos c h
  have h1 : q ≤ x / c.A := (Nat.le_div_iff_mul_le hA).2 (by rw [Nat.mul_comm]; exact hy)
  have h2 := Nat.div_add_mod x c.A
  have h3 : c.A * q ≤ c.A * (x / c.A) := Nat.mul_le_mul_left _ h1
  omega

theorem A_dvd_two_pow (c : Config) (h : c.WF) : c.A ∣ 2 ^ c.W := by
  have h2 := A_lt c h
  obtain ⟨⟨k, hk⟩, _⟩ := h
  rw [hk] at h2 ⊢
  have : k < c.W - 1 := (Nat.pow_lt_pow_iff_right (by decide)).1 h2
  exact Nat.pow_dvd_pow 2 (by omega)

theorem UPPER_spec (c : Config) (h : c.WF) {x : Nat} (hx : x + c.A - 1 < 2 ^ c.W) :
    c.A ∣ LWMEM_BYTE_ALIGNMENT_UPPER c x ∧ x ≤ LWMEM_BYTE_ALIGNMENT_UPPER c x ∧
      LWMEM_BYTE_ALIGNMENT_UPPER c x < x + c.A := by
  have hA := A_pos c h
  unfold LWMEM_BYTE_ALIGNMENT_UPPER
  rw [wsub_A_one c h, wadd_eq c (by omega)]
  have hy : x + (c.A - 1) < 2 ^ c.W := by omega
  refine ⟨LOWER_dvd c h hy, ?_, ?_⟩
  · have := LOWER_gt c h hy; omega
  · have := LOWER_le c h hy; omega

theorem UPPER_wrap (c : Config) (h : c.WF) {x : Nat} (hx : x < 2 ^ c.W)
    (hw : 2 ^ c.W ≤ x + c.A - 1) : LWMEM_BYTE_ALIGNMENT_UPPER c x = 0 := by
  have hA := A_pos c h
  have hA2 := A_lt c h
  have hM := two_pow_W c h
  unfold LWMEM_BYTE_ALIGNMENT_UPPER
  rw [wsub_A_one c h, wadd_wrap c (by omega) (by omega)]
  have hy : x + (c.A - 1) - 2 ^ c.W < 2 ^ c.W := by omega
  rw [LOWER_eq c h hy, Nat.mod_eq_of_lt (by omega)]
  omega

theorem B_spec (c : Config) (h : c.WF) : c.A ∣ c.B ∧ c.hsz ≤ c.B ∧ c.B < c.hsz + c.A := by
  have hA2 := A_lt c h
  have hM := two_pow_W c h
  obtain ⟨_, h1, h2, _⟩ := id h
  exact UPPER_spec c h (by omega)

theorem mask_eq (c : Config) (h : c.WF) : LWMEM_BLOCK_SIZE_ALLOCATED_BITMASK c = 2 ^ (c.W - 1) := by
  have hM := two_pow_W c h
  have : 0 < 2 ^ (c.W - 1) := Nat.pos_pow_of_pos _ (by decide)
  unfold LWMEM_BLOCK_SIZE_ALLOCATED_BITMASK wshl
  rw [Nat.shiftLeft_eq, Nat.one_mul, Nat.mod_eq_of_lt (by omega)]

theorem min_eq (c : Config) (h : c.WF) : LWMEM_BLOCK_MININUM_SIZE c = 2 * c.B := by
  have hB := B_spec c h
  have hM := two_pow_W c h
  obtain ⟨_, h1, h2, _⟩ := h
  unfold LWMEM_BLOCK_MININUM_SIZE wshl
  rw [Nat.shiftLeft_eq, Nat.pow_one, Nat.mod_eq_of_lt (by omega)]
  omega

theorem and_mask_ne_zero (c : Config) (h : c.WF) {x : Nat} (hx : x < 2 ^ c.W) :
    x &&& LWMEM_BLOCK_SIZE_ALLOCATED_BITMASK c ≠ 0 ↔ 2 ^ (c.W - 1) ≤ x := by
  have hM := two_pow_W c h
  rw [mask_eq c h, Nat.and_two_pow]
  have hp : 0 < 2 ^ (c.W - 1) := Nat.pos_pow_of_pos _ (by decide)
  constructor
  · intro hne
    by_contra hlt
    rw [Nat.testBit_lt_two_pow (by omega)] at hne
    simp at hne
  · intro hle hz
    have hb : x.testBit (c.W - 1) = true := by
      rw [Nat.testBit_to_div_mod]
      have h1 : x / 2 ^ (c.W - 1) = 1 := by
        apply Nat.div_eq_of_lt_le <;> omega
      simp [h1]
    rw [hb] at hz
    simp at hz

theorem or_mask (c : Config) (h : c.WF) {x : Nat} (hx : x < 2 ^ (c.W - 1)) :
    x ||| LWMEM_BLOCK_SIZE_ALLOCATED_BITMASK c = x + 2 ^ (c.W - 1) := by
  rw [mask_eq c h, Nat.or_comm]
  have := Nat.mul_add_lt_is_or hx 1
  rw [Nat.mul_one] at this
  omega

theorem and_not_mask (c : Config) (h : c.WF) (x : Nat) :
    x &&& wnot c (LWMEM_BLOCK_SIZE_ALLOCATED_BITMASK c) = x % 2 ^ (c.W - 1) := by
  have hM := two_pow_W c h
  have hp : 0 < 2 ^ (c.W - 1) := Nat.pos_pow_of_pos _ (by decide)
  rw [mask_eq c h]
  unfold wnot
  rw [Nat.mod_eq_of_lt (by omega)]
  apply Nat.eq_of_testBit_eq
  intro i
  simp only [Nat.testBit_and, Nat.testBit_xor, Nat.testBit_two_pow_sub_one, Nat.testBit_two_pow,
    Nat.testBit_mod_two_pow]
  obtain ⟨_, _, _, hW⟩ := h
  by_cases h1 : i < c.W - 1
  · have h2 : i < c.W := by omega
    have h3 : ¬ (c.W - 1 = i) := by omega
    simp [h1, h2, h3]
  · by_cases h2 : i < c.W
    · have h3 : c.W - 1 = i := by omega
      simp [h1, h2, h3]
    · have h3 : ¬ (c.W - 1 = i) := by omega
      simp [h1, h2, h3]

theorem align_up_spec (c : Config) (h : c.WF) (x : Nat) :
    c.A ∣ align_up c x ∧ x ≤ align_up c x ∧ align_up c x < x + c.A := by
  have hA := A_pos c h
  unfold align_up
  have := Nat.mod_lt (x + (c.A - 1)) hA
  refine ⟨Nat.dvd_sub_mod _, by omega, by omega⟩

theorem UPPER_eq_align_up (c : Config) (h : c.WF) {x : Nat} (hx : x + c.A - 1 < 2 ^ c.W) :
    LWMEM_BYTE_ALIGNMENT_UPPER c x = align_up c x := by
  have hA := A_pos c h
  unfold LWMEM_BYTE_ALIGNMENT_UPPER align_up
  rw [wsub_A_one c h, wadd_eq c (by omega), LOWER_eq c h (by omega)]

theorem UPPER_INCREASE_eq (c : Config) (h : c.WF) {x : Nat} (hx : x < 2 ^ c.W) :
    x + LWMEM_BYTE_ALIGNMENT_UPPER_INCREASE c x = align_up c x ∧
      LWMEM_BYTE_ALIGNMENT_UPPER_INCREASE c x < c.A := by
  have hA := A_pos c h
  have hA2 := A_lt c h
  have hM := two_pow_W c h
  have hsp := align_up_spec c h x
  unfold LWMEM_BYTE_ALIGNMENT_UPPER_INCREASE
  have hL : ∀ y, (y &&& wnot c (wsub c c.A 1)) = LWMEM_BYTE_ALIGNMENT_LOWER c y := fun _ => rfl
  rw [hL, wsub_A_one c h]
  by_cases hw : x + (c.A - 1) < 2 ^ c.W
  · rw [wadd_eq c hw, LOWER_eq c h hw]
    have hm := Nat.mod_lt (x + (c.A - 1)) hA
    rw [wsub_eq c (by omega) (by omega)]
    unfold align_up at hsp ⊢
    omega
  · rw [wadd_wrap c (by omega) (by omega)]
    have hy : x + (c.A - 1) - 2 ^ c.W < 2 ^ c.W := by omega
    rw [LOWER_eq c h hy]
    obtain ⟨q, hq⟩ := A_dvd_two_pow c h
    have e : (x + (c.A - 1) - 2 ^ c.W) % c.A = (x + (c.A - 1)) % c.A := by
      rw [hq]; exact Nat.sub_mul_mod (by rw [← hq]; omega)
    have hle := Nat.mod_le (x + (c.A - 1) - 2 ^ c.W) c.A
    rw [e] at hle ⊢
    have hm := Nat.mod_lt (x + (c.A - 1)) hA
    unfold align_up at hsp ⊢
    have hlt : x + (c.A - 1) - 2 ^ c.W - (x + (c.A - 1)) % c.A < x := by omega
    rw [wsub_wrap c hlt hx]
    generalize (x + (c.A - 1)) % c.A = d at *
    generalize 2 ^ c.W = M at *
    omega

end LwMEM


namespace LwMEM

theorem define_arith (c : Config) (hc : c.WF) {start size obj : Nat}
    (h1 : start < 2 ^ c.W) (h2 : size < 2 ^ c.W) (ho : obj < 2 ^ c.W)
    (hout : size ≤ wsub c obj start)
    (hk1 : ¬ (LWMEM_BYTE_ALIGNMENT_UPPER c start > wadd c start size))
    (hk2 : ¬ (LWMEM_BYTE_ALIGNMENT_LOWER c
        (wsub c size (wsub c (LWMEM_BYTE_ALIGNMENT_UPPER c start) start)) <
          (2 * LWMEM_BYTE_ALIGNMENT_UPPER c c.hsz) % 2 ^ c.W))
    (hk3 : ¬ (wsub c (LWMEM_BYTE_ALIGNMENT_LOWER c (wsub c (wadd c
        (LWMEM_BYTE_ALIGNMENT_UPPER c start)
        (wsub c size (wsub c (LWMEM_BYTE_ALIGNMENT_UPPER c start) start))) c.B))
        (LWMEM_BYTE_ALIGNMENT_UPPER c start) &&& LWMEM_BLOCK_SIZE_ALLOCATED_BITMASK c ≠ 0)) :
    LWMEM_BYTE_ALIGNMENT_LOWER c (wsub c (wadd c (LWMEM_BYTE_ALIGNMENT_UPPER c start)
        (wsub c size (wsub c (LWMEM_BYTE_ALIGNMENT_UPPER c start) start))) c.B) =
      LWMEM_BYTE_ALIGNMENT_LOWER c (wsub c (wadd c start size) c.B) ∧
    c.A ∣ LWMEM_BYTE_ALIGNMENT_UPPER c start ∧
    c.A ∣ LWMEM_BYTE_ALIGNMENT_LOWER c (wsub c (wadd c start size) c.B) ∧
    LWMEM_BYTE_ALIGNMENT_UPPER c start + c.B ≤
      LWMEM_BYTE_ALIGNMENT_LOWER c (wsub c (wadd c start size) c.B) ∧
    wsub c (LWMEM_BYTE_ALIGNMENT_LOWER c (wsub c (wadd c start size) c.B))
      (LWMEM_BYTE_ALIGNMENT_UPPER c start) =
      LWMEM_BYTE_ALIGNMENT_LOWER c (wsub c (wadd c start size) c.B) -
        LWMEM_BYTE_ALIGNMENT_UPPER c start ∧
    LWMEM_BYTE_ALIGNMENT_LOWER c (wsub c (wadd c start size) c.B) -
        LWMEM_BYTE_ALIGNMENT_UPPER c start < 2 ^ (c.W - 1) ∧
    LWMEM_BYTE_ALIGNMENT_LOWER c (wsub c (wadd c start size) c.B) < 2 ^ c.W ∧
    (obj < LWMEM_BYTE_ALIGNMENT_UPPER c start ∨
      LWMEM_BYTE_ALIGNMENT_LOWER c (wsub c (wadd c start size) c.B) < obj) := by
  have hA := A_pos c hc
  have hA2 := A_lt c hc
  have hM := two_pow_W c hc
  have hB := B_spec c hc
  have hwf := hc
  obtain ⟨_, hh1, hh2, _⟩ := hwf
  have hBdef : LWMEM_BYTE_ALIGNMENT_UPPER c c.hsz = c.B := rfl
  rw [hBdef] at hk2
  rw [Nat.mod_eq_of_lt (show 2 * c.B < 2 ^ c.W by omega)] at hk2
  by_cases hw : start + c.A - 1 < 2 ^ c.W
  · -- the rounding of `start` does not wrap
    obtain ⟨hb1, hb2, hb3⟩ := UPPER_spec c hc hw
    generalize LWMEM_BYTE_ALIGNMENT_UPPER c start = base at *
    by_cases hs : start + size < 2 ^ c.W
    · rw [wadd_eq c hs] at hk1 ⊢
      have e1 : wsub c base start = base - start := wsub_eq c hb2 (by omega)
      rw [e1] at hk2 hk3 ⊢
      have e2 : wsub c size (base - start) = size - (base - start) := wsub_eq c (by omega) h2
      rw [e2] at hk2 hk3 ⊢
      have hl := LOWER_le c hc (show size - (base - start) < 2 ^ c.W by omega)
      have e3 : wadd c base (size - (base - start)) = start + size := by
        rw [wadd_eq c (by omega)]; omega
      rw [e3] at hk3 ⊢
      have e4 : wsub c (start + size) c.B = start + size - c.B := wsub_eq c (by omega) hs
      rw [e4] at hk3 ⊢
      have ht : start + size - c.B < 2 ^ c.W := by omega
      have hd : c.A ∣ base + c.B := Nat.dvd_add hb1 hB.1
      have hge := le_LOWER c hc ht hd (by omega)
      have hle := LOWER_le c hc ht
      have htd := LOWER_dvd c hc ht
      generalize LWMEM_BYTE_ALIGNMENT_LOWER c (start + size - c.B) = t at *
      have e5 : wsub c t base = t - base := wsub_eq c (by omega) (by omega)
      rw [e5] at hk3 ⊢
      have hk3' : ¬ (2 ^ (c.W - 1) ≤ t - base) := fun hge' =>
        hk3 ((and_mask_ne_zero c hc (show t - base < 2 ^ c.W by omega)).2 hge')
      have e6 : wsub c obj start = if start ≤ obj then obj - start else obj + 2 ^ c.W - start := by
        split
        · exact wsub_eq c (by assumption) ho
        · exact wsub_wrap c (by omega) h1
      rw [e6] at hout
      refine ⟨rfl, hb1, htd, hge, rfl, by omega, by omega, ?_⟩
      split at hout <;> omega
    · exfalso
      rw [wadd_wrap c (by omega) (by omega)] at hk1
      omega
  · -- the rounding of `start` wraps to address zero
    have hb0 := UPPER_wrap c hc h1 (by omega)
    rw [hb0] at hk1 hk2 hk3 ⊢
    have e1 : wsub c 0 start = 2 ^ c.W - start := by
      rw [wsub_wrap c (by omega) h1]; omega
    rw [e1] at hk2 hk3 ⊢
    by_cases hs : 2 ^ c.W - start ≤ size
    · have e2 : wsub c size (2 ^ c.W - start) = size - (2 ^ c.W - start) := wsub_eq c hs h2
      rw [e2] at hk2 hk3 ⊢
      have hl := LOWER_le c hc (show size - (2 ^ c.W - start) < 2 ^ c.W by omega)
      have e3 : wadd c 0 (size - (2 ^ c.W - start)) = size - (2 ^ c.W - start) := by
        rw [wadd_eq c (by omega)]; omega
      have e3' : wadd c start size = size - (2 ^ c.W - start) := by
        rw [wadd_wrap c (by omega) (by omega)]; omega
      rw [e3] at hk3 ⊢
      rw [e3']
      have e4 : wsub c (size - (2 ^ c.W - start)) c.B = size - (2 ^ c.W - start) - c.B :=
        wsub_eq c (by omega) (by omega)
      rw [e4] at hk3 ⊢
      have ht : size - (2 ^ c.W - start) - c.B < 2 ^ c.W := by omega
      have hge := le_LOWER c hc ht hB.1 (by omega)
      have hle := LOWER_le c hc ht
      have htd := LOWER_dvd c hc ht
      generalize LWMEM_BYTE_ALIGNMENT_LOWER c (size - (2 ^ c.W - start) - c.B) = t at *
      have e5 : wsub c t 0 = t - 0 := wsub_eq c (by omega) (by omega)
      rw [e5] at hk3 ⊢
      have hk3' : ¬ (2 ^ (c.W - 1) ≤ t - 0) := fun hge' =>
        hk3 ((and_mask_ne_zero c hc (show t - 0 < 2 ^ c.W by omega)).2 hge')
      have e6 : wsub c obj start = if start ≤ obj then obj - start else obj + 2 ^ c.W - start := by
        split
        · exact wsub_eq c (by assumption) ho
        · exact wsub_wrap c (by omega) h1
      rw [e6] at hout
      refine ⟨rfl, Nat.dvd_zero _, htd, by omega, rfl, by omega, by omega, ?_⟩
      split at hout <;> omega
    · exfalso
      have e2 : wsub c size (2 ^ c.W - start) = size + start := by
        rw [wsub_wrap c (by omega) (by omega)]; omega
      rw [e2] at hk2 hk3
      have e3 : wadd c 0 (size + start) = size + start := by
        rw [wadd_eq c (by omega)]; omega
      rw [e3] at hk3
      have e4 : wsub c (size + start) c.B = size + start - c.B :=
        wsub_eq c (by omega) (by omega)
      rw [e4] at hk3
      have ht : size + start - c.B < 2 ^ c.W := by omega
      have hgt := LOWER_gt c hc ht
      have hle := LOWER_le c hc ht
      generalize LWMEM_BYTE_ALIGNMENT_LOWER c (size + start - c.B) = t at *
      have e5 : wsub c t 0 = t := by rw [wsub_eq c (by omega) (by omega)]; omega
      rw [e5] at hk3
      exact hk3 ((and_mask_ne_zero c hc (show t < 2 ^ c.W by omega)).2 (by omega))

end LwMEM


namespace LwMEM

@[simp] theorem setNext_same (m : Mem) (a v : Nat) : setNext m a v a = ⟨v, (m a).size⟩ := by
  simp [setNext]

@[simp] theorem setSize_same (m : Mem) (a v : Nat) : setSize m a v a = ⟨(m a).next, v⟩ := by
  simp [setSize]

theorem setNext_other (m : Mem) {a x : Nat} (v : Nat) (h : x ≠ a) : setNext m a v x = m x := by
  simp [setNext, h]

theorem setSize_other (m : Mem) {a x : Nat} (v : Nat) (h : x ≠ a) : setSize m a v x = m x := by
  simp [setSize, h]

theorem define_arith0 (c : Config) (hc : c.WF) {start size obj : Nat}
    (h1 : start < 2 ^ c.W) (h2 : size < 2 ^ c.W) (ho : obj < 2 ^ c.W)
    (hout : size ≤ wsub c obj start)
    (hk1 : ¬ (LWMEM_BYTE_ALIGNMENT_UPPER c start > wadd c start size))
    (hk2 : ¬ (LWMEM_BYTE_ALIGNMENT_LOWER c
        (wsub c size (wsub c (LWMEM_BYTE_ALIGNMENT_UPPER c start) start)) <
          (2 * LWMEM_BYTE_ALIGNMENT_UPPER c c.hsz) % 2 ^ c.W)) :
    obj ≠ LWMEM_BYTE_ALIGNMENT_LOWER c (wsub c (wadd c (LWMEM_BYTE_ALIGNMENT_UPPER c start)
        (wsub c size (wsub c (LWMEM_BYTE_ALIGNMENT_UPPER c start) start))) c.B) ∨
      LWMEM_BYTE_ALIGNMENT_UPPER c start = 0 := by
  have hA := A_pos c hc
  have hA2 := A_lt c hc
  have hM := two_pow_W c hc
  have hB := B_spec c hc
  have hwf := hc
  obtain ⟨_, hh1, hh2, _⟩ := hwf
  have hBdef : LWMEM_BYTE_ALIGNMENT_UPPER c c.hsz = c.B := rfl
  rw [hBdef] at hk2
  rw [Nat.mod_eq_of_lt (show 2 * c.B < 2 ^ c.W by omega)] at hk2
  by_cases hw : start + c.A - 1 < 2 ^ c.W
  · left
    obtain ⟨hb1, hb2, hb3⟩ := UPPER_spec c hc hw
    generalize LWMEM_BYTE_ALIGNMENT_UPPER c start = base at *
    by_cases hs : start + size < 2 ^ c.W
    · rw [wadd_eq c hs] at hk1
      have e1 : wsub c base start = base - start := wsub_eq c hb2 (by omega)
      rw [e1] at hk2 ⊢
      have e2 : wsub c size (base - start) = size - (base - start) := wsub_eq c (by omega) h2
      rw [e2] at hk2 ⊢
      have hl := LOWER_le c hc (show size - (base - start) < 2 ^ c.W by omega)
      have e3 : wadd c base (size - (base - start)) = start + size := by
        rw [wadd_eq c (by omega)]; omega
      rw [e3]
      have e4 : wsub c (start + size) c.B = start + size - c.B := wsub_eq c (by omega) hs
      rw [e4]
      have ht : start + size - c.B < 2 ^ c.W := by omega
      have hd : c.A ∣ base + c.B := Nat.dvd_add hb1 hB.1
      have hge := le_LOWER c hc ht hd (by omega)
      have hle := LOWER_le c hc ht
      generalize LWMEM_BYTE_ALIGNMENT_LOWER c (start + size - c.B) = t at *
      have e6 : wsub c obj start = if start ≤ obj then obj - start else obj + 2 ^ c.W - start := by
        split
        · exact wsub_eq c (by assumption) ho
        · exact wsub_wrap c (by omega) h1
      rw [e6] at hout
      split at hout <;> omega
    · exfalso
      rw [wadd_wrap c (by omega) (by omega)] at hk1
      omega
  · right
    exact UPPER_wrap c hc h1 (by omega)

theorem define_state (c : Config) (hc : c.WF) (s : State) {start size : Nat}
    (h1 : start < 2 ^ c.W) (h2 : size < 2 ^ c.W) (ho : s.object < 2 ^ c.W)
    (h3 : s.tail = 0) (hout : ObjectOutside c s start size)
    (hret : (lwmem_define_region_ex c s start size).1 = 0) :
    (lwmem_define_region_ex c s start size).2.object = s.object ∧
    (lwmem_define_region_ex c s start size).2.tail =
      LWMEM_BYTE_ALIGNMENT_LOWER c (wsub c (wadd c start size) c.B) ∧
    (c.verify = true → (lwmem_define_region_ex c s start size).2.start =
      LWMEM_BYTE_ALIGNMENT_UPPER c start) ∧
    (lwmem_define_region_ex c s start size).2.mem s.object =
      ⟨LWMEM_BYTE_ALIGNMENT_UPPER c start, 0⟩ ∧
    (lwmem_define_region_ex c s start size).2.mem
      (LWMEM_BYTE_ALIGNMENT_LOWER c (wsub c (wadd c start size) c.B)) = ⟨0, 0⟩ ∧
    (lwmem_define_region_ex c s start size).2.mem (LWMEM_BYTE_ALIGNMENT_UPPER c start) =
      ⟨LWMEM_BYTE_ALIGNMENT_LOWER c (wsub c (wadd c start size) c.B),
        LWMEM_BYTE_ALIGNMENT_LOWER c (wsub c (wadd c start size) c.B) -
          LWMEM_BYTE_ALIGNMENT_UPPER c start⟩ ∧
    c.A ∣ LWMEM_BYTE_ALIGNMENT_UPPER c start ∧
    c.A ∣ LWMEM_BYTE_ALIGNMENT_LOWER c (wsub c (wadd c start size) c.B) ∧
    LWMEM_BYTE_ALIGNMENT_UPPER c start + c.B ≤
      LWMEM_BYTE_ALIGNMENT_LOWER c (wsub c (wadd c start size) c.B) ∧
    LWMEM_BYTE_ALIGNMENT_LOWER c (wsub c (wadd c start size) c.B) -
        LWMEM_BYTE_ALIGNMENT_UPPER c start < 2 ^ (c.W - 1) ∧
    LWMEM_BYTE_ALIGNMENT_LOWER c (wsub c (wadd c start size) c.B) < 2 ^ c.W ∧
    (s.object < LWMEM_BYTE_ALIGNMENT_UPPER c start ∨
      LWMEM_BYTE_ALIGNMENT_LOWER c (wsub c (wadd c start size) c.B) < s.object) := by
  by_cases k1 : LWMEM_BYTE_ALIGNMENT_UPPER c start > wadd c start size
  · simp [lwmem_define_region_ex, h3, k1] at hret
  by_cases k2 : LWMEM_BYTE_ALIGNMENT_LOWER c
      (wsub c size (wsub c (LWMEM_BYTE_ALIGNMENT_UPPER c start) start)) <
        (2 * LWMEM_BYTE_ALIGNMENT_UPPER c c.hsz) % 2 ^ c.W
  · simp [lwmem_define_region_ex, h3, k1, k2] at hret
  have hblk := define_arith0 c hc h1 h2 ho hout k1 k2
  have hBdef : LWMEM_BYTE_ALIGNMENT_UPPER c c.hsz = c.B := rfl
  rw [hBdef] at k2
  have hnext : (setSize (setNext (setSize (setNext s.mem s.object
      (LWMEM_BYTE_ALIGNMENT_UPPER c start)) s.object 0)
        (LWMEM_BYTE_ALIGNMENT_LOWER c (wsub c (wadd c (LWMEM_BYTE_ALIGNMENT_UPPER c start)
        (wsub c size (wsub c (LWMEM_BYTE_ALIGNMENT_UPPER c start) start))) c.B)) 0)
        (LWMEM_BYTE_ALIGNMENT_LOWER c (wsub c (wadd c (LWMEM_BYTE_ALIGNMENT_UPPER c start)
        (wsub c size (wsub c (LWMEM_BYTE_ALIGNMENT_UPPER c start) start))) c.B)) 0 s.object).next =
      LWMEM_BYTE_ALIGNMENT_UPPER c start := by
    generalize LWMEM_BYTE_ALIGNMENT_LOWER c (wsub c (wadd c (LWMEM_BYTE_ALIGNMENT_UPPER c start)
        (wsub c size (wsub c (LWMEM_BYTE_ALIGNMENT_UPPER c start) start))) c.B) = T at hblk ⊢
    by_cases e : s.object = T
    · rw [e]
      rcases hblk with hb | hb
      · exact absurd e hb
      · simp [hb]
    · simp [setSize_other _ _ e, setNext_other _ _ e]
  by_cases k3 : wsub c (LWMEM_BYTE_ALIGNMENT_LOWER c (wsub c (wadd c
      (LWMEM_BYTE_ALIGNMENT_UPPER c start)
      (wsub c size (wsub c (LWMEM_BYTE_ALIGNMENT_UPPER c start) start))) c.B))
      (LWMEM_BYTE_ALIGNMENT_UPPER c start) &&& LWMEM_BLOCK_SIZE_ALLOCATED_BITMASK c = 0
  swap
  · exfalso
    simp only [lwmem_define_region_ex, h3, ne_eq, not_true_eq_false, if_false, k1, k2, hBdef,
      hnext, setSize_same, k3, not_false_eq_true, if_true] at hret
    exact absurd hret (by decide)
  obtain ⟨a1, a2, a3, a4, a5, a6, a7, a8⟩ :=
    define_arith c hc h1 h2 ho hout k1 k2 (by rw [k3]; simp)
  simp only [lwmem_define_region_ex, h3, ne_eq, not_true_eq_false, if_false, k1, k2, hBdef,
      hnext, setSize_same, k3, not_false_eq_true, if_true]
  simp only [a1, a5]
  generalize LWMEM_BYTE_ALIGNMENT_LOWER c (wsub c (wadd c start size) c.B) = t at *
  generalize hbase : LWMEM_BYTE_ALIGNMENT_UPPER c start = base at *
  have hB := B_spec c hc
  have hh1 := hc.2.1
  have n1 : s.object ≠ base := by omega
  have n2 : s.object ≠ t := by omega
  have n4 : t ≠ base := by omega
  refine ⟨?_, ?_, ?_, ?_, ?_, ?_, a2, a3, a4, a6, a7, a8⟩
  · split <;> rfl
  · split <;> rfl
  · intro hv; simp [hv]
  · split <;> simp [setSize_other _ _ n1, setNext_other _ _ n1, setSize_other _ _ n2,
      setNext_other _ _ n2]
  · split <;> simp [setSize_other _ _ n4, setNext_other _ _ n4]
  · split <;> simp

end LwMEM


namespace LwMEM

theorem Pos_cons {b : Blk} {l : List Blk} : Pos (b :: l) ↔ 0 < b.size ∧ Pos l := by
  simp [Pos]

theorem Pos_append {l1 l2 : List Blk} : Pos (l1 ++ l2) ↔ Pos l1 ∧ Pos l2 := by
  simp only [Pos, List.mem_append]
  constructor
  · intro h; exact ⟨fun b hb => h b (Or.inl hb), fun b hb => h b (Or.inr hb)⟩
  · rintro ⟨h1, h2⟩ b (hb | hb)
    · exact h1 b hb
    · exact h2 b hb

theorem Pos_nil : Pos [] := by simp [Pos]

@[simp] theorem total_nil : total [] = 0 := rfl

@[simp] theorem total_cons (b : Blk) (l : List Blk) : total (b :: l) = b.size + total l := rfl

@[simp] theorem total_append (l1 l2 : List Blk) : total (l1 ++ l2) = total l1 + total l2 := by
  induction l1 with
  | nil => simp
  | cons b l ih => simp [ih, Nat.add_assoc]

theorem nextFree_append (a : Nat) (l1 l2 : List Blk) (nx : Nat) :
    nextFree a (l1 ++ l2) nx = nextFree a l1 (nextFree (a + total l1) l2 nx) := by
  induction l1 generalizing a with
  | nil => simp [nextFree]
  | cons b l ih =>
    obtain ⟨sz, r⟩ := b
    cases r with
    | none => simp [nextFree]
    | some n => simp [nextFree, ih, Nat.add_assoc]

theorem FreeSeg_append (m : Mem) (a : Nat) (l1 l2 : List Blk) (nx : Nat) :
    FreeSeg m a (l1 ++ l2) nx ↔
      FreeSeg m a l1 (nextFree (a + total l1) l2 nx) ∧ FreeSeg m (a + total l1) l2 nx := by
  induction l1 generalizing a with
  | nil => simp [FreeSeg]
  | cons b l ih =>
    obtain ⟨sz, r⟩ := b
    cases r with
    | none => simp [FreeSeg, ih, nextFree_append, Nat.add_assoc, and_assoc]
    | some n => simp [FreeSeg, ih, Nat.add_assoc]

theorem UsedSeg_append (c : Config) (m : Mem) (a : Nat) (l1 l2 : List Blk) :
    UsedSeg c m a (l1 ++ l2) ↔ UsedSeg c m a l1 ∧ UsedSeg c m (a + total l1) l2 := by
  induction l1 generalizing a with
  | nil => simp [UsedSeg]
  | cons b l ih =>
    obtain ⟨sz, r⟩ := b
    cases r with
    | none => simp [UsedSeg, ih, Nat.add_assoc]
    | some n => simp [UsedSeg, ih, Nat.add_assoc, and_assoc]

theorem frees_append (a : Nat) (l1 l2 : List Blk) :
    frees a (l1 ++ l2) = frees a l1 ++ frees (a + total l1) l2 := by
  induction l1 generalizing a with
  | nil => simp [frees]
  | cons b l ih =>
    obtain ⟨sz, r⟩ := b
    cases r with
    | none => simp [frees, ih, Nat.add_assoc]
    | some n => simp [frees, ih, Nat.add_assoc]

theorem lives_append (c : Config) (a : Nat) (l1 l2 : List Blk) :
    lives c a (l1 ++ l2) = lives c a l1 ++ lives c (a + total l1) l2 := by
  induction l1 generalizing a with
  | nil => simp [lives]
  | cons b l ih =>
    obtain ⟨sz, r⟩ := b
    cases r with
    | none => simp [lives, ih, Nat.add_assoc]
    | some n => simp [lives, ih, Nat.add_assoc]

theorem lastFree_append (d a : Nat) (l1 l2 : List Blk) :
    lastFree d a (l1 ++ l2) = lastFree (lastFree d a l1) (a + total l1) l2 := by
  induction l1 generalizing d a with
  | nil => simp [lastFree]
  | cons b l ih =>
    obtain ⟨sz, r⟩ := b
    cases r with
    | none => simp [lastFree, ih, Nat.add_assoc]
    | some n => simp [lastFree, ih, Nat.add_assoc]

theorem freeCount_append (l1 l2 : List Blk) :
    freeCount (l1 ++ l2) = freeCount l1 + freeCount l2 := by
  induction l1 with
  | nil => simp [freeCount]
  | cons b l ih =>
    obtain ⟨sz, r⟩ := b
    cases r with
    | none => simp [freeCount, ih]; omega
    | some n => simp [freeCount, ih]

theorem freeCount_le_total {l : List Blk} (h : Pos l) : freeCount l ≤ total l := by
  induction l with
  | nil => simp [freeCount]
  | cons b l ih =>
    obtain ⟨sz, r⟩ := b
    rw [Pos_cons] at h
    have := ih h.2
    have := h.1
    cases r with
    | none => simp [freeCount] at *; omega
    | some n => simp [freeCount] at *; omega

/-- The first free block lies inside the layout, or is what follows the layout. -/
theorem nextFree_range (a : Nat) (l : List Blk) (nx : Nat) (h : Pos l) :
    nextFree a l nx = nx ∨ (a ≤ nextFree a l nx ∧ nextFree a l nx < a + total l) := by
  induction l generalizing a with
  | nil => left; rfl
  | cons b l ih =>
    obtain ⟨sz, r⟩ := b
    rw [Pos_cons] at h
    have h1 := h.1
    cases r with
    | none => right; simp [nextFree] at *; omega
    | some n =>
      rcases ih (a + sz) h.2 with e | e
      · left; simp [nextFree, e]
      · right; simp [nextFree] at *; omega

theorem lastFree_range (d a : Nat) (l : List Blk) (h : Pos l) :
    lastFree d a l = d ∨ (a ≤ lastFree d a l ∧ lastFree d a l < a + total l) := by
  induction l generalizing d a with
  | nil => left; rfl
  | cons b l ih =>
    obtain ⟨sz, r⟩ := b
    rw [Pos_cons] at h
    have h1 := h.1
    cases r with
    | none =>
      right
      rcases ih a (a + sz) h.2 with e | e
      · simp [lastFree, e] at *; omega
      · simp [lastFree] at *; omega
    | some n =>
      rcases ih d (a + sz) h.2 with e | e
      · left; simp [lastFree, e]
      · right; simp [lastFree] at *; omega

/-- Frame rule for the free blocks: memory may change outside the layout. -/
theorem FreeSeg_frame {m m' : Mem} {a : Nat} {l : List Blk} {nx : Nat} (hp : Pos l)
    (hm : ∀ y, a ≤ y → y < a + total l → m' y = m y) (h : FreeSeg m a l nx) :
    FreeSeg m' a l nx := by
  induction l generalizing a with
  | nil => trivial
  | cons b l ih =>
    obtain ⟨sz, r⟩ := b
    rw [Pos_cons] at hp
    have h1 := hp.1
    simp only [total_cons] at hm h1
    have hrec : ∀ y, a + sz ≤ y → y < a + sz + total l → m' y = m y :=
      fun y h1 h2 => hm y (by omega) (by omega)
    cases r with
    | none =>
      simp only [FreeSeg] at h ⊢
      exact ⟨by rw [hm a (by omega) (by omega)]; exact h.1, ih hp.2 hrec h.2⟩
    | some n =>
      simp only [FreeSeg] at h ⊢
      exact ih hp.2 hrec h

theorem UsedSeg_frame (c : Config) {m m' : Mem} {a : Nat} {l : List Blk} (hp : Pos l)
    (hm : ∀ y, a ≤ y → y < a + total l → m' y = m y) (h : UsedSeg c m a l) :
    UsedSeg c m' a l := by
  induction l generalizing a with
  | nil => trivial
  | cons b l ih =>
    obtain ⟨sz, r⟩ := b
    rw [Pos_cons] at hp
    have h1 := hp.1
    simp only [total_cons] at hm h1
    have hrec : ∀ y, a + sz ≤ y → y < a + sz + total l → m' y = m y :=
      fun y h1 h2 => hm y (by omega) (by omega)
    cases r with
    | none =>
      simp only [UsedSeg] at h ⊢
      exact ih hp.2 hrec h
    | some n =>
      simp only [UsedSeg] at h ⊢
      exact ⟨by rw [hm a (by omega) (by omega)]; exact h.1, ih hp.2 hrec h.2⟩

end LwMEM


namespace LwMEM

/-- Redirecting the `next` of the last free block of a segment (or of the
node `d` before it when the segment has none) re-targets the segment. -/
theorem relink {m : Mem} {d a : Nat} {l : List Blk} {nx : Nat} (nx' : Nat) (hp : Pos l)
    (hd : d < a ∨ a + total l ≤ d) (h : FreeSeg m a l nx)
    (hdn : (m d).next = nextFree a l nx) :
    FreeSeg (setNext m (lastFree d a l) nx') a l nx' ∧
      setNext m (lastFree d a l) nx' d = ⟨nextFree a l nx', (m d).size⟩ := by
  induction l generalizing d a with
  | nil => simp [lastFree, FreeSeg, nextFree]
  | cons b l ih =>
    obtain ⟨sz, r⟩ := b
    rw [Pos_cons] at hp
    have h1 := hp.1
    simp only [total_cons] at hd h1
    cases r with
    | some n =>
      simp only [FreeSeg, lastFree, nextFree] at h hdn ⊢
      exact ih hp.2 (by omega) h hdn
    | none =>
      simp only [FreeSeg, lastFree, nextFree] at h hdn ⊢
      obtain ⟨ih1, ih2⟩ := ih (d := a) (a := a + sz) hp.2 (by omega) h.2 (by rw [h.1])
      refine ⟨⟨?_, ih1⟩, ?_⟩
      · rw [ih2, h.1]
      · have hne : d ≠ lastFree a (a + sz) l := by
          rcases lastFree_range a (a + sz) l hp.2 with e | e <;> omega
        rw [setNext_other _ _ hne]
        cases hmd : m d
        rw [hmd] at hdn
        simp at hdn
        simp [hdn]

theorem lastFree_next {m : Mem} {d a : Nat} {l : List Blk} {nx : Nat}
    (h : FreeSeg m a l nx) (hdn : (m d).next = nextFree a l nx) :
    (m (lastFree d a l)).next = nx := by
  induction l generalizing d a with
  | nil => simpa [lastFree, nextFree] using hdn
  | cons b l ih =>
    obtain ⟨sz, r⟩ := b
    cases r with
    | some n =>
      simp only [FreeSeg, lastFree, nextFree] at h hdn ⊢
      exact ih h hdn
    | none =>
      simp only [FreeSeg, lastFree, nextFree] at h hdn ⊢
      exact ih h.2 (by rw [h.1])

theorem alloc_loop_skip {m : Mem} {tail w : Nat} {a : Nat} {pre : List Blk} {nx : Nat}
    (k prev : Nat) (h : FreeSeg m a pre nx) (hp : Pos pre)
    (hsmall : ∀ b ∈ pre, b.req = none → b.size < w) (ht : a + total pre ≤ tail) :
    alloc_loop m tail w (k + freeCount pre) prev (nextFree a pre nx) =
      alloc_loop m tail w k (lastFree prev a pre) nx := by
  induction pre generalizing a prev with
  | nil => simp [freeCount, nextFree, lastFree]
  | cons b l ih =>
    obtain ⟨sz, r⟩ := b
    rw [Pos_cons] at hp
    have h1 := hp.1
    simp only [total_cons] at ht h1
    have hs' : ∀ b ∈ l, b.req = none → b.size < w :=
      fun b hb => hsmall b (List.mem_cons_of_mem _ hb)
    cases r with
    | some n =>
      simp only [FreeSeg, lastFree, nextFree, freeCount] at h ⊢
      exact ih prev h hp.2 hs' (by omega)
    | none =>
      simp only [FreeSeg, lastFree, nextFree, freeCount] at h ⊢
      have hw : sz < w := hsmall ⟨sz, none⟩ (List.mem_cons_self _ _) rfl
      have hne : a ≠ tail := by omega
      rw [← Nat.add_assoc, alloc_loop, h.1]
      simp only [hw, hne, ne_eq, not_false_eq_true, and_self, if_true]
      exact ih a h.2 hp.2 hs' (by omega)

theorem insert_loop_skip {m : Mem} {x : Nat} {a : Nat} {pre : List Blk} {nx : Nat}
    (k d : Nat) (h : FreeSeg m a pre nx) (hp : Pos pre) (hx : a + total pre ≤ x)
    (hdn : (m d).next = nextFree a pre nx) :
    insert_loop m x (k + freeCount pre) d = insert_loop m x k (lastFree d a pre) := by
  induction pre generalizing a d with
  | nil => simp [freeCount, lastFree]
  | cons b l ih =>
    obtain ⟨sz, r⟩ := b
    rw [Pos_cons] at hp
    have h1 := hp.1
    simp only [total_cons] at hx h1
    cases r with
    | some n =>
      simp only [FreeSeg, lastFree, nextFree, freeCount] at h hdn ⊢
      exact ih d h hp.2 (by omega) hdn
    | none =>
      simp only [FreeSeg, lastFree, nextFree, freeCount] at h hdn ⊢
      rw [← Nat.add_assoc, insert_loop, hdn]
      have hlt : a < x := by omega
      simp only [hlt, if_true]
      exact ih a h.2 hp.2 (by omega) (by rw [h.1])

theorem walk_frees {m : Mem} {tail : Nat} {a : Nat} {l : List Blk} {nx : Nat}
    (k : Nat) (h : FreeSeg m a l nx) (hp : Pos l) (ht : a + total l ≤ tail) :
    walk m tail (k + freeCount l) (nextFree a l nx) =
      (walk m tail k nx).map (fun r => frees a l ++ r) := by
  induction l generalizing a with
  | nil => simp [freeCount, nextFree, frees]
  | cons b l ih =>
    obtain ⟨sz, r⟩ := b
    rw [Pos_cons] at hp
    have h1 := hp.1
    simp only [total_cons] at ht h1
    cases r with
    | some n =>
      simp only [FreeSeg, nextFree, freeCount, frees] at h ⊢
      exact ih h hp.2 (by omega)
    | none =>
      simp only [FreeSeg, nextFree, freeCount, frees] at h ⊢
      have hne : a ≠ tail := by omega
      rw [← Nat.add_assoc, walk, h.1]
      simp only [hne, if_false]
      rw [ih h.2 hp.2 (by omega), Option.map_map]
      rfl

end LwMEM


namespace LwMEM

theorem setNext_apply (m : Mem) (a v y : Nat) :
    setNext m a v y = if y = a then ⟨v, (m a).size⟩ else m y := rfl

theorem setSize_apply (m : Mem) (a v y : Nat) :
    setSize m a v y = if y = a then ⟨(m a).next, v⟩ else m y := rfl

theorem lastFree_end_le {m : Mem} {d a : Nat} {l : List Blk} {nx : Nat}
    (h : FreeSeg m a l nx) (hp : Pos l) :
    lastFree d a l = d ∨
      (a ≤ lastFree d a l ∧ lastFree d a l + (m (lastFree d a l)).size ≤ a + total l) := by
  induction l generalizing d a with
  | nil => left; rfl
  | cons b l ih =>
    obtain ⟨sz, r⟩ := b
    rw [Pos_cons] at hp
    have h1 := hp.1
    simp only [total_cons] at h1 ⊢
    cases r with
    | some n =>
      simp only [FreeSeg, lastFree] at h ⊢
      rcases ih (d := d) h hp.2 with e | e
      · left; exact e
      · right; omega
    | none =>
      simp only [FreeSeg, lastFree] at h ⊢
      right
      rcases ih (d := a) h.2 hp.2 with e | e
      · rw [e, h.1]; simp; 
      · omega

theorem release_nil (xs : Nat) (post : List Blk) : release [] xs post = consFree xs post := by
  simp [release]

theorem release_snoc_used (pre : List Blk) (ps n xs : Nat) (post : List Blk) :
    release (pre ++ [⟨ps, some n⟩]) xs post = pre ++ ⟨ps, some n⟩ :: consFree xs post := by
  induction pre with
  | nil => simp [release]
  | cons b l ih =>
    obtain ⟨sz, r⟩ := b
    cases r with
    | some k => simp [release, ih]
    | none =>
      cases l with
      | nil => simp [release]
      | cons b' l' => simp [release] at ih ⊢; exact ih

theorem release_snoc_free (pre : List Blk) (ps xs : Nat) (post : List Blk) :
    release (pre ++ [⟨ps, none⟩]) xs post = pre ++ consFree (ps + xs) post := by
  induction pre with
  | nil => simp [release]
  | cons b l ih =>
    obtain ⟨sz, r⟩ := b
    cases r with
    | some k => simp [release, ih]
    | none =>
      cases l with
      | nil => simp [release]
      | cons b' l' => simp [release] at ih ⊢; exact ih

/-- Assembling a segment around a free block. -/
theorem FreeSeg_assemble {m : Mem} {a : Nat} {pre post : List Blk} {S nx : Nat}
    (h1 : FreeSeg m a pre (a + total pre))
    (h2 : m (a + total pre) = ⟨nextFree (a + total pre + S) post nx, S⟩)
    (h3 : FreeSeg m (a + total pre + S) post nx) :
    FreeSeg m a (pre ++ ⟨S, none⟩ :: post) nx := by
  rw [FreeSeg_append]
  simp only [FreeSeg, nextFree]
  exact ⟨h1, h2, h3⟩

theorem insert_loop_found (c : Config) {s : State} {base : Nat} {pre post : List Blk}
    {xs r : Nat}
    (hp : Pos (pre ++ ⟨xs, some r⟩ :: post))
    (ht : s.tail = base + total (pre ++ ⟨xs, some r⟩ :: post))
    (htl : s.tail < 2 ^ c.W)
    (hh : (s.mem s.object).next = nextFree base (pre ++ ⟨xs, some r⟩ :: post) s.tail)
    (hf : FreeSeg s.mem base (pre ++ ⟨xs, some r⟩ :: post) s.tail) :
    insert_loop s.mem (base + total pre) (2 ^ c.W) s.object =
      some (lastFree s.object base pre) ∧
    (s.mem (lastFree s.object base pre)).next = nextFree (base + total pre + xs) post s.tail := by
  rw [Pos_append, Pos_cons] at hp
  obtain ⟨hp1, hp2, hp3⟩ := hp
  rw [FreeSeg_append] at hf
  rw [nextFree_append] at hh
  simp only [FreeSeg, nextFree, total_append, total_cons] at hf hh ht hp2
  have hn := lastFree_next hf.1 hh
  refine ⟨?_, hn⟩
  have hc := freeCount_le_total hp1
  obtain ⟨k, hk⟩ : ∃ k, 2 ^ c.W = (k + 1) + freeCount pre := ⟨2 ^ c.W - 1 - freeCount pre, by omega⟩
  rw [hk, insert_loop_skip (k + 1) s.object hf.1 hp1 (Nat.le_refl _) hh, insert_loop, hn]
  have : ¬ nextFree (base + total pre + xs) post s.tail < base + total pre := by
    rcases nextFree_range (base + total pre + xs) post s.tail hp3 with e | e <;> omega
  simp [this]

end LwMEM


namespace LwMEM

theorem insert_caseN (c : Config) {m : Mem} {tail obj base : Nat} {pre post : List Blk}
    {xs r : Nat}
    (hp : Pos (pre ++ ⟨xs, some r⟩ :: post))
    (ht : tail = base + total (pre ++ ⟨xs, some r⟩ :: post))
    (htl : tail < 2 ^ c.W) (hobj : obj < base ∨ tail < obj) (hol : obj < 2 ^ c.W)
    (hh : m obj = ⟨nextFree base (pre ++ ⟨xs, some r⟩ :: post) tail, 0⟩)
    (hf : FreeSeg m base (pre ++ ⟨xs, some r⟩ :: post) tail)
    (hx : (m (base + total pre)).size = xs)
    (hU : (m (lastFree obj base pre)).next = nextFree (base + total pre + xs) post tail)
    (hN : lastFree obj base pre = obj ∨ (base ≤ lastFree obj base pre ∧
      lastFree obj base pre + (m (lastFree obj base pre)).size < base + total pre)) :
    FreeSeg (insert_link c m tail (lastFree obj base pre) (base + total pre)) base
        (pre ++ consFree xs post) tail ∧
      insert_link c m tail (lastFree obj base pre) (base + total pre) obj =
        ⟨nextFree base (pre ++ consFree xs post) tail, 0⟩ ∧
      ∀ y, y ≠ base + total pre → y ≠ lastFree obj base pre →
        insert_link c m tail (lastFree obj base pre) (base + total pre) y = m y := by
  rw [Pos_append, Pos_cons] at hp
  obtain ⟨hp1, hp2, hp3⟩ := hp
  rw [FreeSeg_append] at hf
  rw [nextFree_append] at hh
  simp only [FreeSeg, nextFree, total_append, total_cons] at hf hh ht hp2
  obtain ⟨hf1, hf2⟩ := hf
  have hhn : (m obj).next = nextFree base pre (nextFree (base + total pre + xs) post tail) := by
    rw [hh]
  have hhs : (m obj).size = 0 := by rw [hh]
  generalize hidx : lastFree obj base pre = idx at *
  generalize hxdef : base + total pre = x at *
  have hne : idx ≠ x := by
    rcases hN with e | e
    · omega
    · omega
  have hlow : ¬ (wadd c idx (m idx).size = x) := by
    rcases hN with e | e
    · rw [e, hhs, wadd_eq c (by omega)]; omega
    · rw [wadd_eq c (by omega)]; omega
  -- the segment before the block, re-targeted at the block
  have hpre : ∀ m2 : Mem, (∀ y, y ≠ x → m2 y = m y) →
      FreeSeg (setNext m2 idx x) base pre x ∧
        setNext m2 idx x obj = ⟨nextFree base pre x, 0⟩ := by
    intro m2 hm2
    have hfr : FreeSeg m2 base pre (nextFree (x + xs) post tail) :=
      FreeSeg_frame hp1 (fun y h1 h2 => hm2 y (by omega)) hf1
    have hd : (m2 obj).next = nextFree base pre (nextFree (x + xs) post tail) := by
      rw [hm2 obj (by omega)]; exact hhn
    have := relink (d := obj) x hp1 (by omega) hfr hd
    rw [hidx] at this
    refine ⟨this.1, ?_⟩
    rw [this.2, hm2 obj (by omega), hhs]
  cases post with
  | nil =>
    simp only [nextFree, total_nil, Nat.add_zero] at hU ht
    have hL : insert_link c m tail idx x = setNext (setNext m x tail) idx x := by
      have e1 : wadd c x xs = tail := by rw [wadd_eq c (by omega)]; omega
      simp only [insert_link, hlow, if_false, hx, hU, e1, if_true, ne_eq, hne, not_false_eq_true]
    rw [hL]
    simp only [consFree]
    have hm2 : ∀ y, y ≠ x → setNext m x tail y = m y := fun y hy => setNext_other _ _ hy
    obtain ⟨q1, q2⟩ := hpre _ hm2
    refine ⟨?_, ?_, ?_⟩
    · rw [← hxdef] at q1 ⊢
      refine FreeSeg_assemble q1 ?_ trivial
      rw [hxdef, setNext_other _ _ (Ne.symm hne)]
      simp [nextFree, hx]
    · rw [q2, nextFree_append]; simp [nextFree, hxdef]
    · intro y h1 h2
      rw [setNext_other _ _ h2, setNext_other _ _ h1]
  | cons u post' =>
    obtain ⟨us, ur⟩ := u
    rw [Pos_cons] at hp3
    have hus := hp3.1
    simp only [total_cons] at ht hus
    cases ur with
    | none =>
      simp only [nextFree, FreeSeg] at hU hf2
      have hL : insert_link c m tail idx x =
          setNext (setNext (setSize m x (xs + us)) x
            (nextFree (x + xs + us) post' tail)) idx x := by
        have e1 : wadd c x xs = x + xs := wadd_eq c (by omega)
        have e2 : wadd c xs us = xs + us := wadd_eq c (by omega)
        have e3 : ¬ (x + xs = tail) := by omega
        have e4 : x + xs ≠ x := by omega
        simp only [insert_link, hlow, if_false, hx, hU, e1, e2, e3, if_true, ne_eq, hne,
          not_false_eq_true, hf2.1, setSize_apply, e4]
      rw [hL]
      simp only [consFree]
      have hm2 : ∀ y, y ≠ x → setNext (setSize m x (xs + us)) x
          (nextFree (x + xs + us) post' tail) y = m y :=
        fun y hy => by rw [setNext_other _ _ hy, setSize_other _ _ hy]
      obtain ⟨q1, q2⟩ := hpre _ hm2
      refine ⟨?_, ?_, ?_⟩
      · rw [← hxdef] at q1 ⊢
        refine FreeSeg_assemble q1 ?_ ?_
        · rw [hxdef, setNext_other _ _ (Ne.symm hne)]
          simp [Nat.add_assoc]
        · rw [hxdef]
          have hf2' : FreeSeg m (x + (xs + us)) post' tail := by
            rw [← Nat.add_assoc]; exact hf2.2
          refine FreeSeg_frame hp3.2 (fun y h1 h2 => ?_) hf2'
          have : y ≠ idx := by rcases hN with e | e <;> omega
          rw [setNext_other _ _ this, hm2 y (by omega)]
      · rw [q2, nextFree_append]; simp [nextFree, hxdef]
      · intro y h1 h2
        rw [setNext_other _ _ h2, hm2 y h1]
    | some k =>
      simp only [nextFree, FreeSeg] at hU hf2
      have hL : insert_link c m tail idx x =
          setNext (setNext m x (nextFree (x + xs + us) post' tail)) idx x := by
        have e1 : wadd c x xs = x + xs := wadd_eq c (by omega)
        have e3 : ¬ (x + xs = nextFree (x + xs + us) post' tail) := by
          rcases nextFree_range (x + xs + us) post' tail hp3.2 with e | e <;> omega
        simp only [insert_link, hlow, if_false, hx, hU, e1, e3, ne_eq, hne,
          not_false_eq_true, if_true]
      rw [hL]
      simp only [consFree]
      have hm2 : ∀ y, y ≠ x → setNext m x (nextFree (x + xs + us) post' tail) y = m y :=
        fun y hy => setNext_other _ _ hy
      obtain ⟨q1, q2⟩ := hpre _ hm2
      refine ⟨?_, ?_, ?_⟩
      · rw [← hxdef] at q1 ⊢
        refine FreeSeg_assemble q1 ?_ ?_
        · rw [hxdef, setNext_other _ _ (Ne.symm hne)]
          simp [nextFree, hx]
        · rw [hxdef]
          simp only [FreeSeg]
          refine FreeSeg_frame hp3.2 (fun y h1 h2 => ?_) hf2
          have : y ≠ idx := by rcases hN with e | e <;> omega
          rw [setNext_other _ _ this, hm2 y (by omega)]
      · rw [q2, nextFree_append]; simp [nextFree, hxdef]
      · intro y h1 h2
        rw [setNext_other _ _ h2, hm2 y h1]

end LwMEM


namespace LwMEM

theorem insert_caseL (c : Config) {m : Mem} {tail obj base : Nat} {pre post : List Blk}
    {ps xs r : Nat}
    (hp : Pos (pre ++ ⟨ps, none⟩ :: ⟨xs, some r⟩ :: post))
    (ht : tail = base + total (pre ++ ⟨ps, none⟩ :: ⟨xs, some r⟩ :: post))
    (htl : tail < 2 ^ c.W) (hobj : obj < base ∨ tail < obj)
    (hh : m obj = ⟨nextFree base (pre ++ ⟨ps, none⟩ :: ⟨xs, some r⟩ :: post) tail, 0⟩)
    (hf : FreeSeg m base (pre ++ ⟨ps, none⟩ :: ⟨xs, some r⟩ :: post) tail)
    (hx : (m (base + total pre + ps)).size = xs) :
    FreeSeg (insert_link c m tail (base + total pre) (base + total pre + ps)) base
        (pre ++ consFree (ps + xs) post) tail ∧
      insert_link c m tail (base + total pre) (base + total pre + ps) obj =
        ⟨nextFree base (pre ++ consFree (ps + xs) post) tail, 0⟩ ∧
      ∀ y, y ≠ base + total pre →
        insert_link c m tail (base + total pre) (base + total pre + ps) y = m y := by
  rw [Pos_append, Pos_cons, Pos_cons] at hp
  obtain ⟨hp1, hp0, hp2, hp3⟩ := hp
  rw [FreeSeg_append] at hf
  rw [nextFree_append] at hh
  simp only [FreeSeg, nextFree, total_append, total_cons] at hf hh ht hp2 hp0
  obtain ⟨hf1, hf0, hf2⟩ := hf
  generalize hidx : base + total pre = idx at *
  have hlow : wadd c idx ps = idx + ps := wadd_eq c (by omega)
  have hne : idx ≠ idx + ps := by omega
  have hpre : ∀ m2 : Mem, (∀ y, y ≠ idx → m2 y = m y) → FreeSeg m2 base pre idx :=
    fun m2 hm2 => FreeSeg_frame hp1 (fun y h1 h2 => hm2 y (by omega)) hf1
  have hhead : ∀ (post' : List Blk) (S : Nat),
      m obj = ⟨nextFree base (pre ++ ⟨S, none⟩ :: post') tail, 0⟩ := by
    intro post' S
    rw [hh, nextFree_append]; simp [nextFree, hidx]
  cases post with
  | nil =>
    simp only [nextFree, total_nil, Nat.add_zero] at hf0 ht
    have hL : insert_link c m tail idx (idx + ps) =
        setNext (setSize m idx (ps + xs)) idx tail := by
      have e1 : wadd c ps xs = ps + xs := wadd_eq c (by omega)
      have e2 : wadd c idx (ps + xs) = tail := by rw [wadd_eq c (by omega)]; omega
      have e3 : (m idx).size = ps := by rw [hf0]
      have e4 : (m idx).next = tail := by rw [hf0]
      simp only [insert_link, hlow, if_true, hx, e1, e2, e3, e4, setSize_same, ne_eq,
        not_true_eq_false, if_false]
    rw [hL]
    simp only [consFree]
    have hm2 : ∀ y, y ≠ idx → setNext (setSize m idx (ps + xs)) idx tail y = m y :=
      fun y hy => by rw [setNext_other _ _ hy, setSize_other _ _ hy]
    refine ⟨?_, ?_, hm2⟩
    · rw [← hidx] at *
      refine FreeSeg_assemble (hpre _ hm2) ?_ trivial
      simp [nextFree]
    · rw [hm2 obj (by omega)]; exact hhead _ _
  | cons u post' =>
    obtain ⟨us, ur⟩ := u
    rw [Pos_cons] at hp3
    have hus := hp3.1
    simp only [total_cons] at ht hus
    cases ur with
    | none =>
      simp only [nextFree, FreeSeg] at hf0 hf2
      have hL : insert_link c m tail idx (idx + ps) =
          setNext (setSize (setSize m idx (ps + xs)) idx (ps + xs + us)) idx
            (nextFree (idx + ps + xs + us) post' tail) := by
        have e1 : wadd c ps xs = ps + xs := wadd_eq c (by omega)
        have e2 : wadd c idx (ps + xs) = idx + ps + xs := by rw [wadd_eq c (by omega)]; omega
        have e3 : (m idx).size = ps := by rw [hf0]
        have e4 : (m idx).next = idx + ps + xs := by rw [hf0]
        have e5 : ¬ (idx + ps + xs = tail) := by omega
        have e6 : idx + ps + xs ≠ idx := by omega
        have e7 : wadd c (ps + xs) us = ps + xs + us := wadd_eq c (by omega)
        simp only [insert_link, hlow, if_true, hx, e1, e2, e3, e4, e5, e7, setSize_same, ne_eq,
          not_true_eq_false, if_false, setSize_apply, e6, hf2.1]
      rw [hL]
      simp only [consFree]
      have hm2 : ∀ y, y ≠ idx → setNext (setSize (setSize m idx (ps + xs)) idx (ps + xs + us)) idx
            (nextFree (idx + ps + xs + us) post' tail) y = m y :=
        fun y hy => by rw [setNext_other _ _ hy, setSize_other _ _ hy, setSize_other _ _ hy]
      refine ⟨?_, ?_, hm2⟩
      · rw [← hidx] at *
        refine FreeSeg_assemble (hpre _ hm2) ?_ ?_
        · simp [Nat.add_assoc]
        · have hf2' : FreeSeg m (base + total pre + (ps + xs + us)) post' tail := by
            simp only [← Nat.add_assoc]; exact hf2.2
          exact FreeSeg_frame hp3.2 (fun y h1 h2 => hm2 y (by omega)) hf2'
      · rw [hm2 obj (by omega)]; exact hhead _ _
    | some k =>
      simp only [nextFree, FreeSeg] at hf0 hf2
      have hL : insert_link c m tail idx (idx + ps) =
          setNext (setSize m idx (ps + xs)) idx (nextFree (idx + ps + xs + us) post' tail) := by
        have e1 : wadd c ps xs = ps + xs := wadd_eq c (by omega)
        have e2 : wadd c idx (ps + xs) = idx + ps + xs := by rw [wadd_eq c (by omega)]; omega
        have e3 : (m idx).size = ps := by rw [hf0]
        have e4 : (m idx).next = nextFree (idx + ps + xs + us) post' tail := by rw [hf0]
        have e5 : ¬ (idx + ps + xs = nextFree (idx + ps + xs + us) post' tail) := by
          rcases nextFree_range (idx + ps + xs + us) post' tail hp3.2 with e | e <;> omega
        simp only [insert_link, hlow, if_true, hx, e1, e2, e3, e4, e5, setSize_same, ne_eq,
          not_true_eq_false, if_false]
      rw [hL]
      simp only [consFree]
      have hm2 : ∀ y, y ≠ idx → setNext (setSize m idx (ps + xs)) idx
            (nextFree (idx + ps + xs + us) post' tail) y = m y :=
        fun y hy => by rw [setNext_other _ _ hy, setSize_other _ _ hy]
      refine ⟨?_, ?_, hm2⟩
      · rw [← hidx] at *
        refine FreeSeg_assemble (hpre _ hm2) ?_ ?_
        · simp [nextFree, Nat.add_assoc]
        · simp only [FreeSeg]
          have hf2' : FreeSeg m (base + total pre + (ps + xs) + us) post' tail := by
            simp only [← Nat.add_assoc]; exact hf2
          exact FreeSeg_frame hp3.2 (fun y h1 h2 => hm2 y (by omega)) hf2'
      · rw [hm2 obj (by omega)]; exact hhead _ _

end LwMEM


namespace LwMEM

theorem lastFree_snoc_free (d a : Nat) (pre : List Blk) (ps : Nat) :
    lastFree d a (pre ++ [⟨ps, none⟩]) = a + total pre := by
  rw [lastFree_append]; simp [lastFree]

theorem lastFree_snoc_used (d a : Nat) (pre : List Blk) (ps n : Nat) :
    lastFree d a (pre ++ [⟨ps, some n⟩]) = lastFree d a pre := by
  rw [lastFree_append]; simp [lastFree]

/-- Specification of `_lwmem_insert_block` against the layout: inserting the
detached block that sits between `pre` and `post` yields the layout
`release pre xs post`, and only the block itself and the free-list node before
it are written. -/
theorem insert_spec (c : Config) {s : State} {base : Nat} {pre post : List Blk}
    {xs r : Nat}
    (hp : Pos (pre ++ ⟨xs, some r⟩ :: post))
    (ht : s.tail = base + total (pre ++ ⟨xs, some r⟩ :: post))
    (htl : s.tail < 2 ^ c.W) (hobj : s.object < base ∨ s.tail < s.object)
    (hol : s.object < 2 ^ c.W)
    (hh : s.mem s.object = ⟨nextFree base (pre ++ ⟨xs, some r⟩ :: post) s.tail, 0⟩)
    (hf : FreeSeg s.mem base (pre ++ ⟨xs, some r⟩ :: post) s.tail)
    (hx : (s.mem (base + total pre)).size = xs) :
    ∃ m', lwmem_insert_block c s (base + total pre) = some { s with mem := m' } ∧
      FreeSeg m' base (release pre xs post) s.tail ∧
      m' s.object = ⟨nextFree base (release pre xs post) s.tail, 0⟩ ∧
      ∀ y, y ≠ base + total pre → y ≠ lastFree s.object base pre → m' y = s.mem y := by
  have hloop := insert_loop_found c hp ht htl (by rw [hh]) hf
  refine ⟨insert_link c s.mem s.tail (lastFree s.object base pre) (base + total pre), ?_, ?_⟩
  · simp only [lwmem_insert_block, hloop.1]
  rcases List.eq_nil_or_concat pre with e | ⟨pre', b, e⟩
  · subst e
    rw [release_nil]
    have := insert_caseN c hp ht htl hobj hol hh hf hx hloop.2 (Or.inl rfl)
    simpa using this
  · rw [List.concat_eq_append] at e
    subst e
    obtain ⟨ps, pr⟩ := b
    cases pr with
    | some n =>
      rw [release_snoc_used]
      have hp' := hp
      rw [Pos_append, Pos_append, Pos_cons] at hp'
      have hf' := hf
      rw [FreeSeg_append, FreeSeg_append] at hf'
      have hN := lastFree_end_le (d := s.object) hf'.1.1 hp'.1.1
      have hps := hp'.1.2.1
      simp only at hps
      have := insert_caseN c hp ht htl hobj hol hh hf hx hloop.2 (by
        rw [lastFree_snoc_used]
        rcases hN with e | e
        · left; exact e
        · right
          simp only [total_append, total_cons, total_nil]
          omega)
      simpa using this
    | none =>
      rw [release_snoc_free]
      simp only [List.append_assoc, List.singleton_append] at hp ht hh hf
      simp only [total_append, total_cons, total_nil, Nat.add_zero, lastFree_snoc_free] at hx ⊢
      rw [← Nat.add_assoc] at hx ⊢
      obtain ⟨q1, q2, q3⟩ := insert_caseL c hp ht htl hobj hh hf hx
      exact ⟨q1, q2, fun y _ h2 => q3 y h2⟩

end LwMEM


namespace LwMEM

theorem consFree_of_free (sz us : Nat) (l : List Blk) :
    consFree sz (⟨us, none⟩ :: l) = ⟨sz + us, none⟩ :: l := rfl

theorem consFree_of_not {l : List Blk} (sz : Nat) (h : ¬ headFree l) :
    consFree sz l = ⟨sz, none⟩ :: l := by
  cases l with
  | nil => rfl
  | cons b l =>
    obtain ⟨us, r⟩ := b
    cases r with
    | none => exact absurd trivial h
    | some n => rfl

theorem consFree_consFree (s1 s2 : Nat) (l : List Blk) :
    consFree s1 (consFree s2 l) = consFree (s1 + s2) l := by
  cases l with
  | nil => simp [consFree]
  | cons b l =>
    obtain ⟨us, r⟩ := b
    cases r with
    | none => simp [consFree, Nat.add_assoc]
    | some n => simp [consFree]

theorem total_consFree (sz : Nat) (l : List Blk) : total (consFree sz l) = sz + total l := by
  cases l with
  | nil => simp [consFree]
  | cons b l =>
    obtain ⟨us, r⟩ := b
    cases r with
    | none => simp [consFree, Nat.add_assoc]
    | some n => simp [consFree]

theorem total_coalesce (l : List Blk) : total (coalesce l) = total l := by
  induction l with
  | nil => rfl
  | cons b l ih =>
    obtain ⟨sz, r⟩ := b
    cases r with
    | none => simp [coalesce, total_consFree, ih]
    | some n => simp [coalesce, ih]

theorem headFree_consFree (sz : Nat) (l : List Blk) : headFree (consFree sz l) := by
  cases l with
  | nil => trivial
  | cons b l =>
    obtain ⟨us, r⟩ := b
    cases r <;> trivial

theorem NoAdj_consFree {l : List Blk} (sz : Nat) (h : NoAdj l) : NoAdj (consFree sz l) := by
  cases l with
  | nil => simp [consFree, NoAdj, headFree]
  | cons b l =>
    obtain ⟨us, r⟩ := b
    cases r with
    | none => simpa [consFree, NoAdj] using h
    | some n => simp [consFree, NoAdj, headFree] at h ⊢; exact h

theorem NoAdj_coalesce (l : List Blk) : NoAdj (coalesce l) := by
  induction l with
  | nil => trivial
  | cons b l ih =>
    obtain ⟨sz, r⟩ := b
    cases r with
    | none => exact NoAdj_consFree sz ih
    | some n => simpa [coalesce, NoAdj] using ih

theorem coalesce_of_NoAdj {l : List Blk} (h : NoAdj l) : coalesce l = l := by
  induction l with
  | nil => rfl
  | cons b l ih =>
    obtain ⟨sz, r⟩ := b
    cases r with
    | none =>
      simp only [NoAdj] at h
      rw [coalesce, ih h.2, consFree_of_not sz h.1]
    | some n =>
      simp only [NoAdj] at h
      rw [coalesce, ih h]

theorem coalesce_idem (l : List Blk) : coalesce (coalesce l) = coalesce l :=
  coalesce_of_NoAdj (NoAdj_coalesce l)

theorem coalesce_consFree (sz : Nat) (l : List Blk) :
    coalesce (consFree sz l) = consFree sz (coalesce l) := by
  cases l with
  | nil => simp [consFree, coalesce]
  | cons b l =>
    obtain ⟨us, r⟩ := b
    cases r with
    | none => rw [consFree_of_free, coalesce, coalesce, consFree_consFree]
    | some n => simp [consFree, coalesce]

theorem NoAdj_cons_free (sz : Nat) (l : List Blk) :
    NoAdj (⟨sz, none⟩ :: l) ↔ ¬ headFree l ∧ NoAdj l := Iff.rfl

theorem NoAdj_cons_used (sz n : Nat) (l : List Blk) :
    NoAdj (⟨sz, some n⟩ :: l) ↔ NoAdj l := Iff.rfl

theorem NoAdj_append_used {l1 l2 : List Blk} {sz n : Nat} :
    NoAdj (l1 ++ ⟨sz, some n⟩ :: l2) ↔ NoAdj (l1 ++ [⟨sz, some n⟩]) ∧ NoAdj l2 := by
  induction l1 with
  | nil => simp [NoAdj]
  | cons b l ih =>
    obtain ⟨us, r⟩ := b
    cases r with
    | some k => simpa [NoAdj] using ih
    | none =>
      have : headFree (l ++ ⟨sz, some n⟩ :: l2) ↔ headFree (l ++ [⟨sz, some n⟩]) := by
        cases l with
        | nil => simp [headFree]
        | cons b' l' => obtain ⟨s', r'⟩ := b'; cases r' <;> simp [headFree]
      rw [List.cons_append, List.cons_append, NoAdj_cons_free, NoAdj_cons_free, ih, this,
        and_assoc]

/-- On a layout without neighbouring free blocks, releasing one block and
merging it with its neighbours is the same as marking it free and coalescing
the whole layout. -/
theorem release_eq_coalesce {pre post : List Blk} {xs n : Nat}
    (h : NoAdj (pre ++ ⟨xs, some n⟩ :: post)) :
    release pre xs post = coalesce (pre ++ ⟨xs, none⟩ :: post) := by
  induction pre with
  | nil =>
    simp only [List.nil_append, NoAdj] at h
    simp [release, coalesce, coalesce_of_NoAdj h]
  | cons b l ih =>
    obtain ⟨ps, r⟩ := b
    cases r with
    | some k =>
      simp only [List.cons_append, NoAdj] at h
      simp [release, coalesce, ih h]
    | none =>
      simp only [List.cons_append, NoAdj] at h
      cases l with
      | nil =>
        simp only [List.nil_append, NoAdj] at h
        simp [release, coalesce, coalesce_of_NoAdj h.2, consFree_consFree]
      | cons b' l' =>
        obtain ⟨s', r'⟩ := b'
        cases r' with
        | none => exact absurd trivial h.1
        | some k =>
          have := ih h.2
          simp only [release, List.cons_append, coalesce] at this ⊢
          rw [this]
          rfl

end LwMEM


namespace LwMEM

theorem B_pos (c : Config) (hc : c.WF) : 0 < c.B := by
  have := B_spec c hc
  have := hc.2.1
  omega

theorem Pos_of_good (c : Config) (hc : c.WF) {l : List Blk} (h : ∀ b ∈ l, GoodBlk c b) :
    Pos l := fun b hb => by
  have := (h b hb).2.1
  have := B_pos c hc
  omega

theorem good_consFree (c : Config) {sz : Nat} {l : List Blk} (h1 : GoodBlk c ⟨sz, none⟩)
    (h2 : ∀ b ∈ l, GoodBlk c b) : ∀ b ∈ consFree sz l, GoodBlk c b := by
  cases l with
  | nil => simpa [consFree] using h1
  | cons u l =>
    obtain ⟨us, r⟩ := u
    cases r with
    | some n =>
      intro b hb
      simp only [consFree, List.mem_cons] at hb
      rcases hb with e | e
      · rw [e]; exact h1
      · exact h2 b (List.mem_cons.2 e)
    | none =>
      intro b hb
      simp only [consFree, List.mem_cons] at hb
      rcases hb with e | e
      · rw [e]
        have hu := h2 ⟨us, none⟩ (List.mem_cons_self _ _)
        refine ⟨Nat.dvd_add h1.1 hu.1, ?_, ?_⟩
        · have := h1.2.1; simp only at this ⊢; omega
        · intro n hn; simp at hn
      · exact h2 b (List.mem_cons_of_mem _ e)

theorem good_coalesce (c : Config) {l : List Blk} (h : ∀ b ∈ l, GoodBlk c b) :
    ∀ b ∈ coalesce l, GoodBlk c b := by
  induction l with
  | nil => simp [coalesce]
  | cons u l ih =>
    obtain ⟨us, r⟩ := u
    have hl : ∀ b ∈ l, GoodBlk c b := fun b hb => h b (List.mem_cons_of_mem _ hb)
    have hu := h ⟨us, r⟩ (List.mem_cons_self _ _)
    cases r with
    | none => exact good_consFree c hu (ih hl)
    | some n =>
      intro b hb
      simp only [coalesce, List.mem_cons] at hb
      rcases hb with e | e
      · rw [e]; exact hu
      · exact ih hl b e

theorem good_free_of_good (c : Config) {sz : Nat} {r : Option Nat} (h : GoodBlk c ⟨sz, r⟩) :
    GoodBlk c ⟨sz, none⟩ :=
  ⟨h.1, h.2.1, fun n hn => by simp at hn⟩

theorem good_markFree (c : Config) (p : Nat) {a : Nat} {l : List Blk}
    (h : ∀ b ∈ l, GoodBlk c b) : ∀ b ∈ markFree c p a l, GoodBlk c b := by
  induction l generalizing a with
  | nil => simp [markFree]
  | cons u l ih =>
    obtain ⟨us, r⟩ := u
    have hl : ∀ b ∈ l, GoodBlk c b := fun b hb => h b (List.mem_cons_of_mem _ hb)
    have hu := h ⟨us, r⟩ (List.mem_cons_self _ _)
    cases r with
    | none =>
      intro b hb
      simp only [markFree, List.mem_cons] at hb
      rcases hb with e | e
      · rw [e]; exact hu
      · exact ih hl b e
    | some n =>
      intro b hb
      simp only [markFree] at hb
      split at hb
      · simp only [List.mem_cons] at hb
        rcases hb with e | e
        · rw [e]; exact good_free_of_good c hu
        · exact hl b e
      · simp only [List.mem_cons] at hb
        rcases hb with e | e
        · rw [e]; exact hu
        · exact ih hl b e

theorem lives_consFree (c : Config) (a sz : Nat) (l : List Blk) :
    lives c a (consFree sz l) = lives c (a + sz) l := by
  cases l with
  | nil => simp [consFree, lives]
  | cons u l =>
    obtain ⟨us, r⟩ := u
    cases r with
    | none => simp [consFree, lives, Nat.add_assoc]
    | some n => simp [consFree, lives]

theorem lives_coalesce (c : Config) (a : Nat) (l : List Blk) :
    lives c a (coalesce l) = lives c a l := by
  induction l generalizing a with
  | nil => rfl
  | cons u l ih =>
    obtain ⟨us, r⟩ := u
    cases r with
    | none => simp [coalesce, lives_consFree, lives, ih]
    | some n => simp [coalesce, lives, ih, total_coalesce]

theorem UsedSeg_consFree (c : Config) (m : Mem) (a sz : Nat) (l : List Blk) :
    UsedSeg c m a (consFree sz l) ↔ UsedSeg c m (a + sz) l := by
  cases l with
  | nil => simp [consFree, UsedSeg]
  | cons u l =>
    obtain ⟨us, r⟩ := u
    cases r with
    | none => simp [consFree, UsedSeg, Nat.add_assoc]
    | some n => simp [consFree, UsedSeg]

theorem UsedSeg_coalesce (c : Config) (m : Mem) (a : Nat) (l : List Blk) :
    UsedSeg c m a (coalesce l) ↔ UsedSeg c m a l := by
  induction l generalizing a with
  | nil => rfl
  | cons u l ih =>
    obtain ⟨us, r⟩ := u
    cases r with
    | none => simp [coalesce, UsedSeg_consFree, UsedSeg, ih]
    | some n => simp [coalesce, UsedSeg, ih]

theorem lives_ge (c : Config) {a : Nat} {l : List Blk} {q k : Nat}
    (h : (q, k) ∈ lives c a l) : a + c.B ≤ q := by
  induction l generalizing a with
  | nil => simp [lives] at h
  | cons u l ih =>
    obtain ⟨us, r⟩ := u
    cases r with
    | none =>
      simp only [lives] at h
      have := ih h
      omega
    | some n =>
      simp only [lives, List.mem_cons, Prod.mk.injEq] at h
      rcases h with e | e
      · omega
      · have := ih e
        omega

/-- A live pointer sits in front of a live block of the layout. -/
theorem lives_split (c : Config) {a : Nat} {l : List Blk} {p n : Nat} (hp : Pos l)
    (h : (p, n) ∈ lives c a l) :
    ∃ pre xs post, l = pre ++ ⟨xs, some n⟩ :: post ∧ p = a + total pre + c.B ∧
      markFree c p a l = pre ++ ⟨xs, none⟩ :: post ∧
      (lives c a l).erase (p, n) = lives c a (pre ++ ⟨xs, none⟩ :: post) := by
  induction l generalizing a with
  | nil => simp [lives] at h
  | cons u l ih =>
    obtain ⟨us, r⟩ := u
    rw [Pos_cons] at hp
    have hus := hp.1
    simp only at hus
    cases r with
    | none =>
      simp only [lives] at h
      obtain ⟨pre, xs, post, e1, e2, e3, e4⟩ := ih hp.2 h
      refine ⟨⟨us, none⟩ :: pre, xs, post, by simp [e1], by simp [e2]; omega, ?_, ?_⟩
      · simp [markFree, e3]
      · simp only [lives, List.cons_append]; exact e4
    | some k =>
      simp only [lives, List.mem_cons, Prod.mk.injEq] at h
      by_cases hpa : a + c.B = p
      · have hk : k = n := by
          rcases h with e | e
          · exact e.2.symm
          · have := lives_ge c e; omega
        subst hk
        refine ⟨[], us, l, rfl, by simp [hpa], ?_, ?_⟩
        · simp [markFree, hpa]
        · simp [lives, hpa]
      · rcases h with e | e
        · exact absurd e.1.symm hpa
        · obtain ⟨pre, xs, post, e1, e2, e3, e4⟩ := ih hp.2 e
          refine ⟨⟨us, some k⟩ :: pre, xs, post, by simp [e1], by simp [e2]; omega, ?_, ?_⟩
          · simp [markFree, hpa, e3]
          · simp only [lives, List.cons_append]
            rw [List.erase_cons_tail]
            · rw [e4]; rfl
            · simp; intro h1; exact absurd h1 hpa

end LwMEM


namespace LwMEM

/-- Frame rule for the free blocks: memory may change outside the layout and
at headers whose size word is at least `K`, when every free block is shorter
than `K`. -/
theorem FreeSeg_frame2 {m m' : Mem} {a : Nat} {l : List Blk} {nx : Nat} (K : Nat) (hp : Pos l)
    (hK : total l < K)
    (hm : ∀ y, a ≤ y → y < a + total l → (m y).size < K → m' y = m y) (h : FreeSeg m a l nx) :
    FreeSeg m' a l nx := by
  induction l generalizing a with
  | nil => trivial
  | cons b l ih =>
    obtain ⟨sz, r⟩ := b
    rw [Pos_cons] at hp
    have h1 := hp.1
    simp only [total_cons] at hm h1 hK
    have hrec : ∀ y, a + sz ≤ y → y < a + sz + total l → (m y).size < K → m' y = m y :=
      fun y h1 h2 => hm y (by omega) (by omega)
    cases r with
    | none =>
      simp only [FreeSeg] at h ⊢
      refine ⟨?_, ih hp.2 (by omega) hrec h.2⟩
      rw [hm a (by omega) (by omega) (by rw [h.1]; simp only; omega)]
      exact h.1
    | some n =>
      simp only [FreeSeg] at h ⊢
      exact ih hp.2 (by omega) hrec h

/-- Frame rule for the live blocks: memory may change outside the layout and
at headers whose allocated bit is clear. -/
theorem UsedSeg_frame2 (c : Config) {m m' : Mem} {a : Nat} {l : List Blk} (hp : Pos l)
    (hm : ∀ y, a ≤ y → y < a + total l → 2 ^ (c.W - 1) ≤ (m y).size → m' y = m y)
    (h : UsedSeg c m a l) : UsedSeg c m' a l := by
  induction l generalizing a with
  | nil => trivial
  | cons b l ih =>
    obtain ⟨sz, r⟩ := b
    rw [Pos_cons] at hp
    have h1 := hp.1
    simp only [total_cons] at hm h1
    have hrec : ∀ y, a + sz ≤ y → y < a + sz + total l → 2 ^ (c.W - 1) ≤ (m y).size →
        m' y = m y := fun y h1 h2 => hm y (by omega) (by omega)
    cases r with
    | none =>
      simp only [UsedSeg] at h ⊢
      exact ih hp.2 hrec h
    | some n =>
      simp only [UsedSeg] at h ⊢
      refine ⟨?_, ih hp.2 hrec h.2⟩
      rw [hm a (by omega) (by omega) (by rw [h.1]; omega)]
      exact h.1

theorem ne_nil_of_total_pos {l : List Blk} (h : 0 < total l) : l ≠ [] := by
  intro e; rw [e] at h; simp at h

theorem total_markFree (c : Config) (p a : Nat) (l : List Blk) :
    total (markFree c p a l) = total l := by
  induction l generalizing a with
  | nil => rfl
  | cons u l ih =>
    obtain ⟨us, r⟩ := u
    cases r with
    | none => simp [markFree, ih]
    | some n =>
      simp only [markFree]
      split <;> simp [ih]

theorem total_lfree (c : Config) (p a : Nat) (l : List Blk) :
    total (lfree c p a l) = total l := by
  rw [lfree, total_coalesce, total_markFree]

/-- Refinement of `lwmem_free_ex` on a live pointer: the call returns, keeps
the invariant, and the layout becomes `lfree`. -/
theorem free_spec (c : Config) (hc : c.WF) {base : Nat} {s : State} {l : List Blk}
    (hinv : Inv c base s l) {p n : Nat} (hmem : (p, n) ∈ lives c base l) :
    ∃ s', lwmem_free_ex c s p = some s' ∧ Inv c base s' (lfree c p base l) ∧
      s'.tail = s.tail ∧ s'.object = s.object ∧
      lives c base (lfree c p base l) = (lives c base l).erase (p, n) := by
  have hpos := Pos_of_good c hc hinv.good
  obtain ⟨pre, xs, post, hl, hpx, hmark, hlive⟩ := lives_split c hpos hmem
  have hB := B_pos c hc
  have hM := two_pow_W c hc
  have hgood := hinv.good
  have hnoadj := hinv.noadj
  have htail := hinv.tail_eq
  have hspan := hinv.span
  have hfree := hinv.free
  have hused := hinv.used
  have hhead := hinv.head
  have hobj := hinv.obj
  have hol := hinv.obj_lt
  have htl := hinv.tail_lt
  subst hl
  have hxg := (hgood ⟨xs, some n⟩ (by simp)).2.1
  have hpos' := hpos
  rw [Pos_append, Pos_cons] at hpos'
  obtain ⟨hp1, hp2, hp3⟩ := hpos'
  simp only at hp2 hxg
  have htail' := htail
  simp only [total_append, total_cons] at htail' hspan
  have hux := hused
  rw [UsedSeg_append] at hux
  simp only [UsedSeg] at hux
  -- the guards of `lwmem_free_ex`
  have g1 : ¬ (p = 0) := by omega
  have g2 : ¬ (s.tail = 0) := by omega
  have g3 : LWMEM_GET_BLOCK_FROM_POINTER c p = base + total pre := by
    unfold LWMEM_GET_BLOCK_FROM_POINTER
    rw [wsub_eq c (by omega) (by omega)]; omega
  have g4 : ¬ (c.verify = true ∧ ¬ (base + total pre ≥ s.start ∧ base + total pre < s.tail)) := by
    rintro ⟨hv, hn⟩
    apply hn
    rw [hinv.start hv]
    omega
  have g5 : (s.mem (base + total pre)).size &&& LWMEM_BLOCK_SIZE_ALLOCATED_BITMASK c ≠ 0 := by
    rw [hux.2.1]
    exact (and_mask_ne_zero c hc (by omega)).2 (by omega)
  have g6 : (s.mem (base + total pre)).size &&& wnot c (LWMEM_BLOCK_SIZE_ALLOCATED_BITMASK c) =
      xs := by
    rw [hux.2.1, and_not_mask c hc, Nat.add_mod_right, Nat.mod_eq_of_lt (by omega)]
  have hfe : lwmem_free_ex c s p = lwmem_insert_block c
      { s with mem := setSize s.mem (base + total pre) xs } (base + total pre) := by
    simp only [lwmem_free_ex, g1, g2, g3, g4, g5, g6, if_false, ne_eq, not_false_eq_true, if_true]
  -- the state handed to the insertion
  have hne : s.object ≠ base + total pre := by omega
  have hframe1 : FreeSeg (setSize s.mem (base + total pre) xs) base
      (pre ++ ⟨xs, some n⟩ :: post) s.tail := by
    refine FreeSeg_frame2 (2 ^ (c.W - 1)) hpos (by simpa using hspan) (fun y _ _ h3 => ?_) hfree
    have : y ≠ base + total pre := by
      intro e; rw [e, hux.2.1] at h3; omega
    exact setSize_other _ _ this
  obtain ⟨m', hi1, hi2, hi3, hi4⟩ := insert_spec c
    (s := { s with mem := setSize s.mem (base + total pre) xs }) (r := n) hpos htail htl hobj hol
    (by simp only [setSize_other _ _ hne]; exact hhead) hframe1 (by simp)
  dsimp only at hi1 hi2 hi3 hi4
  rw [release_eq_coalesce hnoadj, ← hmark] at hi2 hi3
  have hidx := lastFree_end_le (d := s.object) (m := s.mem)
    ((FreeSeg_append _ _ _ _ _).1 hfree).1 hp1
  refine ⟨{ s with mem := m' }, by rw [hfe]; exact hi1, ?_, rfl, rfl, ?_⟩
  · refine
      { good := good_coalesce c (good_markFree c p hgood)
        noadj := NoAdj_coalesce _
        base_al := hinv.base_al
        tail_eq := by rw [total_lfree]; exact htail
        span := by rw [total_lfree]; exact hinv.span
        tail_lt := htl
        nonempty := ne_nil_of_total_pos (by rw [total_lfree]; simp; omega)
        obj := hobj
        obj_lt := hol
        head := hi3
        tailhdr := ?_
        free := hi2
        used := ?_
        start := hinv.start }
    · show m' s.tail = ⟨0, 0⟩
      rw [hi4 s.tail (by omega) (by rcases hidx with e | e <;> omega),
        setSize_other _ _ (by omega)]
      exact hinv.tailhdr
    · show UsedSeg c m' base (lfree c p base (pre ++ ⟨xs, some n⟩ :: post))
      rw [lfree, UsedSeg_coalesce, hmark, UsedSeg_append]
      simp only [UsedSeg]
      have hfr : ∀ y, y ≠ base + total pre → 2 ^ (c.W - 1) ≤ (s.mem y).size → m' y = s.mem y := by
        intro y h1 h2
        rw [hi4 y h1 ?_, setSize_other _ _ h1]
        intro e
        rw [e] at h2
        rcases hidx with e' | e'
        · rw [e', hhead] at h2; simp only at h2; omega
        · omega
      exact ⟨UsedSeg_frame2 c hp1 (fun y _ h2 h3 => hfr y (by omega) h3) hux.1,
        UsedSeg_frame2 c hp3 (fun y h1 _ h3 => hfr y (by omega) h3) hux.2.2⟩
  · rw [lfree, lives_coalesce, hmark]; exact hlive.symm

end LwMEM


namespace LwMEM

theorem wnot_zero (c : Config) : wnot c 0 = 2 ^ c.W - 1 := by
  simp [wnot]

theorem want_eq (c : Config) (hc : c.WF) {n : Nat} (hn : n < 2 ^ c.W) :
    want c n = n + (c.B + LWMEM_BYTE_ALIGNMENT_UPPER_INCREASE c n) := by
  have := (UPPER_INCREASE_eq c hc hn).1
  unfold want
  omega

theorem want_spec (c : Config) (hc : c.WF) (n : Nat) :
    c.A ∣ want c n ∧ c.B + n ≤ want c n ∧ want c n < c.B + n + c.A := by
  have h := align_up_spec c hc n
  have hB := B_spec c hc
  unfold want
  exact ⟨Nat.dvd_add hB.1 h.1, by omega, by omega⟩

/-- The size computation at the start of `_lwmem_alloc`: the request passes
both checks exactly when `want` fits below the allocated bit, and the padded
size is then `want`. -/
theorem alloc_size (c : Config) (hc : c.WF) {n : Nat} (hn : n < 2 ^ c.W) :
    (wsub c (wnot c 0) n ≥ wadd c (LWMEM_BYTE_ALIGNMENT_UPPER c c.hsz)
        (LWMEM_BYTE_ALIGNMENT_UPPER_INCREASE c n) ↔ want c n < 2 ^ c.W) ∧
    (want c n < 2 ^ c.W →
      wadd c n (wadd c (LWMEM_BYTE_ALIGNMENT_UPPER c c.hsz)
        (LWMEM_BYTE_ALIGNMENT_UPPER_INCREASE c n)) = want c n) := by
  have hB := B_spec c hc
  have hM := two_pow_W c hc
  have hh := hc.2.2.1
  have hinc := (UPPER_INCREASE_eq c hc hn).2
  have hw := want_eq c hc hn
  have hBdef : LWMEM_BYTE_ALIGNMENT_UPPER c c.hsz = c.B := rfl
  rw [hBdef, wnot_zero, wsub_eq c (by omega) (by omega), wadd_eq c (by omega)]
  constructor
  · omega
  · intro h
    rw [wadd_eq c (by omega)]
    omega

/-- Where the first fitting block sits in the layout. -/
theorem lfit_some {w : Nat} {a : Nat} {l : List Blk} {x : Nat} (mn n : Nat)
    (h : lfit w a l = some x) :
    ∃ pre sz post, l = pre ++ ⟨sz, none⟩ :: post ∧ x = a + total pre ∧ w ≤ sz ∧
      (∀ b ∈ pre, b.req = none → b.size < w) ∧
      lalloc w mn n l = some (pre ++
        (if mn ≤ sz - w then ⟨w, some n⟩ :: ⟨sz - w, none⟩ :: post
          else ⟨sz, some n⟩ :: post)) := by
  induction l generalizing a with
  | nil => simp [lfit] at h
  | cons u l ih =>
    obtain ⟨us, r⟩ := u
    cases r with
    | some k =>
      simp only [lfit] at h
      obtain ⟨pre, sz, post, e1, e2, e3, e4, e5⟩ := ih h
      refine ⟨⟨us, some k⟩ :: pre, sz, post, by simp [e1], by simp [e2]; omega, e3, ?_, ?_⟩
      · intro b hb hr
        simp only [List.mem_cons] at hb
        rcases hb with e | e
        · rw [e] at hr; simp at hr
        · exact e4 b e hr
      · simp [lalloc, e5]
    | none =>
      simp only [lfit] at h
      by_cases hw : w ≤ us
      · simp only [hw, if_true, Option.some.injEq] at h
        refine ⟨[], us, l, rfl, by simp [h], hw, by simp, ?_⟩
        simp only [lalloc, hw, if_true, List.nil_append]
      · simp only [hw, if_false] at h
        obtain ⟨pre, sz, post, e1, e2, e3, e4, e5⟩ := ih h
        refine ⟨⟨us, none⟩ :: pre, sz, post, by simp [e1], by simp [e2]; omega, e3, ?_, ?_⟩
        · intro b hb hr
          simp only [List.mem_cons] at hb
          rcases hb with e | e
          · rw [e]; simp only; omega
          · exact e4 b e hr
        · simp [lalloc, hw, e5]

theorem lfit_none {w : Nat} {a : Nat} {l : List Blk} (mn n : Nat) (h : lfit w a l = none) :
    (∀ b ∈ l, b.req = none → b.size < w) ∧ lalloc w mn n l = none := by
  induction l generalizing a with
  | nil => simp [lalloc]
  | cons u l ih =>
    obtain ⟨us, r⟩ := u
    cases r with
    | some k =>
      simp only [lfit] at h
      obtain ⟨e1, e2⟩ := ih h
      refine ⟨?_, by simp [lalloc, e2]⟩
      intro b hb hr
      simp only [List.mem_cons] at hb
      rcases hb with e | e
      · rw [e] at hr; simp at hr
      · exact e1 b e hr
    | none =>
      simp only [lfit] at h
      by_cases hw : w ≤ us
      · simp [hw] at h
      · simp only [hw, if_false] at h
        obtain ⟨e1, e2⟩ := ih h
        refine ⟨?_, by simp [lalloc, hw, e2]⟩
        intro b hb hr
        simp only [List.mem_cons] at hb
        rcases hb with e | e
        · rw [e]; simp only; omega
        · exact e1 b e hr

/-- The search loop of `_lwmem_alloc` on a state that realises a layout. -/
theorem alloc_loop_spec (c : Config) (hc : c.WF) {base : Nat} {s : State} {l : List Blk}
    (hinv : Inv c base s l) {w : Nat} (hw : 0 < w) :
    (∀ pre sz post, l = pre ++ ⟨sz, none⟩ :: post → w ≤ sz →
      (∀ b ∈ pre, b.req = none → b.size < w) →
      alloc_loop s.mem s.tail w (2 ^ c.W) s.object (s.mem s.object).next =
        some (lastFree s.object base pre, base + total pre)) ∧
    ((∀ b ∈ l, b.req = none → b.size < w) →
      ∃ prev, alloc_loop s.mem s.tail w (2 ^ c.W) s.object (s.mem s.object).next =
        some (prev, s.tail)) := by
  have hpos := Pos_of_good c hc hinv.good
  have hM := two_pow_W c hc
  have hfc := freeCount_le_total hpos
  have hspan := hinv.span
  have htail := hinv.tail_eq
  constructor
  · intro pre sz post hl hsz hsmall
    subst hl
    have hf := hinv.free
    rw [FreeSeg_append] at hf
    simp only [FreeSeg, nextFree] at hf
    rw [Pos_append] at hpos
    rw [freeCount_append] at hfc
    simp only [total_append, total_cons] at htail hspan hfc
    obtain ⟨k, hk⟩ : ∃ k, 2 ^ c.W = (k + 1) + freeCount pre :=
      ⟨2 ^ c.W - 1 - freeCount pre, by omega⟩
    rw [hinv.head, nextFree_append]
    simp only [nextFree]
    rw [hk, alloc_loop_skip (k + 1) s.object hf.1 hpos.1 hsmall (by omega), alloc_loop, hf.2.1]
    have : ¬ (sz < w) := by omega
    simp [this]
  · intro hsmall
    refine ⟨lastFree s.object base l, ?_⟩
    obtain ⟨k, hk⟩ : ∃ k, 2 ^ c.W = (k + 1) + freeCount l :=
      ⟨2 ^ c.W - 1 - freeCount l, by omega⟩
    rw [hinv.head]
    simp only
    rw [hk, alloc_loop_skip (k + 1) s.object hinv.free hpos hsmall (by omega), alloc_loop]
    simp

end LwMEM


namespace LwMEM

theorem NoAdj_append {l1 l2 : List Blk} (h : NoAdj (l1 ++ l2)) : NoAdj l1 ∧ NoAdj l2 := by
  induction l1 with
  | nil => exact ⟨trivial, h⟩
  | cons b l ih =>
    obtain ⟨sz, r⟩ := b
    cases r with
    | some n =>
      rw [List.cons_append, NoAdj_cons_used] at h
      rw [NoAdj_cons_used]
      exact ih h
    | none =>
      rw [List.cons_append, NoAdj_cons_free] at h
      rw [NoAdj_cons_free]
      refine ⟨⟨?_, (ih h.2).1⟩, (ih h.2).2⟩
      intro hf
      apply h.1
      cases l with
      | nil => exact absurd hf (by simp [headFree])
      | cons b' l' => obtain ⟨s', r'⟩ := b'; cases r' <;> simp [headFree] at hf ⊢

theorem NoAdj_snoc_used {l : List Blk} (sz n : Nat) (h : NoAdj l) :
    NoAdj (l ++ [⟨sz, some n⟩]) := by
  induction l with
  | nil => trivial
  | cons b l ih =>
    obtain ⟨us, r⟩ := b
    cases r with
    | some k =>
      rw [NoAdj_cons_used] at h
      rw [List.cons_append, NoAdj_cons_used]
      exact ih h
    | none =>
      rw [NoAdj_cons_free] at h
      rw [List.cons_append, NoAdj_cons_free]
      refine ⟨?_, ih h.2⟩
      intro hf
      apply h.1
      cases l with
      | nil => exact absurd hf (by simp [headFree])
      | cons b' l' => obtain ⟨s', r'⟩ := b'; cases r' <;> simp [headFree] at hf ⊢

/-- Writing the header of a live block, and changing its request, does not
disturb the free blocks. -/
theorem FreeSeg_write_used {m m' : Mem} {a : Nat} {pre post : List Blk} {sz r : Nat}
    {nx : Nat} (r' : Nat) (hp : Pos (pre ++ ⟨sz, some r⟩ :: post))
    (hm : ∀ y, y ≠ a + total pre → m' y = m y)
    (h : FreeSeg m a (pre ++ ⟨sz, some r⟩ :: post) nx) :
    FreeSeg m' a (pre ++ ⟨sz, some r'⟩ :: post) nx := by
  rw [Pos_append, Pos_cons] at hp
  have h1 := hp.2.1
  simp only at h1
  rw [FreeSeg_append] at h ⊢
  simp only [FreeSeg, nextFree] at h ⊢
  exact ⟨FreeSeg_frame hp.1 (fun y _ h2 => hm y (by omega)) h.1,
    FreeSeg_frame hp.2.2 (fun y h1 _ => hm y (by omega)) h.2⟩

/-- Facts shared by both branches of `alloc_commit`. -/
theorem commit_facts (c : Config) (hc : c.WF) {base : Nat} {s : State} {pre post : List Blk}
    {sz : Nat} (hinv : Inv c base s (pre ++ ⟨sz, none⟩ :: post)) :
    s.mem (base + total pre) = ⟨nextFree (base + total pre + sz) post s.tail, sz⟩ ∧
    lastFree s.object base pre ≠ base + total pre ∧
    (lastFree s.object base pre = s.object ∨
      (base ≤ lastFree s.object base pre ∧ lastFree s.object base pre < base + total pre ∧
        (s.mem (lastFree s.object base pre)).size < 2 ^ (c.W - 1))) ∧
    FreeSeg (setNext s.mem (lastFree s.object base pre)
        (nextFree (base + total pre + sz) post s.tail)) base pre
        (nextFree (base + total pre + sz) post s.tail) ∧
    setNext s.mem (lastFree s.object base pre)
        (nextFree (base + total pre + sz) post s.tail) s.object =
      ⟨nextFree base pre (nextFree (base + total pre + sz) post s.tail), 0⟩ ∧
    FreeSeg s.mem (base + total pre + sz) post s.tail ∧
    ¬ headFree post := by
  have hpos := Pos_of_good c hc hinv.good
  have hf := hinv.free
  have hh := hinv.head
  have hspan := hinv.span
  have htail := hinv.tail_eq
  have hobj := hinv.obj
  rw [FreeSeg_append] at hf
  rw [nextFree_append] at hh
  rw [Pos_append, Pos_cons] at hpos
  simp only [FreeSeg, nextFree, total_append, total_cons] at hf hh hspan htail hpos
  have hidx := lastFree_end_le (d := s.object) hf.1 hpos.1
  have hidx2 := lastFree_range s.object base pre hpos.1
  have hrl := relink (d := s.object) (nextFree (base + total pre + sz) post s.tail) hpos.1
    (by omega) hf.1 (by rw [hh])
  have hna := (NoAdj_append hinv.noadj).2
  rw [NoAdj_cons_free] at hna
  refine ⟨hf.2.1, ?_, ?_, hrl.1, ?_, hf.2.2, hna.1⟩
  · rcases hidx with e | e <;> omega
  · rcases hidx with e | e
    · left; exact e
    · right; omega
  · rw [hrl.2, hh]

end LwMEM


namespace LwMEM

theorem good_used (c : Config) {n sz : Nat} (hn0 : 0 < n) (hw : want c n ≤ sz)
    (hg : GoodBlk c ⟨sz, none⟩) : GoodBlk c ⟨sz, some n⟩ := by
  refine ⟨hg.1, hg.2.1, ?_⟩
  intro k hk
  simp only [Option.some.injEq] at hk
  subst hk
  exact ⟨hn0, hw⟩

/-- `alloc_commit` when the chosen block is handed out whole. -/
theorem commit_whole (c : Config) (hc : c.WF) {base : Nat} {s : State} {pre post : List Blk}
    {sz : Nat} (hinv : Inv c base s (pre ++ ⟨sz, none⟩ :: post)) {n : Nat} (hn0 : 0 < n)
    (hw : want c n ≤ sz) (hns : ¬ (2 * c.B ≤ sz - want c n)) :
    ∃ s', alloc_commit c s (want c n) (lastFree s.object base pre) (base + total pre) =
        some (base + total pre + c.B, s') ∧
      Inv c base s' (pre ++ ⟨sz, some n⟩ :: post) ∧ s'.tail = s.tail ∧
      s'.object = s.object := by
  obtain ⟨f1, f2, f3, f4, f5, f6, f7⟩ := commit_facts c hc hinv
  have hpos := Pos_of_good c hc hinv.good
  have hB := B_spec c hc
  have hBp := B_pos c hc
  have hM := two_pow_W c hc
  have hspan := hinv.span
  have htail := hinv.tail_eq
  have htl := hinv.tail_lt
  have hobj := hinv.obj
  have hgx := hinv.good ⟨sz, none⟩ (by simp)
  have hgB := hgx.2.1
  have hpos' := hpos
  rw [Pos_append, Pos_cons] at hpos'
  simp only [total_append, total_cons] at hspan htail hgB
  generalize hU : nextFree (base + total pre + sz) post s.tail = U at *
  generalize hprev : lastFree s.object base pre = prev at *
  generalize hx : base + total pre = x at *
  have e1 : LWMEM_GET_POINTER_FROM_BLOCK c x = x + c.B := wadd_eq c (by omega)
  have e2 : setNext s.mem prev U x = ⟨U, sz⟩ := by rw [setNext_other _ _ (Ne.symm f2), f1]
  have e3 : wsub c sz (want c n) = sz - want c n := wsub_eq c hw (by omega)
  have e4 := min_eq c hc
  have e5 : sz ||| LWMEM_BLOCK_SIZE_ALLOCATED_BITMASK c = sz + 2 ^ (c.W - 1) :=
    or_mask c hc (by omega)
  have hne : s.object ≠ x := by omega
  refine ⟨{ s with mem := setSize (setNext s.mem prev U) x (sz + 2 ^ (c.W - 1)) }, ?_, ?_,
    rfl, rfl⟩
  · simp only [alloc_commit, e1, f1, e2, e3, e4, ge_iff_le, hns, if_false, e5]
  · have hm3 : ∀ y, y ≠ x → y ≠ prev →
        setSize (setNext s.mem prev U) x (sz + 2 ^ (c.W - 1)) y = s.mem y :=
      fun y h1 h2 => by rw [setSize_other _ _ h1, setNext_other _ _ h2]
    have hposl : Pos (pre ++ ⟨sz, some n⟩ :: post) := by
      rw [Pos_append, Pos_cons]; exact hpos'
    have hF1 : FreeSeg (setNext s.mem prev U) base (pre ++ ⟨sz, some n⟩ :: post) s.tail := by
      rw [FreeSeg_append]
      simp only [FreeSeg, nextFree, hx, hU]
      exact ⟨f4, FreeSeg_frame hpos'.2.2 (fun y h1 _ => setNext_other _ _ (by
        rcases f3 with e | e <;> omega)) f6⟩
    have hu := hinv.used
    rw [UsedSeg_append] at hu
    simp only [UsedSeg, hx] at hu
    refine
      { good := ?_
        noadj := ?_
        base_al := hinv.base_al
        tail_eq := by simp only [total_append, total_cons]; exact htail
        span := by simp only [total_append, total_cons]; exact hspan
        tail_lt := htl
        nonempty := by simp
        obj := hobj
        obj_lt := hinv.obj_lt
        head := ?_
        tailhdr := ?_
        free := ?_
        used := ?_
        start := hinv.start }
    · intro b hb
      simp only [List.mem_append, List.mem_cons] at hb
      rcases hb with e | e | e
      · exact hinv.good b (by simp [e])
      · rw [e]; exact good_used c hn0 hw hgx
      · exact hinv.good b (by simp [e])
    · have h1 := NoAdj_append hinv.noadj
      rw [NoAdj_cons_free] at h1
      rw [NoAdj_append_used]
      exact ⟨NoAdj_snoc_used _ _ h1.1, h1.2.2⟩
    · show setSize (setNext s.mem prev U) x (sz + 2 ^ (c.W - 1)) s.object = _
      rw [setSize_other _ _ hne, f5, nextFree_append]
      simp only [nextFree, hx, hU]
    · show setSize (setNext s.mem prev U) x (sz + 2 ^ (c.W - 1)) s.tail = _
      rw [hm3 s.tail (by omega) (by rcases f3 with e | e <;> omega)]
      exact hinv.tailhdr
    · show FreeSeg (setSize (setNext s.mem prev U) x (sz + 2 ^ (c.W - 1))) base _ s.tail
      refine FreeSeg_write_used n hposl (fun y hy => ?_) hF1
      rw [hx] at hy
      exact setSize_other _ _ hy
    · show UsedSeg c (setSize (setNext s.mem prev U) x (sz + 2 ^ (c.W - 1))) base _
      rw [UsedSeg_append]
      simp only [UsedSeg, hx, setSize_same]
      have hfr : ∀ y, y ≠ x → 2 ^ (c.W - 1) ≤ (s.mem y).size →
          setSize (setNext s.mem prev U) x (sz + 2 ^ (c.W - 1)) y = s.mem y := by
        intro y h1 h2
        refine hm3 y h1 ?_
        intro e
        rw [e] at h2
        rcases f3 with e' | e'
        · rw [e', hinv.head] at h2; simp only at h2; omega
        · omega
      exact ⟨UsedSeg_frame2 c hpos'.1 (fun y _ h2 h3 => hfr y (by omega) h3) hu.1, trivial,
        UsedSeg_frame2 c hpos'.2.2 (fun y h1 _ h3 => hfr y (by omega) h3) hu.2⟩

end LwMEM


namespace LwMEM

/-- `alloc_commit` when the chosen block is split. -/
theorem commit_split (c : Config) (hc : c.WF) {base : Nat} {s : State} {pre post : List Blk}
    {sz : Nat} (hinv : Inv c base s (pre ++ ⟨sz, none⟩ :: post)) {n : Nat} (hn0 : 0 < n)
    (hw : want c n ≤ sz) (hs : 2 * c.B ≤ sz - want c n) :
    ∃ s', alloc_commit c s (want c n) (lastFree s.object base pre) (base + total pre) =
        some (base + total pre + c.B, s') ∧
      Inv c base s' (pre ++ ⟨want c n, some n⟩ :: ⟨sz - want c n, none⟩ :: post) ∧
      s'.tail = s.tail ∧ s'.object = s.object := by
  obtain ⟨f1, f2, f3, f4, f5, f6, f7⟩ := commit_facts c hc hinv
  have hpos := Pos_of_good c hc hinv.good
  have hB := B_spec c hc
  have hBp := B_pos c hc
  have hM := two_pow_W c hc
  have hspan := hinv.span
  have htail := hinv.tail_eq
  have htl := hinv.tail_lt
  have hobj := hinv.obj
  have hgx := hinv.good ⟨sz, none⟩ (by simp)
  have hgB := hgx.2.1
  have hws := want_spec c hc n
  have hpos' := hpos
  rw [Pos_append, Pos_cons] at hpos'
  simp only [total_append, total_cons] at hspan htail hgB
  generalize hwdef : want c n = w at *
  generalize hxg : base + total pre = x at *
  generalize hU : nextFree (x + sz) post s.tail = U at *
  generalize hprev : lastFree s.object base pre = prev at *
  have e1 : LWMEM_GET_POINTER_FROM_BLOCK c x = x + c.B := wadd_eq c (by omega)
  have e2 : setNext s.mem prev U x = ⟨U, sz⟩ := by rw [setNext_other _ _ (Ne.symm f2), f1]
  have e3 : wsub c sz w = sz - w := wsub_eq c hw (by omega)
  have e4 := min_eq c hc
  have e5 : w ||| LWMEM_BLOCK_SIZE_ALLOCATED_BITMASK c = w + 2 ^ (c.W - 1) :=
    or_mask c hc (by omega)
  have e6 : wadd c x w = x + w := wadd_eq c (by omega)
  have hne : s.object ≠ x := by omega
  have hne2 : s.object ≠ x + w := by omega
  have hne3 : x + w ≠ x := by omega
  have hne4 : prev ≠ x + w := by rcases f3 with e | e <;> omega
  -- the memory handed to the insertion of the remainder
  have hms : ∀ y, y ≠ x → y ≠ x + w →
      setSize (setSize (setNext s.mem prev U) (x + w) (sz - w)) x w y = setNext s.mem prev U y :=
    fun y h1 h2 => by rw [setSize_other _ _ h1, setSize_other _ _ h2]
  have hposI : Pos ((pre ++ [⟨w, some n⟩]) ++ ⟨sz - w, some n⟩ :: post) := by
    rw [Pos_append, Pos_append, Pos_cons, Pos_cons]
    exact ⟨⟨hpos'.1, by simp only; omega, Pos_nil⟩, by simp only; omega, hpos'.2.2⟩
  have htot : base + total (pre ++ [⟨w, some n⟩]) = x + w := by
    simp only [total_append, total_cons, total_nil]; omega
  obtain ⟨m', hi1, hi2, hi3, hi4⟩ := @insert_spec c
    { s with mem := setSize (setSize (setNext s.mem prev U) (x + w) (sz - w)) x w }
    base (pre ++ [⟨w, some n⟩]) post (sz - w) n
    hposI
    (by simp only [total_append, total_cons, total_nil]; omega)
    htl hobj hinv.obj_lt
    (by
      simp only [hms s.object hne hne2, f5]
      rw [nextFree_append, nextFree_append]
      have e : x + w + (sz - w) = x + sz := by omega
      simp only [nextFree, htot, e, hxg, hU])
    (by
      rw [FreeSeg_append, FreeSeg_append]
      have e : x + w + (sz - w) = x + sz := by omega
      simp only [FreeSeg, nextFree, htot, and_true, e, hU, hxg]
      refine ⟨FreeSeg_frame hpos'.1 (fun y _ h2 => hms y (by omega) (by omega)) f4, ?_⟩
      refine FreeSeg_frame hpos'.2.2 (fun y h1 _ => ?_) f6
      rw [hms y (by omega) (by omega), setNext_other _ _ (by rcases f3 with e | e <;> omega)])
    (by simp only [htot]; rw [setSize_other _ _ hne3]; simp)
  dsimp only at hi1 hi2 hi3 hi4
  rw [release_snoc_used, consFree_of_not _ f7] at hi2 hi3
  rw [htot] at hi1 hi4
  rw [lastFree_snoc_used, hprev] at hi4
  have hm'x : m' x = ⟨U, w⟩ := by
    rw [hi4 x (Ne.symm hne3) (Ne.symm f2), setSize_same, setSize_other _ _ (Ne.symm hne3), e2]
  refine ⟨{ s with mem := setSize m' x (w + 2 ^ (c.W - 1)) }, ?_, ?_, rfl, rfl⟩
  · simp only [alloc_commit, e1, f1, e2, e3, e4, ge_iff_le, hs, if_true, e6, hi1, hm'x, e5]
  · have hm3 : ∀ y, y ≠ x → y ≠ x + w → y ≠ prev →
        setSize m' x (w + 2 ^ (c.W - 1)) y = s.mem y := fun y h1 h2 h3 => by
      rw [setSize_other _ _ h1, hi4 y h2 h3, hms y h1 h2, setNext_other _ _ h3]
    have hu := hinv.used
    rw [UsedSeg_append] at hu
    simp only [UsedSeg, hxg] at hu
    refine
      { good := ?_
        noadj := ?_
        base_al := hinv.base_al
        tail_eq := by simp only [total_append, total_cons]; omega
        span := by simp only [total_append, total_cons]; omega
        tail_lt := htl
        nonempty := by simp
        obj := hobj
        obj_lt := hinv.obj_lt
        head := ?_
        tailhdr := ?_
        free := ?_
        used := ?_
        start := hinv.start }
    · intro b hb
      simp only [List.mem_append, List.mem_cons] at hb
      rcases hb with e | e | e | e
      · exact hinv.good b (by simp [e])
      · rw [e]
        refine ⟨hws.1, by simp only; omega, ?_⟩
        intro k hk
        simp only [Option.some.injEq] at hk
        subst hk
        exact ⟨hn0, by rw [hwdef]⟩
      · rw [e]
        refine ⟨Nat.dvd_sub' hgx.1 hws.1, by simp only; omega, ?_⟩
        intro k hk; simp at hk
      · exact hinv.good b (by simp [e])
    · have h1 := NoAdj_append hinv.noadj
      rw [NoAdj_cons_free] at h1
      rw [NoAdj_append_used, NoAdj_cons_free]
      exact ⟨NoAdj_snoc_used _ _ h1.1, h1.2⟩
    · show setSize m' x (w + 2 ^ (c.W - 1)) s.object = _
      rw [setSize_other _ _ hne, hi3]
    · show setSize m' x (w + 2 ^ (c.W - 1)) s.tail = _
      rw [hm3 s.tail (by omega) (by omega) (by rcases f3 with e | e <;> omega)]
      exact hinv.tailhdr
    · show FreeSeg (setSize m' x (w + 2 ^ (c.W - 1))) base _ s.tail
      have hposl : Pos (pre ++ ⟨w, some n⟩ :: ⟨sz - w, none⟩ :: post) := by
        rw [Pos_append, Pos_cons, Pos_cons]
        exact ⟨hpos'.1, by simp only; omega, by simp only; omega, hpos'.2.2⟩
      refine FreeSeg_write_used n hposl (fun y hy => ?_) hi2
      rw [hxg] at hy
      exact setSize_other _ _ hy
    · show UsedSeg c (setSize m' x (w + 2 ^ (c.W - 1))) base _
      rw [UsedSeg_append]
      simp only [UsedSeg, hxg, setSize_same]
      have hfr : ∀ y, y ≠ x → y ≠ x + w → 2 ^ (c.W - 1) ≤ (s.mem y).size →
          setSize m' x (w + 2 ^ (c.W - 1)) y = s.mem y := by
        intro y h1 h2 h3
        refine hm3 y h1 h2 ?_
        intro e
        rw [e] at h3
        rcases f3 with e' | e'
        · rw [e', hinv.head] at h3; simp only at h3; omega
        · omega
      have e : x + w + (sz - w) = x + sz := by omega
      rw [e]
      exact ⟨UsedSeg_frame2 c hpos'.1 (fun y _ h2 h3 => hfr y (by omega) (by omega) h3) hu.1,
        trivial,
        UsedSeg_frame2 c hpos'.2.2 (fun y h1 _ h3 => hfr y (by omega) (by omega) h3) hu.2⟩

end LwMEM


namespace LwMEM

/-- `lwmem_malloc_ex` fails, leaving the state alone, when the request is
zero, when its padded size reaches the allocated bit, or when no free block of
the layout is large enough. -/
theorem malloc_spec_fail (c : Config) (hc : c.WF) {base : Nat} {s : State} {l : List Blk}
    (hinv : Inv c base s l) {n : Nat} (hn : n < 2 ^ c.W)
    (h : n = 0 ∨ 2 ^ (c.W - 1) ≤ want c n ∨ lfit (want c n) base l = none) :
    lwmem_malloc_ex c s n = some (0, s) := by
  have hpos := Pos_of_good c hc hinv.good
  have hM := two_pow_W c hc
  have htne : ¬ (s.tail = 0) := by
    have h1 := hinv.tail_eq
    have h2 : 0 < total l := by
      cases hl : l with
      | nil => exact absurd hl hinv.nonempty
      | cons b l' =>
        have hb := hpos b (by rw [hl]; simp)
        simp only [total_cons]
        omega
    omega
  by_cases hn0 : n = 0
  · simp [lwmem_malloc_ex, lwmem_alloc, htne, hn0]
  have hsz := alloc_size c hc hn
  by_cases hlt : want c n < 2 ^ c.W
  swap
  · have : ¬ (wsub c (wnot c 0) n ≥ wadd c (LWMEM_BYTE_ALIGNMENT_UPPER c c.hsz)
        (LWMEM_BYTE_ALIGNMENT_UPPER_INCREASE c n)) := fun h' => hlt (hsz.1.1 h')
    simp only [lwmem_malloc_ex, lwmem_alloc, htne, hn0, if_false, this]
  have h1 := hsz.1.2 hlt
  have h2 := hsz.2 hlt
  by_cases hk : 2 ^ (c.W - 1) ≤ want c n
  · have h3 := (and_mask_ne_zero c hc hlt).2 hk
    simp only [lwmem_malloc_ex, lwmem_alloc, htne, hn0, if_false, h1, if_true, h2, h3, ne_eq,
      not_false_eq_true]
  have h3 : want c n &&& LWMEM_BLOCK_SIZE_ALLOCATED_BITMASK c = 0 := by
    by_contra h'
    exact hk ((and_mask_ne_zero c hc hlt).1 h')
  have hfit : lfit (want c n) base l = none := by
    rcases h with e | e | e
    · exact absurd e hn0
    · exact absurd e hk
    · exact e
  have hwp : 0 < want c n := by
    have := want_spec c hc n
    have := B_pos c hc
    omega
  obtain ⟨prev, hloop⟩ := (alloc_loop_spec c hc hinv hwp).2 (lfit_none 0 0 hfit).1
  simp only [lwmem_malloc_ex, lwmem_alloc, htne, hn0, if_false, h1, if_true, h2, h3, hloop,
    ne_eq, not_true_eq_false]

/-- `lwmem_malloc_ex` succeeds on the first fitting free block of the layout
and realises the first-fit layout `lalloc`. -/
theorem malloc_spec_ok (c : Config) (hc : c.WF) {base : Nat} {s : State} {l : List Blk}
    (hinv : Inv c base s l) {n : Nat} (hn : n < 2 ^ c.W) (hn0 : n ≠ 0)
    (hw : want c n < 2 ^ (c.W - 1)) {x : Nat} (hfit : lfit (want c n) base l = some x) :
    ∃ s' l', lwmem_malloc_ex c s n = some (x + c.B, s') ∧
      lalloc (want c n) (2 * c.B) n l = some l' ∧ Inv c base s' l' ∧
      s'.tail = s.tail ∧ s'.object = s.object ∧
      (lives c base l').Perm ((x + c.B, n) :: lives c base l) := by
  have hpos := Pos_of_good c hc hinv.good
  have hM := two_pow_W c hc
  have hlt : want c n < 2 ^ c.W := by omega
  obtain ⟨pre, sz, post, hl, hx, hsz, hsmall, hla⟩ := lfit_some (2 * c.B) n hfit
  subst hl
  have htail := hinv.tail_eq
  rw [Pos_append, Pos_cons] at hpos
  have hszp := hpos.2.1
  simp only [total_append, total_cons] at htail hszp
  have htne : ¬ (s.tail = 0) := by omega
  have hs := alloc_size c hc hn
  have h1 := hs.1.2 hlt
  have h2 := hs.2 hlt
  have h3 : want c n &&& LWMEM_BLOCK_SIZE_ALLOCATED_BITMASK c = 0 := by
    by_contra h'
    exact absurd ((and_mask_ne_zero c hc hlt).1 h') (by omega)
  have hwp : 0 < want c n := by
    have := want_spec c hc n
    have := B_pos c hc
    omega
  have hloop := (alloc_loop_spec c hc hinv hwp).1 pre sz post rfl hsz hsmall
  have hcur : ¬ (base + total pre = s.tail) := by omega
  have hma : lwmem_malloc_ex c s n =
      alloc_commit c s (want c n) (lastFree s.object base pre) (base + total pre) := by
    simp only [lwmem_malloc_ex, lwmem_alloc, htne, hn0, if_false, h1, if_true, h2, h3, hloop,
      hcur, ne_eq, not_true_eq_false]
  have hlive : ∀ r : List Blk, lives c base (pre ++ ⟨sz, none⟩ :: post) =
      lives c base pre ++ lives c (base + total pre + sz) post := by
    intro _; rw [lives_append]; simp [lives]
  by_cases hsp : 2 * c.B ≤ sz - want c n
  · obtain ⟨s', q1, q2, q3, q4⟩ := commit_split c hc hinv (Nat.pos_of_ne_zero hn0) hsz hsp
    refine ⟨s', _, by rw [hma, hx]; exact q1, by rw [hla, if_pos hsp], q2, q3, q4, ?_⟩
    rw [hlive [], lives_append]
    simp only [lives]
    have e : base + total pre + want c n + (sz - want c n) = base + total pre + sz := by omega
    rw [e, hx]
    exact List.perm_middle
  · obtain ⟨s', q1, q2, q3, q4⟩ := commit_whole c hc hinv (Nat.pos_of_ne_zero hn0) hsz hsp
    refine ⟨s', _, by rw [hma, hx]; exact q1, by rw [hla, if_neg hsp], q2, q3, q4, ?_⟩
    rw [hlive [], lives_append]
    simp only [lives]
    rw [hx]
    exact List.perm_middle

end LwMEM


namespace LwMEM

/-- A successful `lwmem_define_region_ex` establishes the invariant for the
layout made of one free block. -/
theorem define_inv (c : Config) (hc : c.WF) (s : State) {start size : Nat}
    (h1 : start < 2 ^ c.W) (h2 : size < 2 ^ c.W) (ho : s.object < 2 ^ c.W)
    (h3 : s.tail = 0) (hout : ObjectOutside c s start size)
    (hret : (lwmem_define_region_ex c s start size).1 = 0) :
    Inv c (LWMEM_BYTE_ALIGNMENT_UPPER c start) (lwmem_define_region_ex c s start size).2
      [⟨(lwmem_define_region_ex c s start size).2.tail - LWMEM_BYTE_ALIGNMENT_UPPER c start,
        none⟩] := by
  obtain ⟨d1, d2, d3, d4, d5, d6, d7, d8, d9, d10, d11, d12⟩ :=
    define_state c hc s h1 h2 ho h3 hout hret
  have hB := B_spec c hc
  rw [d2]
  generalize LWMEM_BYTE_ALIGNMENT_LOWER c (wsub c (wadd c start size) c.B) = t at *
  generalize LWMEM_BYTE_ALIGNMENT_UPPER c start = base at *
  refine
    { good := ?_
      noadj := by simp [NoAdj, headFree]
      base_al := d7
      tail_eq := by rw [d2]; simp only [total_cons, total_nil]; omega
      span := by simp only [total_cons, total_nil]; omega
      tail_lt := by rw [d2]; exact d11
      nonempty := by simp
      obj := by rw [d1, d2]; exact d12
      obj_lt := by rw [d1]; exact ho
      head := ?_
      tailhdr := by rw [d2]; exact d5
      free := ?_
      used := trivial
      start := d3 }
  · intro b hb
    simp only [List.mem_singleton] at hb
    rw [hb]
    exact ⟨Nat.dvd_sub' d8 d7, by simp only; omega, fun n hn => by simp at hn⟩
  · rw [d1, d4]; rfl
  · show FreeSeg _ base [⟨t - base, none⟩] _
    simp only [FreeSeg, nextFree, and_true]
    rw [d6, d2]

theorem erase_inst (L : List (Nat × Nat)) (a : Nat × Nat) :
    @List.erase _ instBEqProd L a = @List.erase _ instBEqOfDecidableEq L a := by
  induction L with
  | nil => rfl
  | cons b l ih =>
    have e1 : @BEq.beq _ instBEqProd b a = @BEq.beq _ instBEqOfDecidableEq b a := by
      rw [Bool.eq_iff_iff]
      constructor
      · intro h; exact decide_eq_true (eq_of_beq h)
      · intro h; have := of_decide_eq_true h; rw [this]; exact beq_self_eq_true a
    show (match @BEq.beq _ instBEqProd b a with
        | true => l
        | false => b :: @List.erase _ instBEqProd l a) =
      (match @BEq.beq _ instBEqOfDecidableEq b a with
        | true => l
        | false => b :: @List.erase _ instBEqOfDecidableEq l a)
    rw [e1, ih]

theorem perm_erase {L1 L2 : List (Nat × Nat)} (a : Nat × Nat) (h : L1.Perm L2) :
    (L1.erase a).Perm (L2.erase a) := by
  rw [erase_inst, erase_inst]
  exact h.erase a

/-- Every reachable state realises a layout whose live blocks are the live
allocations. -/
theorem reach_inv (c : Config) (hc : c.WF) {base : Nat} {s : State} {L : List (Nat × Nat)}
    (h : Reachable c base s L) : ∃ l, Inv c base s l ∧ L.Perm (lives c base l) := by
  induction h with
  | define s start size h1 h2 ho h3 hout hret =>
    exact ⟨_, define_inv c hc s h1 h2 ho h3 hout hret, by simp [lives]⟩
  | @malloc base s L n p s' _ hn hm ih =>
    obtain ⟨l, hinv, hperm⟩ := ih
    by_cases hf : n = 0 ∨ 2 ^ (c.W - 1) ≤ want c n ∨ lfit (want c n) base l = none
    · rw [malloc_spec_fail c hc hinv hn hf] at hm
      simp only [Option.some.injEq, Prod.mk.injEq] at hm
      rw [← hm.1, ← hm.2]
      exact ⟨l, hinv, by simpa using hperm⟩
    · simp only [not_or] at hf
      obtain ⟨hn0, hw, hfit⟩ := hf
      obtain ⟨x, hx⟩ := Option.ne_none_iff_exists'.1 hfit
      obtain ⟨s'', l', q1, _, q3, _, _, q6⟩ := malloc_spec_ok c hc hinv hn hn0 (by omega) hx
      rw [q1] at hm
      simp only [Option.some.injEq, Prod.mk.injEq] at hm
      have hB := B_pos c hc
      have hp0 : ¬ (p = 0) := by omega
      rw [← hm.2]
      refine ⟨l', q3, ?_⟩
      simp only [hp0, if_false]
      rw [← hm.1]
      exact (List.Perm.cons _ hperm).trans q6.symm
  | @free base s L p n s' _ hmem hfr ih =>
    obtain ⟨l, hinv, hperm⟩ := ih
    obtain ⟨s'', q1, q2, _, _, q5⟩ := free_spec c hc hinv (hperm.mem_iff.1 hmem)
    rw [q1] at hfr
    simp only [Option.some.injEq] at hfr
    rw [← hfr]
    exact ⟨_, q2, by rw [q5]; exact perm_erase _ hperm⟩

/-- The free list read off memory is the list of the free blocks of the
layout. -/
theorem freeList_eq (c : Config) (hc : c.WF) {base : Nat} {s : State} {l : List Blk}
    (hinv : Inv c base s l) : freeList c s = some (frees base l) := by
  have hpos := Pos_of_good c hc hinv.good
  have hM := two_pow_W c hc
  have hfc := freeCount_le_total hpos
  have hspan := hinv.span
  have htail := hinv.tail_eq
  obtain ⟨k, hk⟩ : ∃ k, 2 ^ c.W = (k + 1) + freeCount l := ⟨2 ^ c.W - 1 - freeCount l, by omega⟩
  unfold freeList
  rw [hinv.head]
  simp only
  rw [hk, walk_frees (k + 1) hinv.free hpos (by omega), walk]
  simp

end LwMEM


namespace LwMEM

theorem cfg32_WF : cfg32.WF := ⟨⟨2, rfl⟩, by decide, by decide, by decide⟩

/-- C1: geometry of a successful initialization.  For an inactive object
(`tail == NULL`) that does not lie inside the region, when
`lwmem_define_region_ex` returns `0`: with `base = align_up(start)` and
`tail = align_down(start + size - B)` (both in `size_t` arithmetic),
`head.next = base`, `head.size = 0`, `object->tail = tail`, the tail sentinel
holds `next = NULL`, `size = 0`, the header at `base` holds `next = tail` and
`size = tail - base` with the allocated bit clear, `base < tail`, and the free
list is exactly the one block `[base, tail)`. -/
theorem C1_define_region_geometry (c : Config) (hc : c.WF) (s : State) (start size : Nat)
    (h1 : start < 2 ^ c.W) (h2 : size < 2 ^ c.W) (ho : s.object < 2 ^ c.W)
    (h3 : s.tail = 0) (hout : ObjectOutside c s start size)
    (hret : (lwmem_define_region_ex c s start size).1 = 0) :
    (lwmem_define_region_ex c s start size).2.mem (lwmem_define_region_ex c s start size).2.object
      = ⟨LWMEM_BYTE_ALIGNMENT_UPPER c start, 0⟩ ∧
    (lwmem_define_region_ex c s start size).2.tail =
      LWMEM_BYTE_ALIGNMENT_LOWER c (wsub c (wadd c start size) c.B) ∧
    (lwmem_define_region_ex c s start size).2.mem
      (LWMEM_BYTE_ALIGNMENT_LOWER c (wsub c (wadd c start size) c.B)) = ⟨0, 0⟩ ∧
    (lwmem_define_region_ex c s start size).2.mem (LWMEM_BYTE_ALIGNMENT_UPPER c start) =
      ⟨LWMEM_BYTE_ALIGNMENT_LOWER c (wsub c (wadd c start size) c.B),
        LWMEM_BYTE_ALIGNMENT_LOWER c (wsub c (wadd c start size) c.B) -
          LWMEM_BYTE_ALIGNMENT_UPPER c start⟩ ∧
    (LWMEM_BYTE_ALIGNMENT_LOWER c (wsub c (wadd c start size) c.B) -
        LWMEM_BYTE_ALIGNMENT_UPPER c start) &&& LWMEM_BLOCK_SIZE_ALLOCATED_BITMASK c = 0 ∧
    LWMEM_BYTE_ALIGNMENT_UPPER c start <
      LWMEM_BYTE_ALIGNMENT_LOWER c (wsub c (wadd c start size) c.B) ∧
    freeList c (lwmem_define_region_ex c s start size).2 =
      some [(LWMEM_BYTE_ALIGNMENT_UPPER c start,
        LWMEM_BYTE_ALIGNMENT_LOWER c (wsub c (wadd c start size) c.B) -
          LWMEM_BYTE_ALIGNMENT_UPPER c start)] := by
  obtain ⟨d1, d2, _, d4, d5, d6, _, _, d9, d10, d11, _⟩ :=
    define_state c hc s h1 h2 ho h3 hout hret
  have hinv := define_inv c hc s h1 h2 ho h3 hout hret
  have hfl := freeList_eq c hc hinv
  have hB := B_pos c hc
  have hM := two_pow_W c hc
  refine ⟨by rw [d1]; exact d4, d2, d5, d6, ?_, by omega, ?_⟩
  · by_contra hne
    have := (and_mask_ne_zero c hc (by omega)).1 hne
    omega
  · rw [hfl, d2]; rfl

/-- Witness for C1: the 32-bit default build, a 1024-byte region at `0x1000`. -/
theorem C1_define_region_geometry_witness :
    (lwmem_define_region_ex cfg32 s0 4096 1024).2.mem
        (lwmem_define_region_ex cfg32 s0 4096 1024).2.object
      = ⟨LWMEM_BYTE_ALIGNMENT_UPPER cfg32 4096, 0⟩ ∧
    (lwmem_define_region_ex cfg32 s0 4096 1024).2.tail =
      LWMEM_BYTE_ALIGNMENT_LOWER cfg32 (wsub cfg32 (wadd cfg32 4096 1024) cfg32.B) ∧
    (lwmem_define_region_ex cfg32 s0 4096 1024).2.mem
      (LWMEM_BYTE_ALIGNMENT_LOWER cfg32 (wsub cfg32 (wadd cfg32 4096 1024) cfg32.B)) = ⟨0, 0⟩ ∧
    (lwmem_define_region_ex cfg32 s0 4096 1024).2.mem (LWMEM_BYTE_ALIGNMENT_UPPER cfg32 4096) =
      ⟨LWMEM_BYTE_ALIGNMENT_LOWER cfg32 (wsub cfg32 (wadd cfg32 4096 1024) cfg32.B),
        LWMEM_BYTE_ALIGNMENT_LOWER cfg32 (wsub cfg32 (wadd cfg32 4096 1024) cfg32.B) -
          LWMEM_BYTE_ALIGNMENT_UPPER cfg32 4096⟩ ∧
    (LWMEM_BYTE_ALIGNMENT_LOWER cfg32 (wsub cfg32 (wadd cfg32 4096 1024) cfg32.B) -
        LWMEM_BYTE_ALIGNMENT_UPPER cfg32 4096) &&& LWMEM_BLOCK_SIZE_ALLOCATED_BITMASK cfg32 = 0 ∧
    LWMEM_BYTE_ALIGNMENT_UPPER cfg32 4096 <
      LWMEM_BYTE_ALIGNMENT_LOWER cfg32 (wsub cfg32 (wadd cfg32 4096 1024) cfg32.B) ∧
    freeList cfg32 (lwmem_define_region_ex cfg32 s0 4096 1024).2 =
      some [(LWMEM_BYTE_ALIGNMENT_UPPER cfg32 4096,
        LWMEM_BYTE_ALIGNMENT_LOWER cfg32 (wsub cfg32 (wadd cfg32 4096 1024) cfg32.B) -
          LWMEM_BYTE_ALIGNMENT_UPPER cfg32 4096)] :=
  C1_define_region_geometry cfg32 cfg32_WF s0 4096 1024 (by decide) (by decide) (by decide)
    (by decide) (by show 1024 ≤ wsub cfg32 16 4096; decide) (by decide)

end LwMEM


namespace LwMEM

theorem dvd_total (c : Config) {l : List Blk} (h : ∀ b ∈ l, GoodBlk c b) : c.A ∣ total l := by
  induction l with
  | nil => exact Nat.dvd_zero _
  | cons b l ih =>
    simp only [total_cons]
    exact Nat.dvd_add (h b (List.mem_cons_self _ _)).1
      (ih (fun b' hb' => h b' (List.mem_cons_of_mem _ hb')))

/-- What the invariant says about the block of a live pointer. -/
theorem live_block (c : Config) (hc : c.WF) {base : Nat} {s : State} {l : List Blk}
    (hinv : Inv c base s l) {p n : Nat} (hmem : (p, n) ∈ lives c base l) :
    ∃ pre xs post, l = pre ++ ⟨xs, some n⟩ :: post ∧ p = base + total pre + c.B ∧
      (s.mem (p - c.B)).size = xs + 2 ^ (c.W - 1) ∧ xs < 2 ^ (c.W - 1) ∧
      0 < n ∧ want c n ≤ xs ∧ c.A ∣ p ∧ p - c.B + xs ≤ s.tail := by
  have hpos := Pos_of_good c hc hinv.good
  obtain ⟨pre, xs, post, hl, hpx, _, _⟩ := lives_split c hpos hmem
  subst hl
  have hu := hinv.used
  rw [UsedSeg_append] at hu
  simp only [UsedSeg] at hu
  have hg := hinv.good ⟨xs, some n⟩ (by simp)
  have hgn := hg.2.2 n rfl
  have hspan := hinv.span
  have htail := hinv.tail_eq
  simp only [total_append, total_cons] at hspan htail
  have hB := B_spec c hc
  have hd : c.A ∣ total pre :=
    dvd_total c (fun b hb => hinv.good b (by simp [hb]))
  have e : p - c.B = base + total pre := by omega
  refine ⟨pre, xs, post, rfl, hpx, by rw [e]; exact hu.2.1, by omega, hgn.1, hgn.2, ?_,
    by omega⟩
  rw [hpx]
  exact Nat.dvd_add (Nat.dvd_add hinv.base_al hd) hB.1

/-- Reading the header of a live block: the allocated bit is set and the size
with the bit cleared is the block length. -/
theorem live_header (c : Config) (hc : c.WF) {v xs : Nat} (h : v = xs + 2 ^ (c.W - 1))
    (hxs : xs < 2 ^ (c.W - 1)) :
    v &&& LWMEM_BLOCK_SIZE_ALLOCATED_BITMASK c ≠ 0 ∧
      v &&& wnot c (LWMEM_BLOCK_SIZE_ALLOCATED_BITMASK c) = xs := by
  have hM := two_pow_W c hc
  subst h
  refine ⟨(and_mask_ne_zero c hc (by omega)).2 (by omega), ?_⟩
  rw [and_not_mask c hc, Nat.add_mod_right, Nat.mod_eq_of_lt hxs]

/-- A successful `lwmem_malloc_ex` on a reachable state, in terms of the
layout. -/
theorem malloc_ok_inv (c : Config) (hc : c.WF) {base : Nat} {s : State} {l : List Blk}
    (hinv : Inv c base s l) {n p : Nat} {s' : State} (hn : n < 2 ^ c.W)
    (hm : lwmem_malloc_ex c s n = some (p, s')) (hp : p ≠ 0) :
    n ≠ 0 ∧ want c n < 2 ^ (c.W - 1) ∧ ∃ x l', lfit (want c n) base l = some x ∧
      p = x + c.B ∧ lalloc (want c n) (2 * c.B) n l = some l' ∧ Inv c base s' l' ∧
      s'.tail = s.tail ∧ s'.object = s.object ∧
      (lives c base l').Perm ((p, n) :: lives c base l) := by
  by_cases hf : n = 0 ∨ 2 ^ (c.W - 1) ≤ want c n ∨ lfit (want c n) base l = none
  · rw [malloc_spec_fail c hc hinv hn hf] at hm
    simp only [Option.some.injEq, Prod.mk.injEq] at hm
    exact absurd hm.1.symm hp
  · simp only [not_or] at hf
    obtain ⟨hn0, hw, hfit⟩ := hf
    obtain ⟨x, hx⟩ := Option.ne_none_iff_exists'.1 hfit
    obtain ⟨s'', l', q1, q2, q3, q4, q5, q6⟩ := malloc_spec_ok c hc hinv hn hn0 (by omega) hx
    rw [q1] at hm
    simp only [Option.some.injEq, Prod.mk.injEq] at hm
    refine ⟨hn0, by omega, x, l', hx, hm.1.symm, q2, ?_⟩
    rw [← hm.2, ← hm.1]
    exact ⟨q3, q4, q5, q6⟩

/-- C2: guarantee on a successful allocation.  On every state reachable from
a successful `lwmem_define_region_ex`, when `lwmem_malloc_ex` returns a
non-null `p`: `p` is a multiple of `A`; the header at `p - B` has the
allocated bit set; its size with the bit cleared is at least `n + B`; and the
block `[p - B, p - B + raw size)` lies inside `[base, tail)`. -/
theorem C2_malloc_guarantee (c : Config) (hc : c.WF) {base : Nat} {s : State}
    {L : List (Nat × Nat)} (hr : Reachable c base s L) (n p : Nat) (s' : State)
    (hn : n < 2 ^ c.W) (hm : lwmem_malloc_ex c s n = some (p, s')) (hp : p ≠ 0) :
    c.A ∣ p ∧ c.B ≤ p ∧
    (s'.mem (p - c.B)).size &&& LWMEM_BLOCK_SIZE_ALLOCATED_BITMASK c ≠ 0 ∧
    n + c.B ≤ (s'.mem (p - c.B)).size &&& wnot c (LWMEM_BLOCK_SIZE_ALLOCATED_BITMASK c) ∧
    base ≤ p - c.B ∧
    p - c.B + ((s'.mem (p - c.B)).size &&& wnot c (LWMEM_BLOCK_SIZE_ALLOCATED_BITMASK c)) ≤
      s'.tail := by
  obtain ⟨l, hinv, _⟩ := reach_inv c hc hr
  obtain ⟨_, _, x, l', _, _, _, hinv', _, _, hperm⟩ := malloc_ok_inv c hc hinv hn hm hp
  have hmem : (p, n) ∈ lives c base l' := hperm.mem_iff.2 (List.mem_cons_self _ _)
  obtain ⟨pre, xs, post, _, hpx, hsz, hxs, _, hw, hd, hend⟩ := live_block c hc hinv' hmem
  obtain ⟨k1, k2⟩ := live_header c hc hsz hxs
  have hws := want_spec c hc n
  rw [k2]
  exact ⟨hd, by omega, k1, by omega, by omega, hend⟩

theorem malloc_eq_of_fst (c : Config) (s : State) (n p : Nat)
    (h : (lwmem_malloc_ex c s n).map Prod.fst = some p) :
    lwmem_malloc_ex c s n = some (p, after_malloc c s n) := by
  unfold after_malloc
  cases hm : lwmem_malloc_ex c s n with
  | none => rw [hm] at h; simp at h
  | some r =>
    rw [hm] at h
    simp only [Option.map_some', Option.some.injEq] at h
    simp [← h]

theorem reach_sd : Reachable cfg32 4096 sd [] :=
  Reachable.define s0 4096 1024 (by decide) (by decide) (by decide) (by decide)
    (by show 1024 ≤ wsub cfg32 16 4096; decide) (by decide)

/-- Witness for C2: the first allocation of 100 bytes from the 1024-byte
region returns `0x1008`. -/
theorem C2_malloc_guarantee_witness :
    cfg32.A ∣ 4104 ∧ cfg32.B ≤ 4104 ∧
    ((after_malloc cfg32 sd 100).mem (4104 - cfg32.B)).size &&&
      LWMEM_BLOCK_SIZE_ALLOCATED_BITMASK cfg32 ≠ 0 ∧
    100 + cfg32.B ≤ ((after_malloc cfg32 sd 100).mem (4104 - cfg32.B)).size &&&
      wnot cfg32 (LWMEM_BLOCK_SIZE_ALLOCATED_BITMASK cfg32) ∧
    4096 ≤ 4104 - cfg32.B ∧
    4104 - cfg32.B + (((after_malloc cfg32 sd 100).mem (4104 - cfg32.B)).size &&&
      wnot cfg32 (LWMEM_BLOCK_SIZE_ALLOCATED_BITMASK cfg32)) ≤ (after_malloc cfg32 sd 100).tail :=
  C2_malloc_guarantee cfg32 cfg32_WF reach_sd 100 4104 (after_malloc cfg32 sd 100) (by decide)
    (malloc_eq_of_fst cfg32 sd 100 4104 (by decide)) (by decide)

end LwMEM


namespace LwMEM

theorem frees_mem_blk {a : Nat} {l : List Blk} {e : Nat × Nat} (h : e ∈ frees a l) :
    (⟨e.2, none⟩ : Blk) ∈ l := by
  induction l generalizing a with
  | nil => simp [frees] at h
  | cons b l ih =>
    obtain ⟨sz, r⟩ := b
    cases r with
    | some k =>
      simp only [frees] at h
      exact List.mem_cons_of_mem _ (ih h)
    | none =>
      simp only [frees, List.mem_cons] at h
      rcases h with h | h
      · rw [h]; exact List.mem_cons_self _ _
      · exact List.mem_cons_of_mem _ (ih h)

theorem lfit_none_frees {w a : Nat} {l : List Blk} (h : lfit w a l = none) :
    ∀ e ∈ frees a l, e.2 < w := fun e he =>
  (lfit_none 0 0 h).1 ⟨e.2, none⟩ (frees_mem_blk he) rfl

theorem lfit_some_frees {w a x : Nat} {l : List Blk} (h : lfit w a l = some x) :
    ∃ e ∈ frees a l, w ≤ e.2 := by
  obtain ⟨pre, sz, post, hl, _, hsz, _, _⟩ := lfit_some 0 0 h
  refine ⟨(a + total pre, sz), ?_, hsz⟩
  rw [hl, frees_append]
  simp [frees]

theorem malloc_inactive (c : Config) (s : State) (n : Nat) (h : s.tail = 0) :
    lwmem_malloc_ex c s n = some (0, s) := by
  simp [lwmem_malloc_ex, h]

theorem inv_tail_ne (c : Config) (hc : c.WF) {base : Nat} {s : State} {l : List Blk}
    (hinv : Inv c base s l) : s.tail ≠ 0 ∧ base < s.tail := by
  have hpos := Pos_of_good c hc hinv.good
  have h1 := hinv.tail_eq
  have h2 : 0 < total l := by
    cases hl : l with
    | nil => exact absurd hl hinv.nonempty
    | cons b l' =>
      have hb := hpos b (by rw [hl]; simp)
      simp only [total_cons]
      omega
  omega

/-- C3: exact failure condition of allocate.  On an inactive object or on a
state reachable from a successful `lwmem_define_region_ex`, for every `W`-bit
`n`, `lwmem_malloc_ex` returns, and it returns `NULL` if and only if `n == 0`,
or the object is inactive, or `want = B + align_up(n)` computed in unbounded
integers is at least `2 ^ (W - 1)`, or no block of the free list has a size of
at least `want`. -/
theorem C3_malloc_failure_condition (c : Config) (hc : c.WF) (s : State) (n : Nat)
    (hn : n < 2 ^ c.W) (h : s.tail = 0 ∨ ∃ base L, Reachable c base s L) :
    ∃ p s', lwmem_malloc_ex c s n = some (p, s') ∧
      (p = 0 ↔ (n = 0 ∨ s.tail = 0 ∨ 2 ^ (c.W - 1) ≤ want c n ∨
        ∃ fl, freeList c s = some fl ∧ ∀ e ∈ fl, e.2 < want c n)) := by
  rcases h with h | ⟨base, L, hr⟩
  · exact ⟨0, s, malloc_inactive c s n h, by simp [h]⟩
  · obtain ⟨l, hinv, _⟩ := reach_inv c hc hr
    have hfl := freeList_eq c hc hinv
    have htne := (inv_tail_ne c hc hinv).1
    have hB := B_pos c hc
    by_cases hf : n = 0 ∨ 2 ^ (c.W - 1) ≤ want c n ∨ lfit (want c n) base l = none
    · refine ⟨0, s, malloc_spec_fail c hc hinv hn hf, ?_⟩
      simp only [true_iff]
      rcases hf with e | e | e
      · exact Or.inl e
      · exact Or.inr (Or.inr (Or.inl e))
      · exact Or.inr (Or.inr (Or.inr ⟨_, hfl, lfit_none_frees e⟩))
    · simp only [not_or] at hf
      obtain ⟨hn0, hw, hfit⟩ := hf
      obtain ⟨x, hx⟩ := Option.ne_none_iff_exists'.1 hfit
      obtain ⟨s', l', q1, _⟩ := malloc_spec_ok c hc hinv hn hn0 (by omega) hx
      refine ⟨x + c.B, s', q1, ?_⟩
      constructor
      · intro h0; omega
      · rintro (e | e | e | ⟨fl, e1, e2⟩)
        · exact absurd e hn0
        · exact absurd e htne
        · exact absurd e hw
        · rw [hfl] at e1
          simp only [Option.some.injEq] at e1
          obtain ⟨b, hb1, hb2⟩ := lfit_some_frees hx
          have := e2 b (by rw [← e1]; exact hb1)
          omega

/-- Witness for C3: a request of 100 bytes on the freshly defined 1024-byte
region. -/
theorem C3_malloc_failure_condition_witness :
    ∃ p s', lwmem_malloc_ex cfg32 sd 100 = some (p, s') ∧
      (p = 0 ↔ (100 = 0 ∨ sd.tail = 0 ∨ 2 ^ (cfg32.W - 1) ≤ want cfg32 100 ∨
        ∃ fl, freeList cfg32 sd = some fl ∧ ∀ e ∈ fl, e.2 < want cfg32 100)) :=
  C3_malloc_failure_condition cfg32 cfg32_WF sd 100 (by decide) (Or.inr ⟨4096, [], reach_sd⟩)

/-- `allocate(0)` and `allocate(SIZE_MAX)` return `NULL` and leave any state
untouched. -/
theorem malloc_zero_max (c : Config) (hc : c.WF) (s : State) :
    lwmem_malloc_ex c s 0 = some (0, s) ∧ lwmem_malloc_ex c s (2 ^ c.W - 1) = some (0, s) := by
  constructor
  · simp [lwmem_malloc_ex, lwmem_alloc]
  · by_cases ht : s.tail = 0
    · exact malloc_inactive c s _ ht
    · have hM := two_pow_W c hc
      have hp : 0 < 2 ^ (c.W - 1) := Nat.pos_pow_of_pos _ (by decide)
      have hs := alloc_size c hc (show 2 ^ c.W - 1 < 2 ^ c.W by omega)
      have hws := want_spec c hc (2 ^ c.W - 1)
      have hB := B_pos c hc
      have h1 : ¬ (wsub c (wnot c 0) (2 ^ c.W - 1) ≥ wadd c (LWMEM_BYTE_ALIGNMENT_UPPER c c.hsz)
          (LWMEM_BYTE_ALIGNMENT_UPPER_INCREASE c (2 ^ c.W - 1))) := by
        intro h'
        have := hs.1.1 h'
        omega
      have h0 : ¬ (2 ^ c.W - 1 = 0) := by omega
      simp only [lwmem_malloc_ex, lwmem_alloc, ht, h0, if_false, h1]

/-- C4: a failed allocation changes nothing.  On an inactive object or on a
state reachable from a successful `lwmem_define_region_ex`, when
`lwmem_malloc_ex` returns `NULL` the state after the call (object and every
block header) is the state before; and `allocate(0)` and `allocate(SIZE_MAX)`
return `NULL` with the state untouched. -/
theorem C4_failed_malloc_no_change (c : Config) (hc : c.WF) (s : State) (n : Nat) (s' : State)
    (hn : n < 2 ^ c.W) (h : s.tail = 0 ∨ ∃ base L, Reachable c base s L)
    (hm : lwmem_malloc_ex c s n = some (0, s')) :
    s' = s ∧ lwmem_malloc_ex c s 0 = some (0, s) ∧
      lwmem_malloc_ex c s (2 ^ c.W - 1) = some (0, s) := by
  refine ⟨?_, malloc_zero_max c hc s⟩
  rcases h with h | ⟨base, L, hr⟩
  · rw [malloc_inactive c s n h] at hm
    simp only [Option.some.injEq, Prod.mk.injEq, true_and] at hm
    exact hm.symm
  · obtain ⟨l, hinv, _⟩ := reach_inv c hc hr
    have hB := B_pos c hc
    by_cases hf : n = 0 ∨ 2 ^ (c.W - 1) ≤ want c n ∨ lfit (want c n) base l = none
    · rw [malloc_spec_fail c hc hinv hn hf] at hm
      simp only [Option.some.injEq, Prod.mk.injEq, true_and] at hm
      exact hm.symm
    · simp only [not_or] at hf
      obtain ⟨hn0, hw, hfit⟩ := hf
      obtain ⟨x, hx⟩ := Option.ne_none_iff_exists'.1 hfit
      obtain ⟨s'', l', q1, _⟩ := malloc_spec_ok c hc hinv hn hn0 (by omega) hx
      rw [q1] at hm
      simp only [Option.some.injEq, Prod.mk.injEq] at hm
      omega

/-- Witness for C4: a request of 2000 bytes cannot be served from the
1024-byte region. -/
theorem C4_failed_malloc_no_change_witness :
    after_malloc cfg32 sd 2000 = sd ∧ lwmem_malloc_ex cfg32 sd 0 = some (0, sd) ∧
      lwmem_malloc_ex cfg32 sd (2 ^ cfg32.W - 1) = some (0, sd) :=
  C4_failed_malloc_no_change cfg32 cfg32_WF sd 2000 (after_malloc cfg32 sd 2000) (by decide)
    (Or.inr ⟨4096, [], reach_sd⟩) (malloc_eq_of_fst cfg32 sd 2000 0 (by decide))

end LwMEM


namespace LwMEM

theorem firstFit_small {w mn : Nat} {fl : List (Nat × Nat)} (h : ∀ e ∈ fl, e.2 < w) :
    firstFit w mn fl = none := by
  induction fl with
  | nil => rfl
  | cons e fl ih =>
    obtain ⟨a, s⟩ := e
    have h1 : ¬ (w ≤ s) := by
      have := h (a, s) (List.mem_cons_self _ _)
      simp only at this
      omega
    simp only [firstFit, h1, if_false]
    rw [ih (fun e he => h e (List.mem_cons_of_mem _ he))]
    rfl

theorem firstFit_append {w mn : Nat} {F1 F2 : List (Nat × Nat)} {x sz : Nat}
    (h : ∀ e ∈ F1, e.2 < w) (hsz : w ≤ sz) :
    firstFit w mn (F1 ++ (x, sz) :: F2) =
      some (x, if mn ≤ sz - w then w else sz,
        F1 ++ (if mn ≤ sz - w then (x + w, sz - w) :: F2 else F2)) := by
  induction F1 with
  | nil => simp [firstFit, hsz]
  | cons e fl ih =>
    obtain ⟨a, s⟩ := e
    have h1 : ¬ (w ≤ s) := by
      have := h (a, s) (List.mem_cons_self _ _)
      simp only at this
      omega
    simp only [List.cons_append, firstFit, h1, if_false, List.append_eq]
    rw [ih (fun e he => h e (List.mem_cons_of_mem _ he))]
    rfl

/-- The free blocks of a layout are met in increasing address order and do not
overlap. -/
theorem frees_sorted {a : Nat} {l : List Blk} (hp : Pos l) :
    (frees a l).Pairwise (fun e1 e2 => e1.1 + e1.2 ≤ e2.1) ∧ ∀ e ∈ frees a l, a ≤ e.1 := by
  induction l generalizing a with
  | nil => simp [frees]
  | cons b l ih =>
    obtain ⟨sz, r⟩ := b
    rw [Pos_cons] at hp
    obtain ⟨i1, i2⟩ := ih (a := a + sz) hp.2
    cases r with
    | some k =>
      simp only [frees]
      exact ⟨i1, fun e he => by have := i2 e he; omega⟩
    | none =>
      simp only [frees, List.pairwise_cons, List.mem_cons]
      refine ⟨⟨fun e he => i2 e he, i1⟩, ?_⟩
      rintro e (he | he)
      · rw [he]
      · have := i2 e he; omega

/-- C5: first-fit selection with split, against the reference model
`firstFit`.  On a reachable state with free list `fl` (which is in increasing
address order), for a request `n > 0` with `want = B + align_up(n)`: when the
reference model picks the first block `a` of `fl` with at least `want` bytes,
`lwmem_malloc_ex` returns `a + B`, the free list afterwards is the list of the
model (the chosen pair replaced in place by `(a + want, s - want)` when
`s - want >= LWMEM_BLOCK_MININUM_SIZE`, removed otherwise), and the block at
`a` is marked allocated with the raw size of the model (`want`, or all of `s`). -/
theorem C5_first_fit_split (c : Config) (hc : c.WF) {base : Nat} {s : State}
    {L : List (Nat × Nat)} (hr : Reachable c base s L) (n : Nat) (hn : n < 2 ^ c.W)
    (hn0 : 0 < n) (fl : List (Nat × Nat)) (hfl : freeList c s = some fl)
    (a raw : Nat) (fl' : List (Nat × Nat))
    (hff : firstFit (want c n) (LWMEM_BLOCK_MININUM_SIZE c) fl = some (a, raw, fl')) :
    fl.Pairwise (fun e1 e2 => e1.1 + e1.2 ≤ e2.1) ∧
    ∃ s', lwmem_malloc_ex c s n = some (a + c.B, s') ∧ freeList c s' = some fl' ∧
      (s'.mem a).size &&& LWMEM_BLOCK_SIZE_ALLOCATED_BITMASK c ≠ 0 ∧
      (s'.mem a).size &&& wnot c (LWMEM_BLOCK_SIZE_ALLOCATED_BITMASK c) = raw := by
  obtain ⟨l, hinv, _⟩ := reach_inv c hc hr
  have hpos := Pos_of_good c hc hinv.good
  rw [freeList_eq c hc hinv] at hfl
  simp only [Option.some.injEq] at hfl
  subst hfl
  refine ⟨(frees_sorted hpos).1, ?_⟩
  rw [min_eq c hc] at hff
  cases hfit : lfit (want c n) base l with
  | none =>
    rw [firstFit_small (lfit_none_frees hfit)] at hff
    simp at hff
  | some x =>
    obtain ⟨pre, sz, post, hl, hx, hsz, hsmall, hla⟩ := lfit_some (2 * c.B) n hfit
    subst hx
    have hspan := hinv.span
    rw [hl] at hspan
    simp only [total_append, total_cons] at hspan
    obtain ⟨s', l', q1, q2, q3, _, _, _⟩ :=
      malloc_spec_ok c hc hinv hn (by omega) (by omega) hfit
    rw [hla] at q2
    simp only [Option.some.injEq] at q2
    have hF1 : ∀ e ∈ frees base pre, e.2 < want c n := fun e he =>
      hsmall ⟨e.2, none⟩ (frees_mem_blk he) rfl
    have hfr : frees base l = frees base pre ++
        (base + total pre, sz) :: frees (base + total pre + sz) post := by
      rw [hl, frees_append]; simp [frees]
    rw [hfr, firstFit_append hF1 hsz] at hff
    simp only [Option.some.injEq, Prod.mk.injEq] at hff
    obtain ⟨ha, hraw, hfl'⟩ := hff
    refine ⟨s', by rw [← ha]; exact q1, ?_, ?_⟩
    · rw [freeList_eq c hc q3, ← q2, ← hfl', frees_append]
      by_cases hsp : 2 * c.B ≤ sz - want c n
      · simp only [hsp, if_true, frees]
        have e : base + total pre + want c n + (sz - want c n) = base + total pre + sz := by
          omega
        rw [e]
      · simp only [hsp, if_false, frees]
    · have hu := q3.used
      rw [← q2, UsedSeg_append] at hu
      rw [← ha]
      by_cases hsp : 2 * c.B ≤ sz - want c n
      · simp only [hsp, if_true, UsedSeg] at hu hraw
        rw [← hraw]
        exact live_header c hc hu.2.1 (by omega)
      · simp only [hsp, if_false, UsedSeg] at hu hraw
        rw [← hraw]
        exact live_header c hc hu.2.1 (by omega)

/-- Witness for C5: 100 bytes from the fresh 1024-byte region; the block of
1016 bytes at `0x1000` is split into 108 and 908 bytes. -/
theorem C5_first_fit_split_witness :
    [(4096, 1016)].Pairwise (fun (e1 e2 : Nat × Nat) => e1.1 + e1.2 ≤ e2.1) ∧
    ∃ s', lwmem_malloc_ex cfg32 sd 100 = some (4096 + cfg32.B, s') ∧
      freeList cfg32 s' = some [(4204, 908)] ∧
      (s'.mem 4096).size &&& LWMEM_BLOCK_SIZE_ALLOCATED_BITMASK cfg32 ≠ 0 ∧
      (s'.mem 4096).size &&& wnot cfg32 (LWMEM_BLOCK_SIZE_ALLOCATED_BITMASK cfg32) = 108 :=
  C5_first_fit_split cfg32 cfg32_WF reach_sd 100 (by decide) (by decide) [(4096, 1016)]
    (by decide) 4096 108 [(4204, 908)] (by decide)

end LwMEM


namespace LwMEM

theorem reach_s1 : Reachable cfg32 4096 s1 [(4104, 100)] :=
  Reachable.malloc 100 4104 s1 reach_sd (by decide)
    (malloc_eq_of_fst cfg32 sd 100 4104 (by decide))

theorem reach_s2 : Reachable cfg32 4096 s2 [(4212, 200), (4104, 100)] :=
  Reachable.malloc 200 4212 s2 reach_s1 (by decide)
    (malloc_eq_of_fst cfg32 s1 200 4212 (by decide))

theorem reach_s3 : Reachable cfg32 4096 s3 [(4420, 300), (4212, 200), (4104, 100)] :=
  Reachable.malloc 300 4420 s3 reach_s2 (by decide)
    (malloc_eq_of_fst cfg32 s2 300 4420 (by decide))

theorem lives_frees_disjoint (c : Config) {a : Nat} {l : List Blk} (hp : Pos l)
    (hg : ∀ b ∈ l, GoodBlk c b) {p n : Nat} (hl : (p, n) ∈ lives c a l)
    {e : Nat × Nat} (he : e ∈ frees a l) :
    p + align_up c n ≤ e.1 ∨ e.1 + e.2 ≤ p := by
  induction l generalizing a with
  | nil => simp [lives] at hl
  | cons b l ih =>
    obtain ⟨sz, r⟩ := b
    have hgb := hg ⟨sz, r⟩ (List.mem_cons_self _ _)
    have hg' : ∀ b ∈ l, GoodBlk c b := fun b hb => hg b (List.mem_cons_of_mem _ hb)
    rw [Pos_cons] at hp
    cases r with
    | none =>
      simp only [lives] at hl
      simp only [frees, List.mem_cons] at he
      rcases he with he | he
      · right
        have := lives_ge c hl
        rw [he]; simp only; omega
      · exact ih hp.2 hg' hl he
    | some k =>
      simp only [frees] at he
      simp only [lives, List.mem_cons, Prod.mk.injEq] at hl
      rcases hl with hl | hl
      · left
        have h1 := (frees_sorted (a := a + sz) hp.2).2 e he
        have h2 := (hgb.2.2 k rfl).2
        unfold want at h2
        simp only at h2
        rw [hl.1, hl.2]
        omega
      · exact ih hp.2 hg' hl he

theorem lives_disjoint (c : Config) {a : Nat} {l : List Blk} (hp : Pos l)
    (hg : ∀ b ∈ l, GoodBlk c b) {p n q m : Nat} (h1 : (p, n) ∈ lives c a l)
    (h2 : (q, m) ∈ lives c a l) (hne : (q, m) ≠ (p, n)) :
    p + align_up c n ≤ q ∨ q + align_up c m ≤ p := by
  induction l generalizing a with
  | nil => simp [lives] at h1
  | cons b l ih =>
    obtain ⟨sz, r⟩ := b
    have hgb := hg ⟨sz, r⟩ (List.mem_cons_self _ _)
    have hg' : ∀ b ∈ l, GoodBlk c b := fun b hb => hg b (List.mem_cons_of_mem _ hb)
    rw [Pos_cons] at hp
    cases r with
    | none =>
      simp only [lives] at h1 h2
      exact ih hp.2 hg' h1 h2
    | some k =>
      have hw := (hgb.2.2 k rfl).2
      unfold want at hw
      simp only at hw
      simp only [lives, List.mem_cons, Prod.mk.injEq] at h1 h2
      rcases h1 with h1 | h1 <;> rcases h2 with h2 | h2
      · exact absurd (by rw [h1.1, h1.2, h2.1, h2.2]) hne
      · left
        have := lives_ge c h2
        rw [h1.1, h1.2]; omega
      · right
        have := lives_ge c h1
        rw [h2.1, h2.2]; omega
      · exact ih hp.2 hg' h1 h2

/-- C6: no overlap.  In every reachable state, for every live allocation `p`
obtained with request `n`, the byte range `[p, p + align_up(n))` is disjoint
from the extent `[b, b + size(b))` of every block of the free list and from
the payload range of every other live allocation. -/
theorem C6_no_overlap (c : Config) (hc : c.WF) {base : Nat} {s : State}
    {L : List (Nat × Nat)} (hr : Reachable c base s L) (p n : Nat) (hmem : (p, n) ∈ L) :
    (∃ fl, freeList c s = some fl ∧ ∀ e ∈ fl, p + align_up c n ≤ e.1 ∨ e.1 + e.2 ≤ p) ∧
    (∀ q m, (q, m) ∈ L → (q, m) ≠ (p, n) → p + align_up c n ≤ q ∨ q + align_up c m ≤ p) := by
  obtain ⟨l, hinv, hperm⟩ := reach_inv c hc hr
  have hpos := Pos_of_good c hc hinv.good
  have hl := hperm.mem_iff.1 hmem
  refine ⟨⟨_, freeList_eq c hc hinv, fun e he => lives_frees_disjoint c hpos hinv.good hl he⟩, ?_⟩
  intro q m hq hne
  exact lives_disjoint c hpos hinv.good hl (hperm.mem_iff.1 hq) hne

/-- Witness for C6: after allocating 100 and 200 bytes, the first allocation
against the free list and the second allocation. -/
theorem C6_no_overlap_witness :
    (∃ fl, freeList cfg32 s2 = some fl ∧
      ∀ e ∈ fl, 4104 + align_up cfg32 100 ≤ e.1 ∨ e.1 + e.2 ≤ 4104) ∧
    (∀ q m, (q, m) ∈ [(4212, 200), (4104, 100)] → (q, m) ≠ (4104, 100) →
      4104 + align_up cfg32 100 ≤ q ∨ q + align_up cfg32 m ≤ 4104) :=
  C6_no_overlap cfg32 cfg32_WF reach_s2 4104 100 (by decide)

end LwMEM


namespace LwMEM

theorem frees_consFree_spec {a xs : Nat} {post : List Blk} (hx : 0 < xs) (hp : Pos post) :
    frees a (consFree xs post) = releaseSpec a xs (frees (a + xs) post) := by
  cases post with
  | nil => simp [consFree, frees, releaseSpec]
  | cons u post' =>
    obtain ⟨us, r⟩ := u
    rw [Pos_cons] at hp
    have hus := hp.1
    simp only at hus
    cases r with
    | none =>
      show (a, xs + us) :: frees (a + (xs + us)) post' =
        releaseSpec a xs ((a + xs, us) :: frees (a + xs + us) post')
      have e1 : ¬ (a + xs + us = a) := by omega
      simp only [releaseSpec, e1, if_false, eq_self, if_true]
      rw [Nat.add_assoc]
    | some k =>
      show (a, xs) :: frees (a + xs + us) post' = releaseSpec a xs (frees (a + xs + us) post')
      cases hF : frees (a + xs + us) post' with
      | nil => rfl
      | cons e F =>
        obtain ⟨u, s'⟩ := e
        have := (frees_sorted (a := a + xs + us) hp.2).2 (u, s') (by rw [hF]; simp)
        simp only at this
        have e1 : ¬ (u + s' = a) := by omega
        have e2 : ¬ (u = a + xs) := by omega
        have e3 : a < u := by omega
        simp only [releaseSpec, e1, e2, e3, if_false, if_true]

theorem frees_consFree_spec2 {a ps xs : Nat} {post : List Blk} (hp : Pos post) :
    frees a (consFree (ps + xs) post) =
      releaseSpec (a + ps) xs ((a, ps) :: frees (a + ps + xs) post) := by
  cases post with
  | nil => simp [consFree, frees, releaseSpec]
  | cons u post' =>
    obtain ⟨us, r⟩ := u
    rw [Pos_cons] at hp
    have hus := hp.1
    simp only at hus
    cases r with
    | none =>
      show (a, ps + xs + us) :: frees (a + (ps + xs + us)) post' =
        releaseSpec (a + ps) xs ((a, ps) :: (a + ps + xs, us) :: frees (a + ps + xs + us) post')
      have e : a + (ps + xs + us) = a + ps + xs + us := by omega
      rw [e]
      simp only [releaseSpec, eq_self, if_true]
    | some k =>
      show (a, ps + xs) :: frees (a + (ps + xs) + us) post' =
        releaseSpec (a + ps) xs ((a, ps) :: frees (a + ps + xs + us) post')
      have e : a + (ps + xs) + us = a + ps + xs + us := by omega
      rw [e]
      cases hF : frees (a + ps + xs + us) post' with
      | nil => simp only [releaseSpec, eq_self, if_true]
      | cons e F =>
        obtain ⟨u, s'⟩ := e
        have := (frees_sorted (a := a + ps + xs + us) hp.2).2 (u, s') (by rw [hF]; simp)
        simp only at this
        have e2 : ¬ (u = a + ps + xs) := by omega
        simp only [releaseSpec, eq_self, if_true, e2, if_false]

/-- The free blocks of the released layout are the reference model applied to
the free blocks before. -/
theorem frees_release {a : Nat} {pre post : List Blk} {xs n : Nat}
    (hp : Pos (pre ++ ⟨xs, some n⟩ :: post)) :
    frees a (release pre xs post) =
      releaseSpec (a + total pre) xs (frees a (pre ++ ⟨xs, some n⟩ :: post)) := by
  induction pre generalizing a with
  | nil =>
    simp only [List.nil_append, Pos_cons] at hp
    show frees a (consFree xs post) = releaseSpec (a + 0) xs (frees (a + xs) post)
    exact frees_consFree_spec hp.1 hp.2
  | cons b l ih =>
    obtain ⟨ps, r⟩ := b
    rw [List.cons_append, Pos_cons] at hp
    have hps := hp.1
    simp only at hps
    cases r with
    | some k =>
      show frees (a + ps) (release l xs post) =
        releaseSpec (a + (ps + total l)) xs (frees (a + ps) (l ++ ⟨xs, some n⟩ :: post))
      rw [ih hp.2, Nat.add_assoc]
    | none =>
      cases l with
      | nil =>
        simp only [List.nil_append, Pos_cons] at hp
        show frees a (consFree (ps + xs) post) =
          releaseSpec (a + (ps + 0)) xs ((a, ps) :: frees (a + ps + xs) post)
        exact frees_consFree_spec2 hp.2.2
      | cons b' l' =>
        have hb' : 0 < b'.size := (Pos_cons.1 ((Pos_append.1 hp.2).1)).1
        show (a, ps) :: frees (a + ps) (release (b' :: l') xs post) =
          releaseSpec (a + (ps + (b'.size + total l'))) xs
            ((a, ps) :: frees (a + ps) ((b' :: l') ++ ⟨xs, some n⟩ :: post))
        rw [ih (a := a + ps) hp.2]
        have e1 : ¬ (a + ps = a + (ps + (b'.size + total l'))) := by omega
        have e2 : ¬ (a = a + (ps + (b'.size + total l')) + xs) := by omega
        have e3 : ¬ (a + (ps + (b'.size + total l')) < a) := by omega
        simp only [releaseSpec, e1, e2, e3, if_false, total_cons]
        rw [Nat.add_assoc]

/-- C7: result of release with coalescing, against the reference model
`releaseSpec`.  On a reachable state with free list `fl`, for a live payload
`p` whose block is `(a, sz)` (`a = p - B`, `sz` the size word at `a` with the
allocated bit cleared), `lwmem_free_ex` returns and the free list afterwards
is `releaseSpec a sz fl`: `(a, sz)` merged with the node that ends exactly at
`a` and with the node that starts exactly at `a + sz` when they exist,
inserted at its address-sorted position otherwise, every other node kept. -/
theorem C7_release_coalesce (c : Config) (hc : c.WF) {base : Nat} {s : State}
    {L : List (Nat × Nat)} (hr : Reachable c base s L) (p n : Nat) (hmem : (p, n) ∈ L)
    (fl : List (Nat × Nat)) (hfl : freeList c s = some fl) :
    ∃ s', lwmem_free_ex c s p = some s' ∧
      freeList c s' = some (releaseSpec (p - c.B)
        ((s.mem (p - c.B)).size &&& wnot c (LWMEM_BLOCK_SIZE_ALLOCATED_BITMASK c)) fl) := by
  obtain ⟨l, hinv, hperm⟩ := reach_inv c hc hr
  have hpos := Pos_of_good c hc hinv.good
  have hl := hperm.mem_iff.1 hmem
  rw [freeList_eq c hc hinv] at hfl
  simp only [Option.some.injEq] at hfl
  subst hfl
  obtain ⟨s', q1, q2, _, _, _⟩ := free_spec c hc hinv hl
  obtain ⟨pre, xs, post, e1, e2, e3, _⟩ := lives_split c hpos hl
  have hu := hinv.used
  have hspan := hinv.span
  rw [e1, UsedSeg_append] at hu
  rw [e1] at hspan
  simp only [UsedSeg, total_append, total_cons] at hu hspan
  have ea : p - c.B = base + total pre := by omega
  obtain ⟨_, k2⟩ := live_header c hc hu.2.1 (by omega)
  refine ⟨s', q1, ?_⟩
  rw [freeList_eq c hc q2, ea, k2, lfree, e3]
  rw [e1] at hpos ⊢
  have hna := hinv.noadj
  rw [e1] at hna
  rw [← release_eq_coalesce hna, frees_release hpos]

/-- Witness for C7: releasing the allocation of 200 bytes that lies between
two live allocations. -/
theorem C7_release_coalesce_witness :
    ∃ s', lwmem_free_ex cfg32 s3 4212 = some s' ∧
      freeList cfg32 s' = some (releaseSpec (4212 - cfg32.B)
        ((s3.mem (4212 - cfg32.B)).size &&&
          wnot cfg32 (LWMEM_BLOCK_SIZE_ALLOCATED_BITMASK cfg32)) [(4720, 392)]) :=
  C7_release_coalesce cfg32 cfg32_WF reach_s3 4212 200 (by decide) [(4720, 392)] (by decide)

end LwMEM


namespace LwMEM

/-- `lwmem_malloc_ex` keeps `tail` and the object address. -/
theorem malloc_fields (c : Config) (hc : c.WF) {base : Nat} {s : State} {l : List Blk}
    (hinv : Inv c base s l) {n p : Nat} {s' : State} (hn : n < 2 ^ c.W)
    (hm : lwmem_malloc_ex c s n = some (p, s')) :
    s'.tail = s.tail ∧ s'.object = s.object := by
  by_cases hf : n = 0 ∨ 2 ^ (c.W - 1) ≤ want c n ∨ lfit (want c n) base l = none
  · rw [malloc_spec_fail c hc hinv hn hf] at hm
    simp only [Option.some.injEq, Prod.mk.injEq] at hm
    rw [← hm.2]
    exact ⟨rfl, rfl⟩
  · simp only [not_or] at hf
    obtain ⟨hn0, hw, hfit⟩ := hf
    obtain ⟨x, hx⟩ := Option.ne_none_iff_exists'.1 hfit
    obtain ⟨s'', l', q1, _, _, q4, q5, _⟩ := malloc_spec_ok c hc hinv hn hn0 (by omega) hx
    rw [q1] at hm
    simp only [Option.some.injEq, Prod.mk.injEq] at hm
    rw [← hm.2]
    exact ⟨q4, q5⟩

/-- Every reachable state stems from one successful `lwmem_define_region_ex`,
and keeps the `tail` and the object address that call established. -/
theorem reach_origin (c : Config) (hc : c.WF) {base : Nat} {s : State} {L : List (Nat × Nat)}
    (h : Reachable c base s L) :
    ∃ s0 start size, start < 2 ^ c.W ∧ size < 2 ^ c.W ∧ s0.tail = 0 ∧
      ObjectOutside c s0 start size ∧ (lwmem_define_region_ex c s0 start size).1 = 0 ∧
      Reachable c base (lwmem_define_region_ex c s0 start size).2 [] ∧
      base = LWMEM_BYTE_ALIGNMENT_UPPER c start ∧
      s.tail = (lwmem_define_region_ex c s0 start size).2.tail ∧
      s.object = (lwmem_define_region_ex c s0 start size).2.object := by
  induction h with
  | define s start size h1 h2 ho h3 hout hret =>
    exact ⟨s, start, size, h1, h2, h3, hout, hret,
      Reachable.define s start size h1 h2 ho h3 hout hret, rfl, rfl, rfl⟩
  | @malloc base s L n p s' hr hn hm ih =>
    obtain ⟨s0, start, size, a1, a2, a3, a4, a5, a6, a7, a8, a9⟩ := ih
    obtain ⟨l, hinv, _⟩ := reach_inv c hc hr
    obtain ⟨q1, q2⟩ := malloc_fields c hc hinv hn hm
    exact ⟨s0, start, size, a1, a2, a3, a4, a5, a6, a7, by rw [q1]; exact a8,
      by rw [q2]; exact a9⟩
  | @free base s L p n s' hr hmem hfr ih =>
    obtain ⟨s0, start, size, a1, a2, a3, a4, a5, a6, a7, a8, a9⟩ := ih
    obtain ⟨l, hinv, hperm⟩ := reach_inv c hc hr
    obtain ⟨s'', q1, _, q3, q4, _⟩ := free_spec c hc hinv (hperm.mem_iff.1 hmem)
    rw [q1] at hfr
    simp only [Option.some.injEq] at hfr
    subst hfr
    exact ⟨s0, start, size, a1, a2, a3, a4, a5, a6, a7, by rw [q3]; exact a8,
      by rw [q4]; exact a9⟩

/-- A layout with no live block and no two neighbouring free blocks is a
single free block. -/
theorem single_of_no_lives (c : Config) {a : Nat} {l : List Blk} (hne : l ≠ [])
    (hna : NoAdj l) (hl : lives c a l = []) : l = [⟨total l, none⟩] := by
  cases l with
  | nil => exact absurd rfl hne
  | cons b l' =>
    obtain ⟨sz, r⟩ := b
    cases r with
    | some k => simp [lives] at hl
    | none =>
      cases l' with
      | nil => simp
      | cons b' l'' =>
        obtain ⟨sz', r'⟩ := b'
        cases r' with
        | some k => simp [lives] at hl
        | none =>
          rw [NoAdj_cons_free] at hna
          exact absurd trivial hna.1

/-- C8: exhaustion symmetry.  In a state reachable from a successful
`lwmem_define_region_ex` in which every live allocation has been released
(the list of live allocations is empty), the free list is exactly the one
block `(base, tail - base)`: `head.next = base`, the header at `base` holds
`next = tail` and `size = tail - base`, the tail sentinel is intact; and
`tail`, the object and the free list are those of the state right after the
defining call. -/
theorem C8_exhaustion_symmetry (c : Config) (hc : c.WF) {base : Nat} {s : State}
    (hr : Reachable c base s []) :
    freeList c s = some [(base, s.tail - base)] ∧
    s.mem s.object = ⟨base, 0⟩ ∧ s.mem base = ⟨s.tail, s.tail - base⟩ ∧
    s.mem s.tail = ⟨0, 0⟩ ∧
    ∃ s0 start size, s0.tail = 0 ∧ (lwmem_define_region_ex c s0 start size).1 = 0 ∧
      base = LWMEM_BYTE_ALIGNMENT_UPPER c start ∧
      s.tail = (lwmem_define_region_ex c s0 start size).2.tail ∧
      s.object = (lwmem_define_region_ex c s0 start size).2.object ∧
      freeList c s = freeList c (lwmem_define_region_ex c s0 start size).2 ∧
      s.mem s.object = (lwmem_define_region_ex c s0 start size).2.mem
        (lwmem_define_region_ex c s0 start size).2.object ∧
      s.mem base = (lwmem_define_region_ex c s0 start size).2.mem base ∧
      s.mem s.tail = (lwmem_define_region_ex c s0 start size).2.mem
        (lwmem_define_region_ex c s0 start size).2.tail := by
  have key : ∀ {t : State}, Reachable c base t [] →
      freeList c t = some [(base, t.tail - base)] ∧
      t.mem t.object = ⟨base, 0⟩ ∧ t.mem base = ⟨t.tail, t.tail - base⟩ ∧
      t.mem t.tail = ⟨0, 0⟩ := by
    intro t ht
    obtain ⟨l, hinv, hperm⟩ := reach_inv c hc ht
    have hl : lives c base l = [] := List.Perm.eq_nil (hperm.symm)
    have hsingle := single_of_no_lives c hinv.nonempty hinv.noadj hl
    have htail := hinv.tail_eq
    have e : total l = t.tail - base := by omega
    rw [e] at hsingle
    have hfl := freeList_eq c hc hinv
    have hh := hinv.head
    have hf := hinv.free
    rw [hsingle] at hfl hh hf
    simp only [frees, nextFree, FreeSeg, and_true] at hfl hh hf
    exact ⟨hfl, hh, hf, hinv.tailhdr⟩
  obtain ⟨k1, k2, k3, k4⟩ := key hr
  refine ⟨k1, k2, k3, k4, ?_⟩
  obtain ⟨s0, start, size, _, _, a3, _, a5, a6, a7, a8, a9⟩ := reach_origin c hc hr
  obtain ⟨d1, d2, d3, d4⟩ := key a6
  refine ⟨s0, start, size, a3, a5, a7, a8, a9, ?_, ?_, ?_, ?_⟩
  · rw [k1, d1, a8]
  · rw [k2, d2]
  · rw [k3, d3, a8]
  · rw [k4, d4]

theorem free_eq_of_some (c : Config) (s : State) (p : Nat)
    (h : (lwmem_free_ex c s p).isSome = true) :
    lwmem_free_ex c s p = some (after_free c s p) := by
  unfold after_free
  cases hm : lwmem_free_ex c s p with
  | none => rw [hm] at h; simp at h
  | some r => rfl

theorem reach_s4 : Reachable cfg32 4096 s4 [(4420, 300), (4104, 100)] :=
  Reachable.free 4212 200 s4 reach_s3 (by decide) (free_eq_of_some cfg32 s3 4212 (by decide))

theorem reach_s5 : Reachable cfg32 4096 s5 [(4420, 300)] :=
  Reachable.free 4104 100 s5 reach_s4 (by decide) (free_eq_of_some cfg32 s4 4104 (by decide))

theorem reach_s6 : Reachable cfg32 4096 s6 [] :=
  Reachable.free 4420 300 s6 reach_s5 (by decide) (free_eq_of_some cfg32 s5 4420 (by decide))

/-- Witness for C8: the 1024-byte aligned region, allocate 100, 200, 300,
release in the order 2, 1, 3. -/
theorem C8_exhaustion_symmetry_witness :
    freeList cfg32 s6 = some [(4096, s6.tail - 4096)] ∧
    s6.mem s6.object = ⟨4096, 0⟩ ∧ s6.mem 4096 = ⟨s6.tail, s6.tail - 4096⟩ ∧
    s6.mem s6.tail = ⟨0, 0⟩ ∧
    ∃ s0 start size, s0.tail = 0 ∧ (lwmem_define_region_ex cfg32 s0 start size).1 = 0 ∧
      4096 = LWMEM_BYTE_ALIGNMENT_UPPER cfg32 start ∧
      s6.tail = (lwmem_define_region_ex cfg32 s0 start size).2.tail ∧
      s6.object = (lwmem_define_region_ex cfg32 s0 start size).2.object ∧
      freeList cfg32 s6 = freeList cfg32 (lwmem_define_region_ex cfg32 s0 start size).2 ∧
      s6.mem s6.object = (lwmem_define_region_ex cfg32 s0 start size).2.mem
        (lwmem_define_region_ex cfg32 s0 start size).2.object ∧
      s6.mem 4096 = (lwmem_define_region_ex cfg32 s0 start size).2.mem 4096 ∧
      s6.mem s6.tail = (lwmem_define_region_ex cfg32 s0 start size).2.mem
        (lwmem_define_region_ex cfg32 s0 start size).2.tail :=
  C8_exhaustion_symmetry cfg32 cfg32_WF reach_s6

end LwMEM


namespace LwMEM

theorem markFree_at (c : Config) {a : Nat} {pre post : List Blk} {xs n : Nat}
    (hp : Pos pre) :
    markFree c (a + total pre + c.B) a (pre ++ ⟨xs, some n⟩ :: post) =
      pre ++ ⟨xs, none⟩ :: post := by
  induction pre generalizing a with
  | nil => simp [markFree]
  | cons b l ih =>
    obtain ⟨ps, r⟩ := b
    rw [Pos_cons] at hp
    have hps := hp.1
    simp only at hps
    have e : a + total (⟨ps, r⟩ :: l) + c.B = a + ps + total l + c.B := by
      simp only [total_cons]; omega
    rw [e]
    cases r with
    | none =>
      simp only [List.cons_append, markFree, List.append_eq]
      rw [ih hp.2]
    | some k =>
      have hne : ¬ (a + c.B = a + ps + total l + c.B) := by omega
      simp only [List.cons_append, markFree, hne, if_false, List.append_eq]
      rw [ih hp.2]

theorem coalesce_append_congr (l1 : List Blk) {l2 l2' : List Blk}
    (h : coalesce l2 = coalesce l2') : coalesce (l1 ++ l2) = coalesce (l1 ++ l2') := by
  induction l1 with
  | nil => exact h
  | cons b l ih =>
    obtain ⟨ps, r⟩ := b
    cases r with
    | none => simp only [List.cons_append, coalesce, List.append_eq, ih]
    | some k => simp only [List.cons_append, coalesce, List.append_eq, ih]

/-- Releasing the block that first fit has just handed out restores the
layout. -/
theorem lfree_lalloc (c : Config) {base : Nat} {pre post : List Blk} {sz w n mn : Nat}
    (hp : Pos pre) (hna : NoAdj (pre ++ ⟨sz, none⟩ :: post)) (hw : w ≤ sz) :
    lfree c (base + total pre + c.B) base
      (pre ++ (if mn ≤ sz - w then ⟨w, some n⟩ :: ⟨sz - w, none⟩ :: post
        else ⟨sz, some n⟩ :: post)) = pre ++ ⟨sz, none⟩ :: post := by
  unfold lfree
  by_cases h : mn ≤ sz - w
  · simp only [h, if_true]
    rw [markFree_at c hp]
    have e : coalesce (⟨w, none⟩ :: ⟨sz - w, none⟩ :: post) = coalesce (⟨sz, none⟩ :: post) := by
      simp only [coalesce, consFree_consFree]
      have : w + (sz - w) = sz := by omega
      rw [this]
    rw [coalesce_append_congr pre e, coalesce_of_NoAdj hna]
  · simp only [h, if_false]
    rw [markFree_at c hp, coalesce_of_NoAdj hna]

/-- C9: allocate/release round trip.  On a reachable state, when
`lwmem_malloc_ex` returns a non-null `p`, `lwmem_free_ex(p)` called right
afterwards returns and yields a free list, a head sentinel and a `tail` equal
to those before the allocation, whether the chosen block was split or handed
out whole. -/
theorem C9_malloc_free_roundtrip (c : Config) (hc : c.WF) {base : Nat} {s : State}
    {L : List (Nat × Nat)} (hr : Reachable c base s L) (n p : Nat) (s1 : State)
    (hn : n < 2 ^ c.W) (hm : lwmem_malloc_ex c s n = some (p, s1)) (hp : p ≠ 0) :
    ∃ s2, lwmem_free_ex c s1 p = some s2 ∧ freeList c s2 = freeList c s ∧
      s2.mem s2.object = s.mem s.object ∧ s2.tail = s.tail := by
  obtain ⟨l, hinv, _⟩ := reach_inv c hc hr
  have hpos := Pos_of_good c hc hinv.good
  obtain ⟨_, _, x, l', hfit, hpx, hla, hinv1, ht1, _, hperm⟩ := malloc_ok_inv c hc hinv hn hm hp
  have hmem : (p, n) ∈ lives c base l' := hperm.mem_iff.2 (List.mem_cons_self _ _)
  obtain ⟨s2, q1, q2, q3, _, _⟩ := free_spec c hc hinv1 hmem
  obtain ⟨pre, sz, post, e1, e2, e3, _, e5⟩ := lfit_some (2 * c.B) n hfit
  rw [hla] at e5
  simp only [Option.some.injEq] at e5
  have hl' : lfree c p base l' = l := by
    rw [e5, hpx, e2, e1]
    rw [e1] at hpos
    exact lfree_lalloc c (Pos_append.1 hpos).1 (by rw [← e1]; exact hinv.noadj) e3
  rw [hl'] at q2
  refine ⟨s2, q1, ?_, ?_, by rw [q3, ht1]⟩
  · rw [freeList_eq c hc q2, freeList_eq c hc hinv]
  · rw [q2.head, hinv.head, q3, ht1]

/-- Witness for C9: allocate 100 bytes from the fresh region (the block is
split) and release them at once. -/
theorem C9_malloc_free_roundtrip_witness :
    ∃ s2, lwmem_free_ex cfg32 s1 4104 = some s2 ∧ freeList cfg32 s2 = freeList cfg32 sd ∧
      s2.mem s2.object = sd.mem sd.object ∧ s2.tail = sd.tail :=
  C9_malloc_free_roundtrip cfg32 cfg32_WF reach_sd 100 4104 s1 (by decide)
    (malloc_eq_of_fst cfg32 sd 100 4104 (by decide)) (by decide)

end LwMEM


namespace LwMEM

theorem coalesce_markFree_consFree (c : Config) (q a sz : Nat) (X : List Blk) :
    coalesce (markFree c q a (consFree sz X)) =
      consFree sz (coalesce (markFree c q (a + sz) X)) := by
  cases X with
  | nil => simp [consFree, markFree, coalesce]
  | cons u X' =>
    obtain ⟨us, r⟩ := u
    cases r with
    | none =>
      show consFree (sz + us) (coalesce (markFree c q (a + (sz + us)) X')) =
        consFree sz (consFree us (coalesce (markFree c q (a + sz + us) X')))
      rw [consFree_consFree, Nat.add_assoc]
    | some k =>
      simp only [consFree, markFree, coalesce]

/-- Coalescing before marking a block free does not change the coalesced
result. -/
theorem coalesce_markFree_coalesce (c : Config) (q a : Nat) (l : List Blk) :
    coalesce (markFree c q a (coalesce l)) = coalesce (markFree c q a l) := by
  induction l generalizing a with
  | nil => rfl
  | cons b l ih =>
    obtain ⟨sz, r⟩ := b
    cases r with
    | some n =>
      by_cases h : a + c.B = q
      · simp only [coalesce, markFree, h, if_true, coalesce_idem]
      · simp only [coalesce, markFree, h, if_false, ih]
    | none =>
      simp only [coalesce, markFree]
      rw [coalesce_markFree_consFree, ih]

theorem markFree_comm (c : Config) (p q a : Nat) (l : List Blk) :
    markFree c p a (markFree c q a l) = markFree c q a (markFree c p a l) := by
  induction l generalizing a with
  | nil => rfl
  | cons b l ih =>
    obtain ⟨sz, r⟩ := b
    cases r with
    | none => simp only [markFree, ih]
    | some n =>
      by_cases hp : a + c.B = p <;> by_cases hq : a + c.B = q
      · subst hp
        subst hq
        rfl
      · subst hp
        simp only [markFree, hq, if_true, if_false]
      · subst hq
        simp only [markFree, hp, if_true, if_false]
      · simp only [markFree, hp, hq, if_true, if_false, ih]

theorem markAll_cons (c : Config) (p : Nat) (ps : List Nat) (a : Nat) (l : List Blk) :
    markAll c (p :: ps) a l = markAll c ps a (markFree c p a l) := rfl

theorem coalesce_markAll_coalesce (c : Config) (ps : List Nat) (a : Nat) (l : List Blk) :
    coalesce (markAll c ps a (coalesce l)) = coalesce (markAll c ps a l) := by
  induction ps generalizing l with
  | nil => exact coalesce_idem l
  | cons q ps ih =>
    rw [markAll_cons, markAll_cons, ← ih (markFree c q a (coalesce l)),
      coalesce_markFree_coalesce, ih]

theorem markAll_perm (c : Config) {ps ps' : List Nat} (h : ps.Perm ps') (a : Nat)
    (l : List Blk) : markAll c ps a l = markAll c ps' a l := by
  unfold markAll
  exact h.foldl_eq' (fun x _ y _ z => markFree_comm c y x a z) l

/-- Releasing a list of distinct live pointers one after the other returns and
realises the coalesced layout in which all their blocks are marked free. -/
theorem free_all_spec (c : Config) (hc : c.WF) {base : Nat} (ps : List Nat) {s : State}
    {l : List Blk} (hinv : Inv c base s l) (hnd : ps.Nodup)
    (hlive : ∀ p ∈ ps, ∃ n, (p, n) ∈ lives c base l) :
    ∃ s', free_all c s ps = some s' ∧ Inv c base s' (coalesce (markAll c ps base l)) := by
  induction ps generalizing s l with
  | nil =>
    refine ⟨s, rfl, ?_⟩
    show Inv c base s (coalesce l)
    rw [coalesce_of_NoAdj hinv.noadj]
    exact hinv
  | cons p ps ih =>
    obtain ⟨n, hn⟩ := hlive p (List.mem_cons_self _ _)
    obtain ⟨s1, q1, q2, _, _, q5⟩ := free_spec c hc hinv hn
    rw [List.nodup_cons] at hnd
    have hlive' : ∀ q ∈ ps, ∃ m, (q, m) ∈ lives c base (lfree c p base l) := by
      intro q hq
      obtain ⟨m, hm⟩ := hlive q (List.mem_cons_of_mem _ hq)
      refine ⟨m, ?_⟩
      rw [q5]
      have hne : (q, m) ≠ (p, n) := by
        intro e
        simp only [Prod.mk.injEq] at e
        exact hnd.1 (e.1 ▸ hq)
      exact (List.mem_erase_of_ne hne).2 hm
    obtain ⟨s', r1, r2⟩ := ih q2 hnd.2 hlive'
    refine ⟨s', ?_, ?_⟩
    · simp only [free_all, q1, Option.some_bind]
      exact r1
    · rw [markAll_cons]
      unfold lfree at r2
      rw [coalesce_markAll_coalesce] at r2
      exact r2

/-- C10: release order does not matter.  On a reachable state, for every list
of distinct live pointers and every permutation of it, releasing the pointers
in either order returns and produces the same free list as a sequence of
`(address, size)` pairs; with the two-element list `[p, q]` and its
permutation `[q, p]` this is release(p); release(q) against
release(q); release(p). -/
theorem C10_release_order_independent (c : Config) (hc : c.WF) {base : Nat} {s : State}
    {L : List (Nat × Nat)} (hr : Reachable c base s L) (ps ps' : List Nat)
    (hnd : ps.Nodup) (hlive : ∀ p ∈ ps, ∃ n, (p, n) ∈ L) (hperm : ps.Perm ps') :
    ∃ s1 s2 fl, free_all c s ps = some s1 ∧ free_all c s ps' = some s2 ∧
      freeList c s1 = some fl ∧ freeList c s2 = some fl := by
  obtain ⟨l, hinv, hL⟩ := reach_inv c hc hr
  have h1 : ∀ p ∈ ps, ∃ n, (p, n) ∈ lives c base l := fun p hp => by
    obtain ⟨n, hn⟩ := hlive p hp
    exact ⟨n, hL.mem_iff.1 hn⟩
  have h2 : ∀ p ∈ ps', ∃ n, (p, n) ∈ lives c base l := fun p hp =>
    h1 p (hperm.mem_iff.2 hp)
  obtain ⟨s1, a1, a2⟩ := free_all_spec c hc ps hinv hnd h1
  obtain ⟨s2, b1, b2⟩ := free_all_spec c hc ps' hinv (hperm.nodup_iff.1 hnd) h2
  rw [← markAll_perm c hperm] at b2
  exact ⟨s1, s2, _, a1, b1, freeList_eq c hc a2, freeList_eq c hc b2⟩

/-- Witness for C10: the three address-adjacent allocations of the scenario,
released in the orders 1, 2, 3 and 3, 1, 2. -/
theorem C10_release_order_independent_witness :
    ∃ t1 t2 fl, free_all cfg32 s3 [4104, 4212, 4420] = some t1 ∧
      free_all cfg32 s3 [4420, 4104, 4212] = some t2 ∧
      freeList cfg32 t1 = some fl ∧ freeList cfg32 t2 = some fl :=
  C10_release_order_independent cfg32 cfg32_WF reach_s3 [4104, 4212, 4420] [4420, 4104, 4212]
    (by decide)
    (fun p hp => by
      simp only [List.mem_cons, List.mem_singleton, List.not_mem_nil, or_false] at hp
      rcases hp with h | h | h
      · exact ⟨100, by rw [h]; decide⟩
      · exact ⟨200, by rw [h]; decide⟩
      · exact ⟨300, by rw [h]; decide⟩)
    (by decide)

end LwMEM


namespace LwMEM

theorem FreeSeg_consFree_size {m : Mem} {a xs nx : Nat} {post : List Blk}
    (h : FreeSeg m a (consFree xs post) nx) : (m a).size ≤ xs + total post := by
  cases post with
  | nil =>
    simp only [consFree, FreeSeg] at h
    rw [h.1]
    simp
  | cons u post' =>
    obtain ⟨us, r⟩ := u
    cases r with
    | none =>
      simp only [consFree, FreeSeg] at h
      rw [h.1]
      simp only [total_cons]
      omega
    | some k =>
      simp only [consFree, FreeSeg] at h
      rw [h.1]
      simp

/-- The header of the block handed to `_lwmem_insert_block` keeps a size
without the allocated bit: it is left alone by a merge into the low-address
neighbour and holds the merged length otherwise. -/
theorem insert_block_size (c : Config) {s : State} {base : Nat} {pre post : List Blk}
    {xs r : Nat}
    (hp : Pos (pre ++ ⟨xs, some r⟩ :: post))
    (ht : s.tail = base + total (pre ++ ⟨xs, some r⟩ :: post))
    (htl : s.tail < 2 ^ c.W) (hobj : s.object < base ∨ s.tail < s.object)
    (hol : s.object < 2 ^ c.W)
    (hh : s.mem s.object = ⟨nextFree base (pre ++ ⟨xs, some r⟩ :: post) s.tail, 0⟩)
    (hf : FreeSeg s.mem base (pre ++ ⟨xs, some r⟩ :: post) s.tail)
    (hx : (s.mem (base + total pre)).size = xs) :
    ∃ m', lwmem_insert_block c s (base + total pre) = some { s with mem := m' } ∧
      (m' (base + total pre)).size ≤ xs + total post := by
  have hloop := insert_loop_found c hp ht htl (by rw [hh]) hf
  refine ⟨insert_link c s.mem s.tail (lastFree s.object base pre) (base + total pre), ?_, ?_⟩
  · simp only [lwmem_insert_block, hloop.1]
  rcases List.eq_nil_or_concat pre with e | ⟨pre', b, e⟩
  · subst e
    have := (insert_caseN c hp ht htl hobj hol hh hf hx hloop.2 (Or.inl rfl)).1
    simp only [List.nil_append, total_nil, Nat.add_zero] at this ⊢
    exact FreeSeg_consFree_size this
  · rw [List.concat_eq_append] at e
    subst e
    obtain ⟨ps, pr⟩ := b
    cases pr with
    | some n =>
      have hp' := hp
      rw [Pos_append, Pos_append, Pos_cons] at hp'
      have hf' := hf
      rw [FreeSeg_append, FreeSeg_append] at hf'
      have hN := lastFree_end_le (d := s.object) hf'.1.1 hp'.1.1
      have hps := hp'.1.2.1
      simp only at hps
      have := (insert_caseN c hp ht htl hobj hol hh hf hx hloop.2 (by
        rw [lastFree_snoc_used]
        rcases hN with e | e
        · left; exact e
        · right
          simp only [total_append, total_cons, total_nil]
          omega)).1
      rw [FreeSeg_append] at this
      exact FreeSeg_consFree_size this.2
    | none =>
      have hp' := hp
      rw [Pos_append, Pos_append, Pos_cons] at hp'
      have hps := hp'.1.2.1
      simp only at hps
      simp only [List.append_assoc, List.singleton_append] at hp ht hh hf
      simp only [total_append, total_cons, total_nil, Nat.add_zero, lastFree_snoc_free] at hx ⊢
      rw [← Nat.add_assoc] at hx ⊢
      obtain ⟨_, _, q3⟩ := insert_caseL c hp ht htl hobj hh hf hx
      rw [q3 (base + total pre' + ps) (by omega), hx]
      omega

/-- After `lwmem_free_ex` of a live pointer, the header of its block holds a
size below `2 ^ (W - 1)`. -/
theorem free_header (c : Config) (hc : c.WF) {base : Nat} {s : State} {l : List Blk}
    (hinv : Inv c base s l) {p n : Nat} (hmem : (p, n) ∈ lives c base l) {s' : State}
    (hfree : lwmem_free_ex c s p = some s') :
    LWMEM_GET_BLOCK_FROM_POINTER c p = p - c.B ∧ p ≠ 0 ∧
      (s'.mem (p - c.B)).size < 2 ^ (c.W - 1) := by
  have hpos := Pos_of_good c hc hinv.good
  obtain ⟨pre, xs, post, hl, hpx, hmark, hlive⟩ := lives_split c hpos hmem
  have hB := B_pos c hc
  have hM := two_pow_W c hc
  have htail := hinv.tail_eq
  have hspan := hinv.span
  have hfree' := hinv.free
  have hused := hinv.used
  have hhead := hinv.head
  have hobj := hinv.obj
  have hol := hinv.obj_lt
  have htl := hinv.tail_lt
  have hgood := hinv.good
  subst hl
  have hxg := (hgood ⟨xs, some n⟩ (by simp)).2.1
  have hpos' := hpos
  rw [Pos_append, Pos_cons] at hpos'
  obtain ⟨hp1, hp2, hp3⟩ := hpos'
  simp only at hp2 hxg
  have htail' := htail
  simp only [total_append, total_cons] at htail' hspan
  have hux := hused
  rw [UsedSeg_append] at hux
  simp only [UsedSeg] at hux
  have g1 : ¬ (p = 0) := by omega
  have g2 : ¬ (s.tail = 0) := by omega
  have g3 : LWMEM_GET_BLOCK_FROM_POINTER c p = base + total pre := by
    unfold LWMEM_GET_BLOCK_FROM_POINTER
    rw [wsub_eq c (by omega) (by omega)]; omega
  have g4 : ¬ (c.verify = true ∧ ¬ (base + total pre ≥ s.start ∧ base + total pre < s.tail)) := by
    rintro ⟨hv, hn⟩
    apply hn
    rw [hinv.start hv]
    omega
  have g5 : (s.mem (base + total pre)).size &&& LWMEM_BLOCK_SIZE_ALLOCATED_BITMASK c ≠ 0 := by
    rw [hux.2.1]
    exact (and_mask_ne_zero c hc (by omega)).2 (by omega)
  have g6 : (s.mem (base + total pre)).size &&& wnot c (LWMEM_BLOCK_SIZE_ALLOCATED_BITMASK c) =
      xs := by
    rw [hux.2.1, and_not_mask c hc, Nat.add_mod_right, Nat.mod_eq_of_lt (by omega)]
  have hfe : lwmem_free_ex c s p = lwmem_insert_block c
      { s with mem := setSize s.mem (base + total pre) xs } (base + total pre) := by
    simp only [lwmem_free_ex, g1, g2, g3, g4, g5, g6, if_false, ne_eq, not_false_eq_true, if_true]
  have hne : s.object ≠ base + total pre := by omega
  have hframe1 : FreeSeg (setSize s.mem (base + total pre) xs) base
      (pre ++ ⟨xs, some n⟩ :: post) s.tail := by
    refine FreeSeg_frame2 (2 ^ (c.W - 1)) hpos (by simpa using hspan) (fun y _ _ h3 => ?_) hfree'
    have : y ≠ base + total pre := by
      intro e; rw [e, hux.2.1] at h3; omega
    exact setSize_other _ _ this
  obtain ⟨m', hi1, hi2⟩ := insert_block_size c
    (s := { s with mem := setSize s.mem (base + total pre) xs }) (r := n) hpos htail htl hobj hol
    (by simp only [setSize_other _ _ hne]; exact hhead) hframe1 (by simp)
  dsimp only at hi1 hi2
  rw [hfe, hi1] at hfree
  have hs := Option.some.inj hfree
  subst hs
  have hpb : p - c.B = base + total pre := by omega
  refine ⟨by rw [g3, hpb], g1, ?_⟩
  rw [hpb]
  dsimp only
  omega

/-- C11: a detectable double free is a no-op.  On a reachable state, for a
live payload `p`: the first `lwmem_free_ex(p)` returns a state in which the
header at `p - B` has the allocated bit clear, and a second `lwmem_free_ex(p)`
on that state returns it unchanged (object, tail and every block header),
whatever merges the first release performed. -/
theorem C11_double_free_noop (c : Config) (hc : c.WF) {base : Nat} {s : State}
    {L : List (Nat × Nat)} (hr : Reachable c base s L) (p n : Nat) (hmem : (p, n) ∈ L) :
    ∃ s1, lwmem_free_ex c s p = some s1 ∧
      (s1.mem (p - c.B)).size &&& LWMEM_BLOCK_SIZE_ALLOCATED_BITMASK c = 0 ∧
      lwmem_free_ex c s1 p = some s1 := by
  obtain ⟨l, hinv, hperm⟩ := reach_inv c hc hr
  have hl := hperm.mem_iff.1 hmem
  obtain ⟨s1, q1, _⟩ := free_spec c hc hinv hl
  obtain ⟨h1, h2, h3⟩ := free_header c hc hinv hl q1
  have hM := two_pow_W c hc
  have hbit : (s1.mem (p - c.B)).size &&& LWMEM_BLOCK_SIZE_ALLOCATED_BITMASK c = 0 := by
    by_contra hne
    have := (and_mask_ne_zero c hc (by omega)).1 hne
    omega
  refine ⟨s1, q1, hbit, ?_⟩
  simp only [lwmem_free_ex, h1, h2, hbit, ne_eq, not_true_eq_false, if_false, ite_self]

/-- Witness for C11: in the scenario, after the second allocation was
released, releasing the first one merges it with its upper neighbour; a second
release of it changes nothing. -/
theorem C11_double_free_noop_witness :
    ∃ t, lwmem_free_ex cfg32 s4 4104 = some t ∧
      (t.mem (4104 - cfg32.B)).size &&& LWMEM_BLOCK_SIZE_ALLOCATED_BITMASK cfg32 = 0 ∧
      lwmem_free_ex cfg32 t 4104 = some t :=
  C11_double_free_noop cfg32 cfg32_WF reach_s4 4104 100 (by decide)

end LwMEM


namespace LwMEM

/-- C12: a region can be defined only once.  On an active object
(`tail != NULL`), `lwmem_define_region_ex` returns `1` and the state after the
call is the state before: head, tail, the free list and every block header. -/
theorem C12_define_once (c : Config) (s : State) (start size : Nat) (h : s.tail ≠ 0) :
    lwmem_define_region_ex c s start size = (1, s) ∧
      freeList c (lwmem_define_region_ex c s start size).2 = freeList c s := by
  have e : lwmem_define_region_ex c s start size = (1, s) := by
    simp only [lwmem_define_region_ex, h, ne_eq, not_false_eq_true, if_true]
  rw [e]
  exact ⟨rfl, rfl⟩

/-- Witness for C12: a second definition on the object of the 1024-byte
region. -/
theorem C12_define_once_witness :
    lwmem_define_region_ex cfg32 sd 8192 512 = (1, sd) ∧
      freeList cfg32 (lwmem_define_region_ex cfg32 sd 8192 512).2 = freeList cfg32 sd :=
  C12_define_once cfg32 sd 8192 512 (by decide)

/-- `lwmem_free_ex` on an inactive object does nothing. -/
theorem free_inactive (c : Config) (s : State) (p : Nat) (h : s.tail = 0) :
    lwmem_free_ex c s p = some s := by
  simp only [lwmem_free_ex, h, if_true, ite_self]

/-- The `tail` member after `lwmem_define_region_ex` failed is the one before
the call. -/
theorem define_fail_tail (c : Config) (s : State) (start size : Nat)
    (hret : (lwmem_define_region_ex c s start size).1 = 1) :
    (lwmem_define_region_ex c s start size).2.tail = s.tail := by
  unfold lwmem_define_region_ex at hret ⊢
  by_cases h : s.tail = 0
  · simp only [h, ne_eq, not_true_eq_false, if_false] at hret ⊢
    split_ifs at hret ⊢ <;> rfl
  · simp only [h, ne_eq, not_false_eq_true, if_true]

/-- C13: a failed initialization leaves the object inactive.  On an inactive
object (`tail == NULL`), when `lwmem_define_region_ex` returns `1`, `tail` is
`NULL` afterwards; a following `lwmem_malloc_ex` returns `NULL` and a following
`lwmem_free_ex` returns, both without changing the state. -/
theorem C13_failed_define_inactive (c : Config) (s : State) (start size : Nat)
    (h : s.tail = 0) (hret : (lwmem_define_region_ex c s start size).1 = 1) :
    (lwmem_define_region_ex c s start size).2.tail = 0 ∧
    (∀ n, lwmem_malloc_ex c (lwmem_define_region_ex c s start size).2 n =
      some (0, (lwmem_define_region_ex c s start size).2)) ∧
    (∀ p, lwmem_free_ex c (lwmem_define_region_ex c s start size).2 p =
      some (lwmem_define_region_ex c s start size).2) := by
  have ht : (lwmem_define_region_ex c s start size).2.tail = 0 := by
    rw [define_fail_tail c s start size hret, h]
  exact ⟨ht, fun n => malloc_inactive c _ n ht, fun p => free_inactive c _ p ht⟩

/-- Witness for C13: a region of 4 bytes is too small. -/
theorem C13_failed_define_inactive_witness :
    (lwmem_define_region_ex cfg32 s0 4096 4).2.tail = 0 ∧
    (∀ n, lwmem_malloc_ex cfg32 (lwmem_define_region_ex cfg32 s0 4096 4).2 n =
      some (0, (lwmem_define_region_ex cfg32 s0 4096 4).2)) ∧
    (∀ p, lwmem_free_ex cfg32 (lwmem_define_region_ex cfg32 s0 4096 4).2 p =
      some (lwmem_define_region_ex cfg32 s0 4096 4).2) :=
  C13_failed_define_inactive cfg32 s0 4096 4 (by decide) (by decide)

/-- C14: the managed window and wrap-around.  In the 32-bit default build, for
the unaligned `start = 0xFFFFFFFE` and `size = 1026`, `start + A - 1` wraps:
`lwmem_define_region_ex` returns `0` with `head.next = base = 0` (the aligned
address wrapped to `NULL`, which is below `start`, while `align_up(start)` in
unbounded integers is `2 ^ 32`), the first block at address `0` spans 1016
bytes and `tail = 1016`.  For the aligned `start = 0xFFFFFFFC` and
`size = 1028`, a range that wraps in the same way, the range check of the
function returns `1`. -/
theorem C14_define_region_wrap :
    (lwmem_define_region_ex cfg32 sw 4294967294 1026).1 = 0 ∧
    LWMEM_BYTE_ALIGNMENT_UPPER cfg32 4294967294 = 0 ∧
    align_up cfg32 4294967294 = 2 ^ 32 ∧
    ((lwmem_define_region_ex cfg32 sw 4294967294 1026).2.mem sw.object).next = 0 ∧
    (lwmem_define_region_ex cfg32 sw 4294967294 1026).2.mem 0 = ⟨1016, 1016⟩ ∧
    (lwmem_define_region_ex cfg32 sw 4294967294 1026).2.tail = 1016 ∧
    ¬ (4294967294 ≤ ((lwmem_define_region_ex cfg32 sw 4294967294 1026).2.mem sw.object).next) ∧
    (lwmem_define_region_ex cfg32 sw 4294967292 1028).1 = 1 := by
  decide

/-- When the rounding of `start` does not wrap (`start + A - 1 < 2 ^ W`), a
successful `lwmem_define_region_ex` keeps the window inside the range of the
caller, in unbounded integers: `start <= base = align_up(start)` and
`tail + B <= start + size`. -/
theorem define_window_nowrap (c : Config) (hc : c.WF) (s : State) {start size : Nat}
    (h1 : start < 2 ^ c.W) (h2 : size < 2 ^ c.W) (ho : s.object < 2 ^ c.W)
    (h3 : s.tail = 0) (hout : ObjectOutside c s start size)
    (hret : (lwmem_define_region_ex c s start size).1 = 0)
    (hw : start + c.A - 1 < 2 ^ c.W) :
    start ≤ LWMEM_BYTE_ALIGNMENT_UPPER c start ∧
    LWMEM_BYTE_ALIGNMENT_UPPER c start = align_up c start ∧
    (lwmem_define_region_ex c s start size).2.tail + c.B ≤ start + size := by
  have hM := two_pow_W c hc
  have hB := B_spec c hc
  obtain ⟨_, hh1, hh2, _⟩ := id hc
  obtain ⟨_, d2, _⟩ := define_state c hc s h1 h2 ho h3 hout hret
  have hk1 : ¬ (LWMEM_BYTE_ALIGNMENT_UPPER c start > wadd c start size) := by
    intro h
    simp only [lwmem_define_region_ex, h3, ne_eq, not_true_eq_false, if_false, h, if_true] at hret
    exact absurd hret (by decide)
  have hk2 : ¬ (LWMEM_BYTE_ALIGNMENT_LOWER c
      (wsub c size (wsub c (LWMEM_BYTE_ALIGNMENT_UPPER c start) start)) <
        (2 * LWMEM_BYTE_ALIGNMENT_UPPER c c.hsz) % 2 ^ c.W) := by
    intro h
    simp only [lwmem_define_region_ex, h3, ne_eq, not_true_eq_false, if_false, hk1, h,
      if_true] at hret
    exact absurd hret (by decide)
  have hBdef : LWMEM_BYTE_ALIGNMENT_UPPER c c.hsz = c.B := rfl
  rw [hBdef, Nat.mod_eq_of_lt (show 2 * c.B < 2 ^ c.W by omega)] at hk2
  obtain ⟨_, hb2, hb3⟩ := UPPER_spec c hc hw
  refine ⟨hb2, UPPER_eq_align_up c hc hw, ?_⟩
  rw [d2]
  generalize LWMEM_BYTE_ALIGNMENT_UPPER c start = base at *
  have hs : start + size < 2 ^ c.W := by
    by_contra hge
    rw [wadd_wrap c (by omega) (by omega)] at hk1
    omega
  rw [wadd_eq c hs] at hk1 ⊢
  rw [wsub_eq c hb2 (by omega), wsub_eq c (by omega) h2] at hk2
  have hle := LOWER_le c hc (show size - (base - start) < 2 ^ c.W by omega)
  rw [wsub_eq c (by omega) hs]
  have := LOWER_le c hc (show start + size - c.B < 2 ^ c.W by omega)
  omega

theorem wsub_self (c : Config) (a : Nat) : wsub c a a = 0 := by
  unfold wsub
  have hp : 0 < 2 ^ c.W := Nat.pos_pow_of_pos _ (by decide)
  have hd := Nat.div_add_mod a (2 ^ c.W)
  have hr := Nat.mod_lt a hp
  have e : a + (2 ^ c.W - a % 2 ^ c.W) = 2 ^ c.W * (a / 2 ^ c.W + 1) := by
    rw [Nat.mul_add, Nat.mul_one]; omega
  rw [e, Nat.mul_mod_right]

/-- C15 fails as stated: in the 32-bit default build, on the inactive object
`s0` with `start = 0x1000` and `size = 0xC0000000`, the first block would have
the allocated bit set; `lwmem_define_region_ex` returns `1`, and the head
sentinel, the header at `base` and the header at the candidate tail are not
what they were before the call. -/
theorem C15_define_failure_counterexample :
    (lwmem_define_region_ex cfg32 s0 4096 3221225472).1 = 1 ∧
    (lwmem_define_region_ex cfg32 s0 4096 3221225472).2.mem s0.object ≠ s0.mem s0.object ∧
    (lwmem_define_region_ex cfg32 s0 4096 3221225472).2.mem 4096 ≠ s0.mem 4096 := by
  decide

/-- C15, amended: the effect of a failed `lwmem_define_region_ex`, with
`a = LWMEM_BYTE_ALIGNMENT_UPPER(start)` the aligned base and `T` the candidate
tail address.  When the call returns `1`: an active object is left wholly
untouched.  On an inactive object `tail` stays `NULL` and the object address
and `start` member are unchanged, and
* when the failure is the range check or the size check, the head sentinel
  holds `(a, 0)` and every other header is the one before the call;
* when the failure is the allocated-bit check, so that `T - a` has its top bit
  set, and the object lies neither at `a` nor at `T`, the head sentinel holds
  `(a, 0)`, the header at `a` holds `(T, T - a)`, the header at `T` holds
  `(NULL, 0)`, and every other header is the one before the call. -/
theorem C15_define_failure_effect (c : Config) (s : State) (start size a T : Nat)
    (ha : a = LWMEM_BYTE_ALIGNMENT_UPPER c start)
    (hT : T = LWMEM_BYTE_ALIGNMENT_LOWER c (wsub c (wadd c a (wsub c size (wsub c a start)))
      (LWMEM_BYTE_ALIGNMENT_UPPER c c.hsz)))
    (hret : (lwmem_define_region_ex c s start size).1 = 1) :
    (s.tail ≠ 0 → (lwmem_define_region_ex c s start size).2 = s) ∧
    (s.tail = 0 →
      (lwmem_define_region_ex c s start size).2.tail = 0 ∧
      (lwmem_define_region_ex c s start size).2.object = s.object ∧
      (lwmem_define_region_ex c s start size).2.start = s.start ∧
      ((a > wadd c start size ∨
          LWMEM_BYTE_ALIGNMENT_LOWER c (wsub c size (wsub c a start)) <
            (2 * LWMEM_BYTE_ALIGNMENT_UPPER c c.hsz) % 2 ^ c.W) →
        (lwmem_define_region_ex c s start size).2.mem s.object = ⟨a, 0⟩ ∧
        ∀ x, x ≠ s.object → (lwmem_define_region_ex c s start size).2.mem x = s.mem x) ∧
      (¬ (a > wadd c start size) →
        ¬ (LWMEM_BYTE_ALIGNMENT_LOWER c (wsub c size (wsub c a start)) <
            (2 * LWMEM_BYTE_ALIGNMENT_UPPER c c.hsz) % 2 ^ c.W) →
        s.object ≠ a → s.object ≠ T →
        wsub c T a &&& LWMEM_BLOCK_SIZE_ALLOCATED_BITMASK c ≠ 0 ∧
        (lwmem_define_region_ex c s start size).2.mem s.object = ⟨a, 0⟩ ∧
        (lwmem_define_region_ex c s start size).2.mem a = ⟨T, wsub c T a⟩ ∧
        (lwmem_define_region_ex c s start size).2.mem T = ⟨0, 0⟩ ∧
        ∀ x, x ≠ s.object → x ≠ a → x ≠ T →
          (lwmem_define_region_ex c s start size).2.mem x = s.mem x)) := by
  by_cases h : s.tail = 0
  · refine ⟨fun h' => absurd h h', fun _ => ⟨?_, ?_, ?_, ?_, ?_⟩⟩
    · rw [define_fail_tail c s start size hret, h]
    · simp only [lwmem_define_region_ex]
      split_ifs <;> rfl
    · simp only [lwmem_define_region_ex] at hret ⊢
      split_ifs at hret ⊢ <;> rfl
    · intro hor
      subst ha
      have key : lwmem_define_region_ex c s start size =
          (1, { s with mem := setSize (setNext s.mem s.object
            (LWMEM_BYTE_ALIGNMENT_UPPER c start)) s.object 0 }) := by
        by_cases hk1 : LWMEM_BYTE_ALIGNMENT_UPPER c start > wadd c start size
        · simp only [lwmem_define_region_ex, h, ne_eq, not_true_eq_false, if_false, hk1, if_true]
        · rcases hor with hk | hk
          · exact absurd hk hk1
          · simp only [lwmem_define_region_ex, h, ne_eq, not_true_eq_false, if_false, hk1, hk,
              if_true]
      rw [key]
      refine ⟨by simp [setSize_apply, setNext_apply], fun x hx => ?_⟩
      simp only [setSize_apply, setNext_apply, hx, if_false]
    · intro hk1 hk2 ho1 ho2
      simp only [lwmem_define_region_ex, h, ne_eq, not_true_eq_false, if_false] at hret ⊢
      rw [← ha] at hret ⊢
      simp only [hk1, hk2, if_false] at hret ⊢
      rw [← hT] at hret ⊢
      simp only [setSize_apply, setNext_apply, ho1, ho2, if_true, if_false] at hret ⊢
      by_cases hbit : wsub c T a &&& LWMEM_BLOCK_SIZE_ALLOCATED_BITMASK c = 0
      · simp only [hbit, not_true_eq_false, if_false] at hret
        exact absurd hret (by decide)
      · have hTa : ¬ (T = a) := by
          intro e
          rw [e, wsub_self, Nat.zero_and] at hbit
          exact hbit rfl
        have haT : ¬ (a = T) := fun e => hTa e.symm
        have ho1' : ¬ (a = s.object) := fun e => ho1 e.symm
        have ho2' : ¬ (T = s.object) := fun e => ho2 e.symm
        simp only [hbit, not_false_eq_true, if_true, setSize_apply, setNext_apply, ho1, ho2,
          hTa, haT, ho1', ho2', if_false, true_and]
        intro x h1 h2 h3
        simp only [h1, h2, h3, if_false]
  · have e : lwmem_define_region_ex c s start size = (1, s) := by
      simp only [lwmem_define_region_ex, h, ne_eq, not_false_eq_true, if_true]
    rw [e]
    exact ⟨fun _ => rfl, fun h' => absurd h' h⟩

/-- Witness for C15: the failure on the allocated-bit check, `start = 0x1000`
and `size = 0xC0000000` on the inactive object `s0`, with aligned base `0x1000`
and candidate tail `0xC0000FF8`. -/
theorem C15_define_failure_effect_witness :
    (s0.tail ≠ 0 → (lwmem_define_region_ex cfg32 s0 4096 3221225472).2 = s0) ∧
    (s0.tail = 0 →
      (lwmem_define_region_ex cfg32 s0 4096 3221225472).2.tail = 0 ∧
      (lwmem_define_region_ex cfg32 s0 4096 3221225472).2.object = s0.object ∧
      (lwmem_define_region_ex cfg32 s0 4096 3221225472).2.start = s0.start ∧
      ((4096 > wadd cfg32 4096 3221225472 ∨
          LWMEM_BYTE_ALIGNMENT_LOWER cfg32 (wsub cfg32 3221225472 (wsub cfg32 4096 4096)) <
            (2 * LWMEM_BYTE_ALIGNMENT_UPPER cfg32 cfg32.hsz) % 2 ^ cfg32.W) →
        (lwmem_define_region_ex cfg32 s0 4096 3221225472).2.mem s0.object = ⟨4096, 0⟩ ∧
        ∀ x, x ≠ s0.object →
          (lwmem_define_region_ex cfg32 s0 4096 3221225472).2.mem x = s0.mem x) ∧
      (¬ (4096 > wadd cfg32 4096 3221225472) →
        ¬ (LWMEM_BYTE_ALIGNMENT_LOWER cfg32 (wsub cfg32 3221225472 (wsub cfg32 4096 4096)) <
            (2 * LWMEM_BYTE_ALIGNMENT_UPPER cfg32 cfg32.hsz) % 2 ^ cfg32.W) →
        s0.object ≠ 4096 → s0.object ≠ 3221229560 →
        wsub cfg32 3221229560 4096 &&& LWMEM_BLOCK_SIZE_ALLOCATED_BITMASK cfg32 ≠ 0 ∧
        (lwmem_define_region_ex cfg32 s0 4096 3221225472).2.mem s0.object = ⟨4096, 0⟩ ∧
        (lwmem_define_region_ex cfg32 s0 4096 3221225472).2.mem 4096 =
          ⟨3221229560, wsub cfg32 3221229560 4096⟩ ∧
        (lwmem_define_region_ex cfg32 s0 4096 3221225472).2.mem 3221229560 = ⟨0, 0⟩ ∧
        ∀ x, x ≠ s0.object → x ≠ 4096 → x ≠ 3221229560 →
          (lwmem_define_region_ex cfg32 s0 4096 3221225472).2.mem x = s0.mem x)) :=
  C15_define_failure_effect cfg32 s0 4096 3221225472 4096 3221229560 (by decide) (by decide)
    (by decide)

end LwMEM


namespace LwMEM

/-- The free blocks of a layout, as read from memory: each lies inside the
layout and its header holds its length. -/
theorem frees_mem_hdr {m : Mem} {a : Nat} {l : List Blk} {nx : Nat} (h : FreeSeg m a l nx)
    {e : Nat × Nat} (he : e ∈ frees a l) :
    (m e.1).size = e.2 ∧ a ≤ e.1 ∧ e.1 + e.2 ≤ a + total l := by
  induction l generalizing a with
  | nil => simp [frees] at he
  | cons b l ih =>
    obtain ⟨sz, r⟩ := b
    cases r with
    | some k =>
      simp only [frees] at he
      simp only [FreeSeg] at h
      have := ih h he
      simp only [total_cons]
      omega
    | none =>
      simp only [frees, List.mem_cons] at he
      simp only [FreeSeg] at h
      rcases he with he | he
      · rw [he]
        simp only [total_cons]
        rw [h.1]
        exact ⟨rfl, Nat.le_refl _, by omega⟩
      · have := ih h.2 he
        simp only [total_cons]
        omega

theorem frees_lt {a : Nat} {l : List Blk} (hp : Pos l) :
    (frees a l).Pairwise (fun e1 e2 => e1.1 < e2.1) := by
  refine (frees_sorted hp).1.imp_of_mem ?_
  intro e1 e2 h1 _ h
  have := hp _ (frees_mem_blk h1)
  simp only at this
  omega

/-- The position loop of `_lwmem_insert_block` stops within its budget for
every block address that is not above the end of the list. -/
theorem insert_loop_total {m : Mem} {x : Nat} {a : Nat} {l : List Blk} {nx : Nat}
    (h : FreeSeg m a l nx) (hx : x ≤ nx) (d fuel : Nat) (hfuel : freeCount l < fuel)
    (hdn : (m d).next = nextFree a l nx) :
    ∃ r, insert_loop m x fuel d = some r := by
  induction l generalizing a d fuel with
  | nil =>
    obtain ⟨k, rfl⟩ : ∃ k, fuel = k + 1 := ⟨fuel - 1, by omega⟩
    simp only [nextFree] at hdn
    refine ⟨d, ?_⟩
    simp only [insert_loop, hdn, show ¬ (nx < x) by omega, if_false]
  | cons b l ih =>
    obtain ⟨sz, r⟩ := b
    cases r with
    | some k =>
      simp only [FreeSeg] at h
      simp only [nextFree] at hdn
      simp only [freeCount] at hfuel
      exact ih h d fuel hfuel hdn
    | none =>
      simp only [FreeSeg] at h
      simp only [nextFree] at hdn
      simp only [freeCount] at hfuel
      obtain ⟨k, rfl⟩ : ∃ k, fuel = k + 1 := ⟨fuel - 1, by omega⟩
      by_cases hlt : a < x
      · obtain ⟨r, hr⟩ := ih h.2 a k (by omega) (by rw [h.1])
        refine ⟨r, ?_⟩
        simp only [insert_loop, hdn, hlt, if_true]
        exact hr
      · refine ⟨d, ?_⟩
        simp only [insert_loop, hdn, hlt, if_false]

/-- The search loop of `_lwmem_alloc` stops within its budget. -/
theorem alloc_loop_total (c : Config) (hc : c.WF) {base : Nat} {s : State} {l : List Blk}
    (hinv : Inv c base s l) (w : Nat) :
    ∃ r, alloc_loop s.mem s.tail w (2 ^ c.W) s.object (s.mem s.object).next = some r := by
  by_cases hw : w = 0
  · subst hw
    obtain ⟨k, hk⟩ : ∃ k, 2 ^ c.W = k + 1 :=
      ⟨2 ^ c.W - 1, by have := Nat.pos_pow_of_pos c.W (show 0 < 2 by decide); omega⟩
    rw [hk]
    exact ⟨(s.object, (s.mem s.object).next), by simp [alloc_loop]⟩
  · have hs := alloc_loop_spec c hc hinv (show 0 < w by omega)
    cases hfit : lfit w base l with
    | none =>
      obtain ⟨prev, hp⟩ := hs.2 (lfit_none 0 0 hfit).1
      exact ⟨_, hp⟩
    | some x =>
      obtain ⟨pre, sz, post, hl, _, hsz, hsmall, _⟩ := lfit_some 0 0 hfit
      exact ⟨_, hs.1 pre sz post hl hsz hsmall⟩

/-- C16: the shape of the free list.  In every reachable state the walk from
`head.next` along `next` ends at `tail` within the step budget; the nodes it
visits are at strictly increasing addresses inside `[base, tail)`, and each has
the allocated bit clear; the tail sentinel holds `next = NULL`, `size = 0` and
`tail` is the address set by the defining call; the search loop of
`_lwmem_alloc` stops for every size and the position loop of
`_lwmem_insert_block` stops for every block address up to `tail`. -/
theorem C16_free_list_shape (c : Config) (hc : c.WF) {base : Nat} {s : State}
    {L : List (Nat × Nat)} (hr : Reachable c base s L) :
    ∃ fl, freeList c s = some fl ∧
      fl.Pairwise (fun e1 e2 => e1.1 < e2.1) ∧
      (∀ e ∈ fl, base ≤ e.1 ∧ e.1 < s.tail ∧ (s.mem e.1).size = e.2 ∧
        (s.mem e.1).size &&& LWMEM_BLOCK_SIZE_ALLOCATED_BITMASK c = 0) ∧
      s.mem s.tail = ⟨0, 0⟩ ∧
      (∃ s0 start size, s0.tail = 0 ∧ (lwmem_define_region_ex c s0 start size).1 = 0 ∧
        s.tail = (lwmem_define_region_ex c s0 start size).2.tail) ∧
      (∀ size, ∃ r, alloc_loop s.mem s.tail size (2 ^ c.W) s.object (s.mem s.object).next =
        some r) ∧
      (∀ block, block ≤ s.tail → ∃ r, insert_loop s.mem block (2 ^ c.W) s.object = some r) := by
  obtain ⟨l, hinv, _⟩ := reach_inv c hc hr
  have hpos := Pos_of_good c hc hinv.good
  have hM := two_pow_W c hc
  have hspan := hinv.span
  have htail := hinv.tail_eq
  obtain ⟨s0, start, size, _, _, o3, _, o5, _, _, o8, _⟩ := reach_origin c hc hr
  refine ⟨frees base l, freeList_eq c hc hinv, frees_lt hpos, ?_, hinv.tailhdr,
    ⟨s0, start, size, o3, o5, o8⟩, fun w => alloc_loop_total c hc hinv w, ?_⟩
  · intro e he
    obtain ⟨h1, h2, h3⟩ := frees_mem_hdr hinv.free he
    have h4 := hpos _ (frees_mem_blk he)
    simp only at h4
    refine ⟨h2, by omega, h1, ?_⟩
    by_contra hne
    have := (and_mask_ne_zero c hc (by omega)).1 hne
    omega
  · intro block hb
    have hfc := freeCount_le_total hpos
    exact insert_loop_total hinv.free hb s.object (2 ^ c.W) (by omega) (by rw [hinv.head])

/-- Witness for C16: the scenario after the second of three allocations was
released, with two nodes on the free list. -/
theorem C16_free_list_shape_witness :
    ∃ fl, freeList cfg32 s4 = some fl ∧
      fl.Pairwise (fun e1 e2 => e1.1 < e2.1) ∧
      (∀ e ∈ fl, 4096 ≤ e.1 ∧ e.1 < s4.tail ∧ (s4.mem e.1).size = e.2 ∧
        (s4.mem e.1).size &&& LWMEM_BLOCK_SIZE_ALLOCATED_BITMASK cfg32 = 0) ∧
      s4.mem s4.tail = ⟨0, 0⟩ ∧
      (∃ s0 start size, s0.tail = 0 ∧ (lwmem_define_region_ex cfg32 s0 start size).1 = 0 ∧
        s4.tail = (lwmem_define_region_ex cfg32 s0 start size).2.tail) ∧
      (∀ size, ∃ r, alloc_loop s4.mem s4.tail size (2 ^ cfg32.W) s4.object
        (s4.mem s4.object).next = some r) ∧
      (∀ block, block ≤ s4.tail →
        ∃ r, insert_loop s4.mem block (2 ^ cfg32.W) s4.object = some r) :=
  C16_free_list_shape cfg32 cfg32_WF reach_s4

end LwMEM


namespace LwMEM

/-- In a layout without neighbouring free blocks, consecutive free blocks are
separated by a gap. -/
theorem frees_gap {a : Nat} {l : List Blk} (hp : Pos l) (hna : NoAdj l) :
    (frees a l).Chain' (fun e1 e2 => e1.1 + e1.2 < e2.1) ∧
      ∀ e ∈ (frees a l).head?, a ≤ e.1 ∧ (¬ headFree l → a < e.1) := by
  induction l generalizing a with
  | nil => simp [frees]
  | cons b l ih =>
    obtain ⟨sz, r⟩ := b
    rw [Pos_cons] at hp
    cases r with
    | some k =>
      simp only [NoAdj] at hna
      simp only [frees]
      obtain ⟨i1, i2⟩ := ih (a := a + sz) hp.2 hna
      refine ⟨i1, fun e he => ?_⟩
      have := (i2 e he).1
      have h0 := hp.1
      simp only at h0
      exact ⟨by omega, fun _ => by omega⟩
    | none =>
      simp only [NoAdj] at hna
      simp only [frees]
      obtain ⟨i1, i2⟩ := ih (a := a + sz) hp.2 hna.2
      refine ⟨List.chain'_cons'.2 ⟨fun y hy => (i2 y hy).2 hna.1, i1⟩, fun e he => ?_⟩
      simp only [List.head?_cons, Option.mem_def, Option.some.injEq] at he
      subst he
      exact ⟨Nat.le_refl _, fun hh => absurd trivial hh⟩

/-- The same gap, read from memory: the `next` of a free block is the end of
the list or lies beyond the end of the block. -/
theorem frees_next_gap {m : Mem} {a : Nat} {l : List Blk} {nx : Nat} (h : FreeSeg m a l nx)
    (hp : Pos l) (hna : NoAdj l) {e : Nat × Nat} (he : e ∈ frees a l) :
    (m e.1).next = nx ∨ e.1 + (m e.1).size < (m e.1).next := by
  induction l generalizing a with
  | nil => simp [frees] at he
  | cons b l ih =>
    obtain ⟨sz, r⟩ := b
    rw [Pos_cons] at hp
    cases r with
    | some k =>
      simp only [NoAdj] at hna
      simp only [frees] at he
      simp only [FreeSeg] at h
      exact ih h hp.2 hna he
    | none =>
      simp only [NoAdj] at hna
      simp only [frees, List.mem_cons] at he
      simp only [FreeSeg] at h
      rcases he with he | he
      · rw [he]
        simp only
        rw [h.1]
        simp only
        cases l with
        | nil => left; rfl
        | cons u l' =>
          obtain ⟨us, ur⟩ := u
          cases ur with
          | none => exact absurd trivial hna.1
          | some j =>
            simp only [nextFree]
            have hp' := hp.2
            rw [Pos_cons] at hp'
            have h0 := hp'.1
            simp only at h0
            rcases nextFree_range (a + sz + us) l' nx hp'.2 with e1 | e1
            · left; exact e1
            · right; omega
      · exact ih h.2 hp.2 hna.2 he

/-- C17: coalescing is complete.  In every reachable state, two consecutive
nodes of the free list are never address-adjacent: for consecutive nodes
`(a1, s1)`, `(a2, s2)` of the list, `a1 + s1 < a2`; in memory, every node `b` of
the list whose `next` is not `tail` satisfies `b + b->size < b->next`. -/
theorem C17_coalescing_complete (c : Config) (hc : c.WF) {base : Nat} {s : State}
    {L : List (Nat × Nat)} (hr : Reachable c base s L) :
    ∃ fl, freeList c s = some fl ∧
      fl.Chain' (fun e1 e2 => e1.1 + e1.2 < e2.1) ∧
      ∀ e ∈ fl, (s.mem e.1).next ≠ s.tail → e.1 + (s.mem e.1).size < (s.mem e.1).next := by
  obtain ⟨l, hinv, _⟩ := reach_inv c hc hr
  have hpos := Pos_of_good c hc hinv.good
  refine ⟨frees base l, freeList_eq c hc hinv, (frees_gap hpos hinv.noadj).1, fun e he hne => ?_⟩
  rcases frees_next_gap hinv.free hpos hinv.noadj he with h | h
  · exact absurd h hne
  · exact h

/-- Witness for C17: the scenario after the second of three allocations was
released; the two free nodes are separated by the third allocation. -/
theorem C17_coalescing_complete_witness :
    ∃ fl, freeList cfg32 s4 = some fl ∧
      fl.Chain' (fun e1 e2 => e1.1 + e1.2 < e2.1) ∧
      ∀ e ∈ fl, (s4.mem e.1).next ≠ s4.tail →
        e.1 + (s4.mem e.1).size < (s4.mem e.1).next :=
  C17_coalescing_complete cfg32 cfg32_WF reach_s4

end LwMEM


namespace LwMEM

/-- Walking memory block by block from the start of a layout visits exactly
the blocks of the layout. -/
theorem tiling_blocks (c : Config) (hc : c.WF) {m : Mem} {tail : Nat} {a : Nat} {l : List Blk}
    {nx : Nat} (k : Nat) (hf : FreeSeg m a l nx) (hu : UsedSeg c m a l) (hp : Pos l)
    (hK : total l < 2 ^ (c.W - 1)) (ht : a + total l ≤ tail) :
    tiling c m tail (k + l.length) a =
      (tiling c m tail k (a + total l)).map (fun r => blocks a l ++ r) := by
  have hM := two_pow_W c hc
  induction l generalizing a with
  | nil => simp [blocks]
  | cons b l ih =>
    obtain ⟨sz, r⟩ := b
    rw [Pos_cons] at hp
    have h0 := hp.1
    simp only [total_cons] at hK ht h0 ⊢
    have hne : ¬ (a = tail) := by omega
    have hraw : raw_size c m a = sz ∧ is_allocated c m a = r.isSome := by
      cases r with
      | none =>
        simp only [FreeSeg] at hf
        unfold raw_size is_allocated
        rw [hf.1]
        simp only [Option.isSome_none, decide_eq_false_iff_not, ne_eq, not_not]
        refine ⟨by rw [and_not_mask c hc, Nat.mod_eq_of_lt (by omega)], ?_⟩
        by_contra hne'
        have := (and_mask_ne_zero c hc (x := sz) (by omega)).1 hne'
        omega
      | some j =>
        simp only [UsedSeg] at hu
        unfold raw_size is_allocated
        obtain ⟨k1, k2⟩ := live_header c hc hu.1 (show sz < 2 ^ (c.W - 1) by omega)
        exact ⟨k2, by simp [k1]⟩
    have hf' : FreeSeg m (a + sz) l nx := by
      cases r with
      | none => simp only [FreeSeg] at hf; exact hf.2
      | some j => simp only [FreeSeg] at hf; exact hf
    have hu' : UsedSeg c m (a + sz) l := by
      cases r with
      | none => simp only [UsedSeg] at hu; exact hu
      | some j => simp only [UsedSeg] at hu; exact hu.2
    have e : k + (⟨sz, r⟩ :: l).length = (k + l.length) + 1 := by simp; omega
    rw [e, tiling]
    simp only [hne, if_false, hraw.1, hraw.2]
    rw [ih hf' hu' hp.2 (by omega) (by omega), Nat.add_assoc]
    cases tiling c m tail k (a + (sz + total l)) with
    | none => rfl
    | some r' => simp [blocks]

/-- The block-by-block walk of a state that realises a layout. -/
theorem tiling_eq (c : Config) (hc : c.WF) {base : Nat} {s : State} {l : List Blk}
    (hinv : Inv c base s l) : tiling c s.mem s.tail (2 ^ c.W) base = some (blocks base l) := by
  have hpos := Pos_of_good c hc hinv.good
  have hM := two_pow_W c hc
  have hspan := hinv.span
  have hlen : l.length ≤ total l := by
    clear hinv hspan
    induction l with
    | nil => simp
    | cons b l ih =>
      rw [Pos_cons] at hpos
      have := ih hpos.2
      simp only [List.length_cons, total_cons]
      omega
  obtain ⟨k, hk⟩ : ∃ k, 2 ^ c.W = (k + 1) + l.length := ⟨2 ^ c.W - 1 - l.length, by omega⟩
  rw [hk, tiling_blocks c hc (k + 1) hinv.free hinv.used hpos hspan (by rw [hinv.tail_eq]),
    ← hinv.tail_eq, tiling]
  simp

theorem blocks_mem {a : Nat} {l : List Blk} {e : Nat × Nat × Bool} (h : e ∈ blocks a l) :
    ∃ b ∈ l, e.2.1 = b.size ∧ e.2.2 = b.req.isSome := by
  induction l generalizing a with
  | nil => simp [blocks] at h
  | cons b l ih =>
    simp only [blocks, List.mem_cons] at h
    rcases h with h | h
    · exact ⟨b, List.mem_cons_self _ _, by rw [h], by rw [h]⟩
    · obtain ⟨b', hb, h1, h2⟩ := ih h
      exact ⟨b', List.mem_cons_of_mem _ hb, h1, h2⟩

/-- C18 fails as stated: in the 32-bit default build (`B = 8`,
`LWMEM_BLOCK_MININUM_SIZE = 16`), after `lwmem_malloc_ex(4)` on the 1024-byte
region the live block at `0x1000` has a raw size of 12 bytes; and on a region
of 16 bytes the only free block has 8 bytes. -/
theorem C18_min_block_counterexample :
    Reachable cfg32 4096 (after_malloc cfg32 sd 4) [(4104, 4)] ∧
    is_allocated cfg32 (after_malloc cfg32 sd 4).mem 4096 = true ∧
    raw_size cfg32 (after_malloc cfg32 sd 4).mem 4096 = 12 ∧
    12 < LWMEM_BLOCK_MININUM_SIZE cfg32 ∧
    Reachable cfg32 4096 (lwmem_define_region_ex cfg32 s0 4096 16).2 [] ∧
    freeList cfg32 (lwmem_define_region_ex cfg32 s0 4096 16).2 = some [(4096, 8)] ∧
    8 < LWMEM_BLOCK_MININUM_SIZE cfg32 :=
  ⟨Reachable.malloc 4 4104 (after_malloc cfg32 sd 4) reach_sd (by decide)
      (malloc_eq_of_fst cfg32 sd 4 4104 (by decide)),
    by decide, by decide, by decide,
    Reachable.define s0 4096 16 (by decide) (by decide) (by decide) (by decide)
      (by show 16 ≤ wsub cfg32 16 4096; decide) (by decide),
    by decide, by decide⟩

/-- C18, amended: in every reachable state the block-by-block walk from `base`
reaches `tail`, and every block it meets, free or allocated, has a raw size of
at least `B = LWMEM_BYTE_ALIGNMENT_UPPER(sizeof(lwmem_block_t))`, which is
half of `LWMEM_BLOCK_MININUM_SIZE`; an allocated block has at least `B + A`
bytes. -/
theorem C18_block_size_bound (c : Config) (hc : c.WF) {base : Nat} {s : State}
    {L : List (Nat × Nat)} (hr : Reachable c base s L) :
    LWMEM_BLOCK_MININUM_SIZE c = 2 * c.B ∧
    ∃ bl, tiling c s.mem s.tail (2 ^ c.W) base = some bl ∧
      ∀ e ∈ bl, c.B ≤ e.2.1 ∧ (e.2.2 = true → c.B + c.A ≤ e.2.1) := by
  obtain ⟨l, hinv, _⟩ := reach_inv c hc hr
  refine ⟨min_eq c hc, blocks base l, tiling_eq c hc hinv, fun e he => ?_⟩
  obtain ⟨b, hb, h1, h2⟩ := blocks_mem he
  obtain ⟨_, g2, g3⟩ := hinv.good b hb
  rw [h1, h2]
  refine ⟨g2, fun hs => ?_⟩
  obtain ⟨n, hn⟩ := Option.isSome_iff_exists.1 hs
  obtain ⟨n0, hw⟩ := g3 n hn
  obtain ⟨a1, a2, _⟩ := align_up_spec c hc n
  have := Nat.le_of_dvd (by omega) a1
  unfold want at hw
  omega

/-- Witness for C18: the scenario after the second of three allocations was
released. -/
theorem C18_block_size_bound_witness :
    LWMEM_BLOCK_MININUM_SIZE cfg32 = 2 * cfg32.B ∧
    ∃ bl, tiling cfg32 s4.mem s4.tail (2 ^ cfg32.W) 4096 = some bl ∧
      ∀ e ∈ bl, cfg32.B ≤ e.2.1 ∧ (e.2.2 = true → cfg32.B + cfg32.A ≤ e.2.1) :=
  C18_block_size_bound cfg32 cfg32_WF reach_s4

end LwMEM


namespace LwMEM

theorem add_pred_mod (A x : Nat) (hA : 0 < A) :
    (x + (A - 1)) % A = if x % A = 0 then A - 1 else x % A - 1 := by
  have hd := Nat.div_add_mod x A
  have hr := Nat.mod_lt x hA
  by_cases h0 : x % A = 0
  · rw [if_pos h0]
    have e : x + (A - 1) = (A - 1) + A * (x / A) := by omega
    rw [e, Nat.add_mul_mod_self_left, Nat.mod_eq_of_lt (by omega)]
  · rw [if_neg h0]
    have e : x + (A - 1) = (x % A - 1) + A * (x / A + 1) := by
      rw [Nat.mul_add, Nat.mul_one]; omega
    rw [e, Nat.add_mul_mod_self_left, Nat.mod_eq_of_lt (by omega)]

/-- The mask form of `LWMEM_BYTE_ALIGNMENT_LOWER` for any power-of-two
alignment that fits the word. -/
theorem LOWER_eq_pow (c : Config) (hA : ∃ k, c.A = 2 ^ k) (hlt : c.A < 2 ^ c.W) {y : Nat}
    (hy : y < 2 ^ c.W) : LWMEM_BYTE_ALIGNMENT_LOWER c y = y - y % c.A := by
  obtain ⟨k, hk⟩ := hA
  have hpos : 0 < c.A := by rw [hk]; exact Nat.pos_pow_of_pos _ (by decide)
  unfold LWMEM_BYTE_ALIGNMENT_LOWER wnot
  rw [wsub_eq c (show 1 ≤ c.A by omega) hlt, Nat.mod_eq_of_lt (by omega), hk]
  exact and_not_low y k c.W hy

theorem UPPER_INCREASE_pow (c : Config) (hA : ∃ k, c.A = 2 ^ k) (hlt : c.A < 2 ^ c.W) {x : Nat}
    (hx : x < 2 ^ c.W) :
    LWMEM_BYTE_ALIGNMENT_UPPER_INCREASE c x = c.A - 1 - (x + (c.A - 1)) % c.A := by
  have hpos : 0 < c.A := by
    obtain ⟨k, hk⟩ := hA
    rw [hk]; exact Nat.pos_pow_of_pos _ (by decide)
  have hdvd : c.A ∣ 2 ^ c.W := by
    obtain ⟨k, hk⟩ := hA
    rw [hk] at hlt ⊢
    have : k < c.W := (Nat.pow_lt_pow_iff_right (by decide)).1 hlt
    exact Nat.pow_dvd_pow 2 (by omega)
  unfold LWMEM_BYTE_ALIGNMENT_UPPER_INCREASE
  have hL : ∀ y, (y &&& wnot c (wsub c c.A 1)) = LWMEM_BYTE_ALIGNMENT_LOWER c y := fun _ => rfl
  rw [hL, wsub_eq c (show 1 ≤ c.A by omega) hlt]
  have hm := Nat.mod_lt (x + (c.A - 1)) hpos
  by_cases hw : x + (c.A - 1) < 2 ^ c.W
  · rw [wadd_eq c hw, LOWER_eq_pow c hA hlt hw]
    have h1 := add_pred_mod c.A x hpos
    have h2 := Nat.mod_le x c.A
    rw [wsub_eq c (by split_ifs at h1 <;> omega) (by omega)]
    omega
  · rw [wadd_wrap c (by omega) (by omega)]
    have hy : x + (c.A - 1) - 2 ^ c.W < 2 ^ c.W := by omega
    rw [LOWER_eq_pow c hA hlt hy]
    obtain ⟨q, hq⟩ := hdvd
    have e : (x + (c.A - 1) - 2 ^ c.W) % c.A = (x + (c.A - 1)) % c.A := by
      rw [hq]; exact Nat.sub_mul_mod (by rw [← hq]; omega)
    have hle := Nat.mod_le (x + (c.A - 1) - 2 ^ c.W) c.A
    rw [e] at hle ⊢
    have hlt' : x + (c.A - 1) - 2 ^ c.W - (x + (c.A - 1)) % c.A < x := by omega
    rw [wsub_wrap c hlt' hx]
    generalize (x + (c.A - 1)) % c.A = d at *
    generalize 2 ^ c.W = M at *
    omega

/-- C19: the bit-mask alignment macros equal their arithmetic definitions.
For a power-of-two `A` below `2 ^ W` and every `W`-bit `x`:
`LWMEM_BYTE_ALIGNMENT_LOWER(x)` is the greatest multiple of `A` that is at most
`x`; `LWMEM_BYTE_ALIGNMENT_LOWER_DECREASE(x) = x mod A`; when `x + A - 1` does
not wrap, `LWMEM_BYTE_ALIGNMENT_UPPER(x)` is the least multiple of `A` that is
at least `x`; and always, also when `x + A - 1` wraps,
`LWMEM_BYTE_ALIGNMENT_UPPER_INCREASE(x) = (A - x mod A) mod A`, a value below
`A` that added to `x` gives a multiple of `A`. -/
theorem C19_alignment_macros (c : Config) (hA : ∃ k, c.A = 2 ^ k) (hlt : c.A < 2 ^ c.W)
    (x : Nat) (hx : x < 2 ^ c.W) :
    (c.A ∣ LWMEM_BYTE_ALIGNMENT_LOWER c x ∧ LWMEM_BYTE_ALIGNMENT_LOWER c x ≤ x ∧
      ∀ y, c.A ∣ y → y ≤ x → y ≤ LWMEM_BYTE_ALIGNMENT_LOWER c x) ∧
    LWMEM_BYTE_ALIGNMENT_LOWER_DECREASE c x = x % c.A ∧
    (x + c.A - 1 < 2 ^ c.W →
      c.A ∣ LWMEM_BYTE_ALIGNMENT_UPPER c x ∧ x ≤ LWMEM_BYTE_ALIGNMENT_UPPER c x ∧
      ∀ y, c.A ∣ y → x ≤ y → LWMEM_BYTE_ALIGNMENT_UPPER c x ≤ y) ∧
    LWMEM_BYTE_ALIGNMENT_UPPER_INCREASE c x = (c.A - x % c.A) % c.A ∧
    LWMEM_BYTE_ALIGNMENT_UPPER_INCREASE c x < c.A ∧
    c.A ∣ x + LWMEM_BYTE_ALIGNMENT_UPPER_INCREASE c x := by
  have hpos : 0 < c.A := by
    obtain ⟨k, hk⟩ := hA
    rw [hk]; exact Nat.pos_pow_of_pos _ (by decide)
  have hr := Nat.mod_lt x hpos
  have hd := Nat.div_add_mod x c.A
  have hmul : ∀ y z, c.A ∣ y → c.A ∣ z → y < z → y + c.A ≤ z := by
    rintro y z ⟨p, rfl⟩ ⟨q, rfl⟩ h
    have : p < q := Nat.lt_of_mul_lt_mul_left h
    calc c.A * p + c.A = c.A * (p + 1) := by rw [Nat.mul_add, Nat.mul_one]
      _ ≤ c.A * q := Nat.mul_le_mul_left _ this
  refine ⟨?_, ?_, ?_, ?_⟩
  · rw [LOWER_eq_pow c hA hlt hx]
    refine ⟨Nat.dvd_sub_mod x, by omega, fun y hy hyx => ?_⟩
    by_contra hlt'
    have := hmul (x - x % c.A) y (Nat.dvd_sub_mod x) hy (by omega)
    omega
  · obtain ⟨k, hk⟩ := hA
    unfold LWMEM_BYTE_ALIGNMENT_LOWER_DECREASE
    rw [wsub_eq c (show 1 ≤ c.A by omega) hlt, hk]
    exact Nat.and_pow_two_sub_one_eq_mod x k
  · intro hw
    have hw' : x + (c.A - 1) < 2 ^ c.W := by omega
    unfold LWMEM_BYTE_ALIGNMENT_UPPER
    rw [wsub_eq c (show 1 ≤ c.A by omega) hlt, wadd_eq c hw', LOWER_eq_pow c hA hlt hw']
    have hm := Nat.mod_lt (x + (c.A - 1)) hpos
    refine ⟨Nat.dvd_sub_mod _, by omega, fun y hy hxy => ?_⟩
    by_contra hlt'
    have := hmul y (x + (c.A - 1) - (x + (c.A - 1)) % c.A) hy (Nat.dvd_sub_mod _) (by omega)
    omega
  · rw [UPPER_INCREASE_pow c hA hlt hx, add_pred_mod c.A x hpos]
    by_cases h0 : x % c.A = 0
    · rw [if_pos h0, h0]
      simp only [Nat.sub_self, Nat.sub_zero, Nat.mod_self, Nat.add_zero]
      exact ⟨trivial, hpos, Nat.dvd_of_mod_eq_zero h0⟩
    · rw [if_neg h0]
      have e : c.A - 1 - (x % c.A - 1) = c.A - x % c.A := by omega
      have e2 : (c.A - x % c.A) % c.A = c.A - x % c.A := Nat.mod_eq_of_lt (by omega)
      rw [e, e2]
      refine ⟨rfl, by omega, ⟨x / c.A + 1, ?_⟩⟩
      rw [Nat.mul_add, Nat.mul_one]
      omega

/-- Witness for C19: the 32-bit default build at `x = 0xFFFFFFFC`, the largest
multiple of `A = 4`. -/
theorem C19_alignment_macros_witness :
    (cfg32.A ∣ LWMEM_BYTE_ALIGNMENT_LOWER cfg32 4294967292 ∧
      LWMEM_BYTE_ALIGNMENT_LOWER cfg32 4294967292 ≤ 4294967292 ∧
      ∀ y, cfg32.A ∣ y → y ≤ 4294967292 → y ≤ LWMEM_BYTE_ALIGNMENT_LOWER cfg32 4294967292) ∧
    LWMEM_BYTE_ALIGNMENT_LOWER_DECREASE cfg32 4294967292 = 4294967292 % cfg32.A ∧
    (4294967292 + cfg32.A - 1 < 2 ^ cfg32.W →
      cfg32.A ∣ LWMEM_BYTE_ALIGNMENT_UPPER cfg32 4294967292 ∧
      4294967292 ≤ LWMEM_BYTE_ALIGNMENT_UPPER cfg32 4294967292 ∧
      ∀ y, cfg32.A ∣ y → 4294967292 ≤ y → LWMEM_BYTE_ALIGNMENT_UPPER cfg32 4294967292 ≤ y) ∧
    LWMEM_BYTE_ALIGNMENT_UPPER_INCREASE cfg32 4294967292 =
      (cfg32.A - 4294967292 % cfg32.A) % cfg32.A ∧
    LWMEM_BYTE_ALIGNMENT_UPPER_INCREASE cfg32 4294967292 < cfg32.A ∧
    cfg32.A ∣ 4294967292 + LWMEM_BYTE_ALIGNMENT_UPPER_INCREASE cfg32 4294967292 :=
  C19_alignment_macros cfg32 ⟨2, rfl⟩ (by decide) 4294967292 (by decide)

end LwMEM


namespace LwMEM

theorem blocks_frees (a : Nat) (l : List Blk) :
    ((blocks a l).filter (fun e => !e.2.2)).map (fun e => (e.1, e.2.1)) = frees a l := by
  induction l generalizing a with
  | nil => rfl
  | cons b l ih =>
    obtain ⟨sz, r⟩ := b
    cases r with
    | none => simp [blocks, frees, ih]
    | some k => simp [blocks, frees, ih]

theorem blocks_lives (c : Config) (a : Nat) (l : List Blk) :
    ((blocks a l).filter (fun e => e.2.2)).map (fun e => e.1 + c.B) =
      (lives c a l).map Prod.fst := by
  induction l generalizing a with
  | nil => rfl
  | cons b l ih =>
    obtain ⟨sz, r⟩ := b
    cases r with
    | none => simp [blocks, lives, ih]
    | some k => simp [blocks, lives, ih]

theorem blocks_sum (a : Nat) (l : List Blk) :
    ((blocks a l).map (fun e => e.2.1)).sum = total l := by
  induction l generalizing a with
  | nil => rfl
  | cons b l ih => simp [blocks, ih]

theorem blocks_dvd {A a : Nat} {l : List Blk} (ha : A ∣ a) (hl : ∀ b ∈ l, A ∣ b.size) :
    ∀ e ∈ blocks a l, A ∣ e.1 ∧ A ∣ e.2.1 := by
  induction l generalizing a with
  | nil => simp [blocks]
  | cons b l ih =>
    intro e he
    simp only [blocks, List.mem_cons] at he
    have hb := hl b (List.mem_cons_self _ _)
    rcases he with he | he
    · rw [he]; exact ⟨ha, hb⟩
    · exact ih (Nat.dvd_add ha hb) (fun b' hb' => hl b' (List.mem_cons_of_mem _ hb')) e he

/-- C20: blocks tile the region and no byte is lost.  In every reachable state,
starting at `base` and repeatedly adding the raw size of the block found there
hits `tail` exactly; the blocks met with the allocated bit clear are exactly
the nodes of the free list, in order, and those with the bit set are exactly
the blocks of the live allocations; every block address and every raw size is a
multiple of `A`; and the raw sizes add up to `tail - base`. -/
theorem C20_blocks_tile_region (c : Config) (hc : c.WF) {base : Nat} {s : State}
    {L : List (Nat × Nat)} (hr : Reachable c base s L) :
    ∃ bl fl, tiling c s.mem s.tail (2 ^ c.W) base = some bl ∧ freeList c s = some fl ∧
      (bl.filter (fun e => !e.2.2)).map (fun e => (e.1, e.2.1)) = fl ∧
      ((bl.filter (fun e => e.2.2)).map (fun e => e.1 + c.B)).Perm (L.map Prod.fst) ∧
      (∀ e ∈ bl, c.A ∣ e.1 ∧ c.A ∣ e.2.1) ∧
      (bl.map (fun e => e.2.1)).sum = s.tail - base := by
  obtain ⟨l, hinv, hperm⟩ := reach_inv c hc hr
  refine ⟨blocks base l, frees base l, tiling_eq c hc hinv, freeList_eq c hc hinv,
    blocks_frees base l, ?_, blocks_dvd hinv.base_al (fun b hb => (hinv.good b hb).1), ?_⟩
  · rw [blocks_lives]
    exact (hperm.map Prod.fst).symm
  · rw [blocks_sum, hinv.tail_eq]
    omega

/-- Witness for C20: the scenario after the second of three allocations was
released: blocks of 108, 208, 308 and 392 bytes from `0x1000`. -/
theorem C20_blocks_tile_region_witness :
    ∃ bl fl, tiling cfg32 s4.mem s4.tail (2 ^ cfg32.W) 4096 = some bl ∧
      freeList cfg32 s4 = some fl ∧
      (bl.filter (fun e => !e.2.2)).map (fun e => (e.1, e.2.1)) = fl ∧
      ((bl.filter (fun e => e.2.2)).map (fun e => e.1 + cfg32.B)).Perm
        ([(4420, 300), (4104, 100)].map Prod.fst) ∧
      (∀ e ∈ bl, cfg32.A ∣ e.1 ∧ cfg32.A ∣ e.2.1) ∧
      (bl.map (fun e => e.2.1)).sum = s4.tail - 4096 :=
  C20_blocks_tile_region cfg32 cfg32_WF reach_s4

end LwMEM
